import Mathlib

/-!
# Lamport signature forgery (`pset01/forge.go`)

A shallow embedding of `Forge`, `GenerateRandomBytes` and `GenerateRandomString`
and theorems about them.

Modelling conventions.

* A Go `byte` is a `Fin 256`; the fixed-size arrays `Block` (`[32]byte`),
  `Message` (`[32]byte`) and `Signature.Preimage` (`[256]Block`) are lists that
  carry their length.
* The Go map `knownblocks` (`map[int]Block`) is an association list without
  duplicate keys; `len` is its length.
* Loops thread their state explicitly.  An index that leaves its array, which
  makes the Go runtime panic, is a separate outcome of the model.
* What Go prints on standard output is collected in a list of strings.
* The secure random source is a function from the number of requests served so
  far to the outcome of the next request.
* The hash function, the message digest, the hard coded key and signatures and
  `Verify` live in other files of the package; they are parameters here, and
  `Verify` is also given as the spec describes it.
-/

namespace Lamport

/-! ## Data model -/

abbrev Byte := Fin 256

/-- A `Block` is a `[32]byte`. -/
structure Block where
  bytes : List Byte
  size : bytes.length = 32
  deriving DecidableEq

/-- A `Message` is the 32 byte digest of a string. -/
structure Message where
  bytes : List Byte
  size : bytes.length = 32
  deriving DecidableEq

/-- A `Signature` holds `Preimage [256]Block`. -/
structure Signature where
  Preimage : List Block
  size : Preimage.length = 256
  deriving DecidableEq

/-- A `PublicKey` holds two rows of 256 blocks, the row for bit 0 and the row
for bit 1. -/
structure PublicKey where
  row0 : List Block
  row1 : List Block
  size0 : row0.length = 256
  size1 : row1.length = 256
  deriving DecidableEq

/-- The zero value of `Block`. -/
def Block.zero : Block := ⟨List.replicate 32 0, List.length_replicate _ _⟩

/-- The zero value of `Signature` (`var sig Signature`). -/
def Signature.zero : Signature := ⟨List.replicate 256 Block.zero, List.length_replicate _ _⟩

/-- The assignment `sig.Preimage[i] = b` for an index `i` in range (the
callers check the index first). -/
def Signature.setPreimage (sig : Signature) (i : Nat) (b : Block) : Signature :=
  ⟨sig.Preimage.set i b, by rw [List.length_set]; exact sig.size⟩

/-- The first 32 bytes of a byte supply, as a `Block`. -/
def Block.ofFn (f : Nat → Byte) : Block := ⟨(List.range 32).map f, by simp⟩

/-- The block `old` after its first `n` bytes were overwritten from a byte
supply. -/
def Block.overwrite (old : Block) (n : Nat) (f : Nat → Byte) : Block :=
  ⟨(List.range 32).map (fun k => if k < n then f k else old.bytes.getD k 0), by simp⟩

/-- A Go `error` value. -/
abbrev Error := String

/-! ## The map `knownblocks` -/

/-- The map `knownblocks`: slot index to revealed block. -/
abbrev KnownBlocks := List (Nat × Block)

namespace KnownBlocks

/-- The lookup `v, prs := m[s]`: `some v` when `prs`, `none` otherwise. -/
def lookup : KnownBlocks → Nat → Option Block
  | [], _ => none
  | (k, v) :: rest, s => if k = s then some v else lookup rest s

/-- The assignment `m[s] = p`. -/
def insert : KnownBlocks → Nat → Block → KnownBlocks
  | [], s, p => [(s, p)]
  | (k, v) :: rest, s, p => if k = s then (k, p) :: rest else (k, v) :: insert rest s p

/-- The built-in `len(m)`. -/
def len (m : KnownBlocks) : Nat := m.length

/-- The keys of the map. -/
def keys (m : KnownBlocks) : List Nat := m.map Prod.fst

end KnownBlocks

/-! ## Bits -/

/-- The bit convention of the source comment and of the spec:
`(buffer[i/8] >> (7 - i%8)) & 1`. -/
def BitAt (buffer : List Byte) (i : Nat) : Nat :=
  ((buffer.getD (i / 8) 0).val >>> (7 - i % 8)) &&& 1

/-- The mask `byte(1 << uint(j))`. -/
def mask (j : Nat) : Nat := (1 <<< j) % 256

/-- The values of `j` in `for j := 7; j >= 0; j--`. -/
def jRange : List Nat := [7, 6, 5, 4, 3, 2, 1, 0]

/-- The slot a message selects at bit index `i`: `i` in row 0 when the bit is 0,
`i + 256` in row 1 when it is 1. -/
def slotOf (m : Message) (i : Nat) : Nat :=
  if BitAt m.bytes i = 0 then i else i + 256

/-! ## Loops -/

/-- How a loop body ends: the loop goes on, the function returns, or the
runtime panics. -/
inductive Ctl (σ ρ : Type) where
  | next (s : σ)
  | ret (r : ρ)
  | panicked
  deriving DecidableEq

/-- A `for ... range xs` loop whose body may return or panic. -/
def forEach {α σ ρ : Type} (body : α → σ → Ctl σ ρ) : List α → σ → Ctl σ ρ
  | [], s => .next s
  | x :: xs, s =>
    match body x s with
    | .next s1 => forEach body xs s1
    | .ret r => .ret r
    | .panicked => .panicked

/-! ## Leak aggregation (lines 135-161) -/

/-- The variables of the aggregation loop, and what it has printed. -/
structure AggState where
  knownblocks : KnownBlocks
  si : Nat
  out : List String
  deriving DecidableEq

/-- The text printed on a mismatch. -/
def inconsistentText : String := "The existing sinatures are not consistent"

/-- The body shared by the two branches of the bit test (lines 144-149 with
`slot = si`, lines 151-156 with `slot = si + 256`), `p` being
`sigslice[mi].Preimage[si]`. -/
def recordSlot (st : AggState) (slot : Nat) (p : Block) : AggState :=
  match st.knownblocks.lookup slot with
  | some v =>
    if v ≠ p then
      { st with out := st.out ++ [inconsistentText] }
    else
      { st with knownblocks := st.knownblocks.insert slot p }
  | none => { st with knownblocks := st.knownblocks.insert slot p }

/-- One pass of the innermost loop (lines 141-158). -/
def aggBit (sig : Signature) (bk : Byte) (j : Nat) (st : AggState) : Ctl AggState Empty :=
  match sig.Preimage[st.si]? with
  | none => .panicked
  | some p =>
    let st1 :=
      if bk.val &&& mask j = 0 then recordSlot st st.si p
      else recordSlot st (st.si + 256) p
    .next { st1 with si := st1.si + 1 }

/-- The loop over `j` for one byte of the message (lines 140-159). -/
def aggByte (sig : Signature) (bk : Byte) (st : AggState) : Ctl AggState Empty :=
  forEach (aggBit sig bk) jRange st

/-- The body of the outer loop for the message with index `mi`
(lines 138-160). -/
def aggMsg (sigslice : List Signature) (mi : Nat) (msg : Message) (st : AggState) :
    Ctl AggState Empty :=
  match sigslice[mi]? with
  | none => .panicked
  | some sig => forEach (aggByte sig) msg.bytes { st with si := 0 }

/-- The outer loop `for mi, msg_ := range msgslice`, from index `mi` on. -/
def aggLoop (sigslice : List Signature) : Nat → List Message → AggState → Ctl AggState Empty
  | _, [], st => .next st
  | mi, msg :: rest, st =>
    match aggMsg sigslice mi msg st with
    | .next st1 => aggLoop sigslice (mi + 1) rest st1
    | .ret r => .ret r
    | .panicked => .panicked

/-- The aggregation of lines 135-161, started on the empty map. -/
def aggregate (msgslice : List Message) (sigslice : List Signature) : Ctl AggState Empty :=
  aggLoop sigslice 0 msgslice { knownblocks := [], si := 0, out := [] }

/-! ## The random source and the nonce (lines 215-240) -/

/-- What one request to `rand.Read` yields: a supply of bytes, of which the
caller takes as many as its buffer holds, or an error, reported before anything
was written to the buffer (`fail`) or after the first `n` bytes of the buffer
were written from `bytes` (`failAfter`; in Go `n` is below the length of the
buffer, a bound the model does not need). -/
inductive RandResult where
  | ok (bytes : Nat → Byte)
  | fail (e : Error)
  | failAfter (e : Error) (n : Nat) (bytes : Nat → Byte)

/-- The error a request reports, if any. -/
def RandResult.error? : RandResult → Option Error
  | .ok _ => none
  | .fail e => some e
  | .failAfter e _ _ => some e

/-- The random source: the outcome of the request made after `c` earlier
requests. -/
abbrev RandSource := Nat → RandResult

/-- The function `GenerateRandomBytes(n)`, called when `c` requests have been
made; the pair returned by the Go function and the new number of requests. -/
def GenerateRandomBytes (rnd : RandSource) (c : Nat) (n : Nat) :
    (List Byte × Option Error) × Nat :=
  match rnd c with
  | .ok f => (((List.range n).map f, none), c + 1)
  | .fail e => (([], some e), c + 1)
  | .failAfter e _ _ => (([], some e), c + 1)

/-- The constant `letters`. -/
def letters : String := "0123456789ABCDEFGHIJKLMNOPQRSTUVWXYZabcdefghijklmnopqrstuvwxyz-"

/-- The index `b % byte(len(letters))`. -/
def letterIndex (b : Byte) : Nat := b.val % (letters.length % 256)

/-- The character `letters[b % byte(len(letters))]`. -/
def letterOf (b : Byte) : Char := letters.toList.getD (letterIndex b) '0'

/-- The function `GenerateRandomString(n)`, called when `c` requests have been
made. -/
def GenerateRandomString (rnd : RandSource) (c : Nat) (n : Nat) :
    (String × Option Error) × Nat :=
  match GenerateRandomBytes rnd c n with
  | ((_, some err), c1) => (("", some err), c1)
  | ((bytes, none), c1) => ((String.mk (bytes.map letterOf), none), c1)

/-! ## The search loop (lines 166-211) -/

/-- What `Forge` returns. -/
structure ForgeResult where
  msg : String
  sig : Signature
  err : Option Error
  deriving DecidableEq

/-- The variables of the search loop; `draws` counts the requests made to the
random source and `tested` the candidates that `Verify` has rejected. -/
structure SearchState where
  msgString : String
  sig : Signature
  si : Nat
  draws : Nat
  tested : Nat
  deriving DecidableEq

/-- The constant `msgString_pre`. -/
def msgString_pre : String := "my forge; Jingbo Liu; jingbo.liu2013@gmail.com;"

/-- The body shared by the two branches of the bit test (lines 179-188 with
`slot = si`, lines 190-199 with `slot = si + 256`).  Both branches index
`sig.Preimage[si]`.  A failed read makes `Forge` return at once, the block
holding what the read wrote before it failed. -/
def fillSlot (rnd : RandSource) (knownblocks : KnownBlocks) (st : SearchState) (slot : Nat) :
    Ctl SearchState ForgeResult :=
  if st.si < 256 then
    match knownblocks.lookup slot with
    | some v => .next { st with sig := st.sig.setPreimage st.si v }
    | none =>
      match rnd st.draws with
      | .ok bytes =>
        .next { st with sig := st.sig.setPreimage st.si (Block.ofFn bytes),
                        draws := st.draws + 1 }
      | .fail e => .ret ⟨st.msgString, st.sig, some e⟩
      | .failAfter e n bytes =>
        .ret ⟨st.msgString,
          st.sig.setPreimage st.si
            ((st.sig.Preimage.getD st.si Block.zero).overwrite n bytes), some e⟩
  else .panicked

/-- One pass of the innermost loop (lines 176-201). -/
def forgeBit (rnd : RandSource) (knownblocks : KnownBlocks) (bk : Byte) (j : Nat)
    (st : SearchState) : Ctl SearchState ForgeResult :=
  match (if bk.val &&& mask j = 0 then fillSlot rnd knownblocks st st.si
         else fillSlot rnd knownblocks st (st.si + 256)) with
  | .next st1 => .next { st1 with si := st1.si + 1 }
  | .ret r => .ret r
  | .panicked => .panicked

/-- The loop over `j` for one byte of the candidate (lines 175-203). -/
def forgeByte (rnd : RandSource) (knownblocks : KnownBlocks) (bk : Byte) (st : SearchState) :
    Ctl SearchState ForgeResult :=
  forEach (forgeBit rnd knownblocks bk) jRange st

/-- The two bit-walking loops over the candidate `mymsg` (lines 173-204). -/
def buildSig (rnd : RandSource) (knownblocks : KnownBlocks) (mymsg : Message)
    (st : SearchState) : Ctl SearchState ForgeResult :=
  forEach (forgeByte rnd knownblocks) mymsg.bytes { st with si := 0 }

/-- What the search loop reads and never writes. -/
structure SearchEnv where
  pub : PublicKey
  GetMessageFromString : String → Message
  Verify : Message → PublicKey → Signature → Bool
  rnd : RandSource
  knownblocks : KnownBlocks

/-- One iteration of the search loop (lines 169-207).  The error of
`GenerateRandomString` is discarded (`nounces_s, _ :=`). -/
def searchIter (env : SearchEnv) (st : SearchState) : Ctl SearchState ForgeResult :=
  let r := GenerateRandomString env.rnd st.draws 8
  let nounces_s := r.1.1
  let msgString := msgString_pre ++ nounces_s
  let mymsg := env.GetMessageFromString msgString
  match buildSig env.rnd env.knownblocks mymsg
      { st with msgString := msgString, draws := r.2 } with
  | .next st1 =>
    if env.Verify mymsg env.pub st1.sig then
      .ret ⟨st1.msgString, st1.sig, none⟩
    else
      .next { st1 with tested := st1.tested + 1 }
  | .ret r => .ret r
  | .panicked => .panicked

/-- The loop `for nounces_i := 0; nounces_i < cap; nounces_i++` with `cap`
iterations left. -/
def searchLoop (env : SearchEnv) : Nat → SearchState → Ctl SearchState ForgeResult
  | 0, st => .next st
  | cap + 1, st =>
    match searchIter env st with
    | .next st1 => searchLoop env cap st1
    | .ret r => .ret r
    | .panicked => .panicked

/-- The bound `1e9` of the search loop. -/
def iterationCap : Nat := 1000000000

/-- The state in which the search loop is entered (`msgString := msgString_pre`
at line 166, `sig` as declared at line 126). -/
def SearchState.start (sig : Signature) : SearchState :=
  { msgString := msgString_pre, sig := sig, si := 0, draws := 0, tested := 0 }

/-- Lines 166-211: the search loop followed by the final `return`. -/
def search (env : SearchEnv) (cap : Nat) (sig : Signature) : Ctl SearchState ForgeResult :=
  match searchLoop env cap (SearchState.start sig) with
  | .next st => .ret ⟨st.msgString, st.sig, none⟩
  | .ret r => .ret r
  | .panicked => .panicked

/-! ## `Verify` and `Forge` -/

/-- Modelled from the spec: `Verify` is defined in another file of the package.
Section 4.2 of the spec: for each bit index `i` in `0..255`, with
`b = BitAt(msg, i)`, the hash of `sig.Preimage[i]` must equal `pub.row[b][i]`. -/
def Verify (HashBlock : Block → Block) (msg : Message) (pub : PublicKey) (sig : Signature) :
    Bool :=
  (List.range 256).all fun i =>
    let expected := (if BitAt msg.bytes i = 0 then pub.row0 else pub.row1).getD i Block.zero
    decide (HashBlock (sig.Preimage.getD i Block.zero) = expected)

/-- The block of the public key at a slot: row 0 for slots below 256, row 1 at
position `s - 256` otherwise. -/
def PublicKey.atSlot (pub : PublicKey) (s : Nat) : Block :=
  if s < 256 then pub.row0.getD s Block.zero else pub.row1.getD (s - 256) Block.zero

/-- What `Forge` is given: the decoded constants of `signatures.go`, the
functions of the other files of the package, and the random source. -/
structure Env where
  pub : PublicKey
  sig1 : Signature
  sig2 : Signature
  sig3 : Signature
  sig4 : Signature
  GetMessageFromString : String → Message
  Verify : Message → PublicKey → Signature → Bool
  rnd : RandSource

/-- The slice `sigslice` of lines 107-111. -/
def Env.sigslice (env : Env) : List Signature := [env.sig1, env.sig2, env.sig3, env.sig4]

/-- The slice `msgslice` of lines 113-118. -/
def Env.msgslice (env : Env) : List Message :=
  [env.GetMessageFromString "1", env.GetMessageFromString "2",
   env.GetMessageFromString "3", env.GetMessageFromString "4"]

/-- The four lines printed at lines 120-123. -/
def Env.okLines (env : Env) : List String :=
  ["ok 1: " ++ toString (env.Verify (env.GetMessageFromString "1") env.pub env.sig1) ++ "\n",
   "ok 2: " ++ toString (env.Verify (env.GetMessageFromString "2") env.pub env.sig2) ++ "\n",
   "ok 3: " ++ toString (env.Verify (env.GetMessageFromString "3") env.pub env.sig3) ++ "\n",
   "ok 4: " ++ toString (env.Verify (env.GetMessageFromString "4") env.pub env.sig4) ++ "\n"]

/-- The line printed at line 162. -/
def countLine (knownblocks : KnownBlocks) : String :=
  "There are " ++ toString knownblocks.len ++ " out of 512 signatures known \n"

/-- How a run of `Forge` ends, and what it printed. -/
structure ForgeRun where
  result : Option ForgeResult
  out : List String

/-- What the search loop of `Forge` reads, the map being `knownblocks`. -/
def Env.searchEnv (env : Env) (knownblocks : KnownBlocks) : SearchEnv :=
  { pub := env.pub, GetMessageFromString := env.GetMessageFromString,
    Verify := env.Verify, rnd := env.rnd, knownblocks := knownblocks }

/-- The function `Forge` with the search bounded by `cap` iterations; `result`
is `none` when the run panics. -/
def ForgeWithCap (env : Env) (cap : Nat) : ForgeRun :=
  match aggregate env.msgslice env.sigslice with
  | .next agg =>
    let out := env.okLines ++ agg.out ++ [countLine agg.knownblocks]
    match search (env.searchEnv agg.knownblocks) cap Signature.zero with
    | .ret r => ⟨some r, out⟩
    | _ => ⟨none, out⟩
  | _ => ⟨none, env.okLines⟩

/-- The function `Forge` (lines 83-213). -/
def Forge (env : Env) : ForgeRun := ForgeWithCap env iterationCap

/-! ## Views of the aggregation used in the statements -/

/-- What the pair `(msg, sig)` reveals at bit index `i`: the slot the message
selects and the block the signature holds there. -/
def leak (msg : Message) (sig : Signature) (i : Nat) : Nat × Block :=
  (slotOf msg i, sig.Preimage.getD i Block.zero)

/-- The 256 leaks of one pair, in the order of the bit indices. -/
def leaksOf (msg : Message) (sig : Signature) : List (Nat × Block) :=
  (List.range 256).map (leak msg sig)

/-- The leaks of all pairs, in processing order. -/
def allLeaks : List Message → List Signature → List (Nat × Block)
  | m :: ms, s :: ss => leaksOf m s ++ allLeaks ms ss
  | _, _ => []

/-- The state after the leaks of `L` have been recorded one after the other. -/
def recordAll (st : AggState) (L : List (Nat × Block)) : AggState :=
  L.foldl (fun a l => recordSlot a l.1 l.2) st

/-- The state with the counter `si` set to `x`. -/
def AggState.withSi (st : AggState) (x : Nat) : AggState := { st with si := x }

/-- The empty state the aggregation starts from. -/
def AggState.init : AggState := { knownblocks := [], si := 0, out := [] }

/-- The message `msg` selects slot `s`: `s` is the slot of one of its 256 bits. -/
def selects (msg : Message) (s : Nat) : Prop := ∃ i, i < 256 ∧ slotOf msg i = s

instance (msg : Message) (s : Nat) : Decidable (selects msg s) := by
  unfold selects; infer_instance

/-- No two known pairs claim different blocks for the same slot. -/
def Consistent (msgs : List Message) (sigs : List Signature) : Prop :=
  ∀ p ∈ msgs.zip sigs, ∀ q ∈ msgs.zip sigs, ∀ i, i < 256 →
    slotOf p.1 i = slotOf q.1 i → p.2.Preimage[i]? = q.2.Preimage[i]?

instance (msgs : List Message) (sigs : List Signature) : Decidable (Consistent msgs sigs) := by
  unfold Consistent; infer_instance

/-! ## Concrete inputs -/

/-- The message whose 256 bits are all 0. -/
def msgZeros : Message := ⟨List.replicate 32 0, List.length_replicate _ _⟩

/-- The message whose 256 bits are all 1, the complement of `msgZeros`. -/
def msgOnes : Message := ⟨List.replicate 32 255, List.length_replicate _ _⟩

/-- The message whose bits 0 to 7 are 1 and whose other bits are 0; it differs
from `msgZeros` and from `msgOnes`. -/
def msgMixed : Message := ⟨255 :: List.replicate 31 0, by simp⟩

/-- The block of 32 bytes `1`. -/
def blockA : Block := ⟨List.replicate 32 1, List.length_replicate _ _⟩

/-- The block of 32 bytes `2`. -/
def blockB : Block := ⟨List.replicate 32 2, List.length_replicate _ _⟩

/-- The signature whose 256 blocks are `blockA`. -/
def sigA : Signature := ⟨List.replicate 256 blockA, List.length_replicate _ _⟩

/-- The signature whose 256 blocks are `blockB`. -/
def sigB : Signature := ⟨List.replicate 256 blockB, List.length_replicate _ _⟩

/-! ## Views of the candidate construction used in the statements -/

/-- One bit step of the candidate construction at the bit index `st.si`, the
slot being chosen by `BitAt` as the spec words it: `slot = i` if the bit is 0,
else `i + 256`. -/
def forgeStep (rnd : RandSource) (knownblocks : KnownBlocks) (msg : Message)
    (st : SearchState) : Ctl SearchState ForgeResult :=
  match fillSlot rnd knownblocks st (slotOf msg st.si) with
  | .next st1 => .next { st1 with si := st1.si + 1 }
  | .ret r => .ret r
  | .panicked => .panicked

/-- The number of bit indices below `i` whose slot is absent from the map: the
number of requests the construction makes to the random source before it
reaches position `i`. -/
def absentBefore (knownblocks : KnownBlocks) (msg : Message) (i : Nat) : Nat :=
  ((List.range i).filter (fun k => (knownblocks.lookup (slotOf msg k)).isNone)).length

/-- The bit-walking skeleton common to the two loops of `Forge` (lines 136-160
and 173-204): the counter `si` and, for every pass of the innermost loop, the
value of `si` with the outcome of the test `(bk & mask) != 0`. -/
structure WalkState where
  si : Nat
  tests : List (Nat × Bool)
  deriving DecidableEq

/-- One pass of the innermost loop of the skeleton: the test, then `si += 1`. -/
def walkBit (bk : Byte) (j : Nat) (st : WalkState) : Ctl WalkState Empty :=
  .next { si := st.si + 1, tests := st.tests ++ [(st.si, decide (bk.val &&& mask j ≠ 0))] }

/-- The loop over `j` of the skeleton. -/
def walkByte (bk : Byte) (st : WalkState) : Ctl WalkState Empty :=
  forEach (walkBit bk) jRange st

/-- The walk over a message, from `si = 0`. -/
def walk (msg : Message) : Ctl WalkState Empty :=
  forEach walkByte msg.bytes { si := 0, tests := [] }

/-- The block at position `i` of a candidate built for `msg` from the map, the
construction having started when `d0` requests had been made: the block of the
map at the slot of `i` when that slot is present, and otherwise the 32 bytes of
the request made for position `i`, which is request number
`d0 + absentBefore knownblocks msg i`. -/
def BuiltAt (rnd : RandSource) (knownblocks : KnownBlocks) (msg : Message) (d0 i : Nat)
    (b : Block) : Prop :=
  match knownblocks.lookup (slotOf msg i) with
  | some v => b = v
  | none => ∃ bytes, rnd (d0 + absentBefore knownblocks msg i) = .ok bytes ∧ b = Block.ofFn bytes

/-- The public key whose row 0 holds `blockA` and whose row 1 holds `blockB`
everywhere: under the identity in place of the hash, `sigA` signs `msgZeros`
and `sigB` signs `msgOnes`. -/
def pubAB : PublicKey :=
  ⟨List.replicate 256 blockA, List.replicate 256 blockB,
    List.length_replicate _ _, List.length_replicate _ _⟩

/-- The random source every request of which fails. -/
def rndFail : RandSource := fun _ => .fail "entropy"

/-- The random source every request of which delivers zero bytes. -/
def rndZero : RandSource := fun _ => .ok (fun _ => 0)

/-- Byte `k` of request number `c` of the source `rndSeq`: `8 * c + k + 1`, as
a byte. -/
def seqByte (c k : Nat) : Byte := ⟨(8 * c + k + 1) % 256, Nat.mod_lt _ (by norm_num)⟩

/-- The random source every request of which succeeds, request number `c`
delivering the bytes `8 * c + 1`, `8 * c + 2`, and so on. -/
def rndSeq : RandSource := fun c => .ok (seqByte c)


/-- Every leak of `L` agrees with the block first seen for its slot, in `kb` or
earlier in `L`. -/
def AllAgree (kb : KnownBlocks) (L : List (Nat × Block)) : Prop :=
  ∀ l ∈ L, (kb.lookup l.1).orElse (fun _ => KnownBlocks.lookup L l.1) = some l.2

/-- An environment of `Forge` in which the four known messages have the same
digest as every candidate, the all-zero message; the signatures are `sigA`
except the second; the public key is `pubAB` and the identity stands in for
the hash. -/
def envDup (sig2 : Signature) (rnd : RandSource) : Env :=
  { pub := pubAB, sig1 := sigA, sig2 := sig2, sig3 := sigA, sig4 := sigA,
    GetMessageFromString := fun _ => msgZeros, Verify := Verify id, rnd := rnd }

/-- An environment of `Forge` in which the four known messages, strings of one
character, digest to the all-zero message and are validly signed by `sigA`
under `pubAB` (the identity standing in for the hash), every longer string
digests to the all-one message, and the random source delivers zero bytes. -/
def envStuck : Env :=
  { pub := pubAB, sig1 := sigA, sig2 := sigA, sig3 := sigA, sig4 := sigA,
    GetMessageFromString := fun s => if s.length ≤ 1 then msgZeros else msgOnes,
    Verify := Verify id, rnd := rndZero }

/-! ## Counting passes, bit steps and calls of `Verify` -/

/-- The number of passes a `forEach` loop makes through its body, the pass that
returns or panics included. -/
def passes {α σ ρ : Type} (body : α → σ → Ctl σ ρ) : List α → σ → Nat
  | [], _ => 0
  | x :: xs, s =>
    match body x s with
    | .next s1 => 1 + passes body xs s1
    | .ret _ => 1
    | .panicked => 1

/-- The number of bit steps (passes through the body of the loop over `j`,
lines 176-201) made while the bytes of a candidate are walked. -/
def bitSteps (rnd : RandSource) (knownblocks : KnownBlocks) :
    List Byte → SearchState → Nat
  | [], _ => 0
  | bk :: rest, st =>
    passes (forgeBit rnd knownblocks bk) jRange st +
      match forgeByte rnd knownblocks bk st with
      | .next st1 => bitSteps rnd knownblocks rest st1
      | .ret _ => 0
      | .panicked => 0

/-- The number of bit steps the iteration `searchIter env st` performs. -/
def iterSteps (env : SearchEnv) (st : SearchState) : Nat :=
  let r := GenerateRandomString env.rnd st.draws 8
  let msgString := msgString_pre ++ r.1.1
  bitSteps env.rnd env.knownblocks (env.GetMessageFromString msgString).bytes
    { st with msgString := msgString, draws := r.2, si := 0 }

/-- The number of calls of `Verify` made by the search loop with `cap`
iterations left: an iteration calls `Verify` once, when its two bit-walking
loops have ended normally, and the loop goes on when `Verify` rejects. -/
def verifyCalls (env : SearchEnv) : Nat → SearchState → Nat
  | 0, _ => 0
  | cap + 1, st =>
    let r := GenerateRandomString env.rnd st.draws 8
    let msgString := msgString_pre ++ r.1.1
    let mymsg := env.GetMessageFromString msgString
    match buildSig env.rnd env.knownblocks mymsg
        { st with msgString := msgString, draws := r.2 } with
    | .next st1 =>
      if env.Verify mymsg env.pub st1.sig then 1
      else 1 + verifyCalls env cap { st1 with tested := st1.tested + 1 }
    | .ret _ => 0
    | .panicked => 0

/-- The environment `envStuck` with a random source every request of which
fails. -/
def envStuckFail : Env := { envStuck with rnd := rndFail }

/-! ## The search loop with the map among its variables -/

/-- The variables of `Forge` that are live in the search loop (lines 166-211),
the map `knownblocks` included. -/
structure SearchVars where
  knownblocks : KnownBlocks
  s : SearchState

/-- What leaves the search loop on a `return`: the values returned, and the map
as it is at that point. -/
abbrev Returned := ForgeResult × KnownBlocks

/-- The body shared by the two branches of the bit test (lines 179-188 and
190-199), reading the map from the variables. -/
def fillSlotV (rnd : RandSource) (v : SearchVars) (slot : Nat) : Ctl SearchVars Returned :=
  if v.s.si < 256 then
    match v.knownblocks.lookup slot with
    | some b => .next { v with s := { v.s with sig := v.s.sig.setPreimage v.s.si b } }
    | none =>
      match rnd v.s.draws with
      | .ok bytes =>
        .next { v with s := { v.s with sig := v.s.sig.setPreimage v.s.si (Block.ofFn bytes),
                                       draws := v.s.draws + 1 } }
      | .fail e => .ret (⟨v.s.msgString, v.s.sig, some e⟩, v.knownblocks)
      | .failAfter e n bytes =>
        .ret (⟨v.s.msgString,
          v.s.sig.setPreimage v.s.si
            ((v.s.sig.Preimage.getD v.s.si Block.zero).overwrite n bytes), some e⟩,
          v.knownblocks)
  else .panicked

/-- One pass of the innermost loop (lines 176-201), on the variables. -/
def forgeBitV (rnd : RandSource) (bk : Byte) (j : Nat) (v : SearchVars) :
    Ctl SearchVars Returned :=
  match (if bk.val &&& mask j = 0 then fillSlotV rnd v v.s.si
         else fillSlotV rnd v (v.s.si + 256)) with
  | .next v1 => .next { v1 with s := { v1.s with si := v1.s.si + 1 } }
  | .ret r => .ret r
  | .panicked => .panicked

/-- The loop over `j` (lines 175-203), on the variables. -/
def forgeByteV (rnd : RandSource) (bk : Byte) (v : SearchVars) : Ctl SearchVars Returned :=
  forEach (forgeBitV rnd bk) jRange v

/-- The two bit-walking loops over the candidate (lines 173-204), on the
variables. -/
def buildSigV (rnd : RandSource) (mymsg : Message) (v : SearchVars) : Ctl SearchVars Returned :=
  forEach (forgeByteV rnd) mymsg.bytes { v with s := { v.s with si := 0 } }

/-- One iteration of the search loop (lines 169-207), on the variables. -/
def searchIterV (env : Env) (v : SearchVars) : Ctl SearchVars Returned :=
  let r := GenerateRandomString env.rnd v.s.draws 8
  let nounces_s := r.1.1
  let msgString := msgString_pre ++ nounces_s
  let mymsg := env.GetMessageFromString msgString
  match buildSigV env.rnd mymsg
      { v with s := { v.s with msgString := msgString, draws := r.2 } } with
  | .next v1 =>
    if env.Verify mymsg env.pub v1.s.sig then
      .ret (⟨v1.s.msgString, v1.s.sig, none⟩, v1.knownblocks)
    else
      .next { v1 with s := { v1.s with tested := v1.s.tested + 1 } }
  | .ret r => .ret r
  | .panicked => .panicked

/-- The search loop with `cap` iterations left, on the variables. -/
def searchLoopV (env : Env) : Nat → SearchVars → Ctl SearchVars Returned
  | 0, v => .next v
  | cap + 1, v =>
    match searchIterV env v with
    | .next v1 => searchLoopV env cap v1
    | .ret r => .ret r
    | .panicked => .panicked

/-- An outcome of the search on `SearchState`, seen as an outcome on the
variables whose map is `kb`. -/
def withMap (kb : KnownBlocks) : Ctl SearchState ForgeResult → Ctl SearchVars Returned
  | .next s => .next ⟨kb, s⟩
  | .ret r => .ret (r, kb)
  | .panicked => .panicked

/-- The public key whose 512 blocks are all `blockA`. -/
def pubAA : PublicKey :=
  ⟨List.replicate 256 blockA, List.replicate 256 blockA,
    List.length_replicate _ _, List.length_replicate _ _⟩

/-- A stand-in for the hash that sends every block to `blockA`; under it and
`pubAA` every signature is valid for every message. -/
def hashToA : Block → Block := fun _ => blockA

/-! ## Lemmas on bits and on the map -/

theorem bit_test_iff (b j : Nat) (hj : j ≤ 7) :
    (b &&& mask j = 0) ↔ ((b >>> j) &&& 1 = 0) := by
  have hm : mask j = 2 ^ j := by
    unfold mask
    rw [Nat.shiftLeft_eq, one_mul]
    apply Nat.mod_eq_of_lt
    calc 2 ^ j ≤ 2 ^ 7 := Nat.pow_le_pow_right (by norm_num) hj
      _ < 256 := by norm_num
  rw [hm, Nat.and_two_pow, Nat.and_one_is_mod, Nat.shiftRight_eq_div_pow]
  cases h : b.testBit j
  · simp
    rw [Nat.testBit_to_div_mod] at h
    have := Nat.mod_two_eq_zero_or_one (b / 2 ^ j)
    simp at h
    omega
  · simp
    rw [Nat.testBit_to_div_mod] at h
    simpa using h

namespace KnownBlocks

theorem lookup_insert (m : KnownBlocks) (s t : Nat) (p : Block) :
    lookup (insert m s p) t = if t = s then some p else lookup m t := by
  induction m with
  | nil =>
    simp only [insert, lookup]
    by_cases h : s = t
    · simp [h]
    · have : ¬ t = s := fun e => h e.symm
      simp [h, this]
  | cons kv rest ih =>
    obtain ⟨k, v⟩ := kv
    simp only [insert]
    by_cases hk : k = s
    · subst hk
      by_cases ht : t = k
      · subst ht; simp [lookup]
      · have : ¬ k = t := fun e => ht e.symm
        simp [lookup, ht, this]
    · by_cases ht : t = s
      · subst ht
        simp [lookup, hk, ih]
      · simp only [if_neg hk, lookup, ih, if_neg ht]

theorem keys_insert (m : KnownBlocks) (s : Nat) (p : Block) :
    keys (insert m s p) = if s ∈ keys m then keys m else keys m ++ [s] := by
  induction m with
  | nil => simp [insert, keys]
  | cons kv rest ih =>
    obtain ⟨k, v⟩ := kv
    simp only [insert]
    by_cases hk : k = s
    · subst hk; simp [keys]
    · have hne : ¬ s = k := fun e => hk e.symm
      simp only [if_neg hk]
      simp only [keys] at ih ⊢
      simp only [List.map_cons, ih, List.mem_cons, hne, false_or]
      split <;> simp

theorem lookup_isSome_iff (m : KnownBlocks) (s : Nat) :
    (lookup m s).isSome ↔ s ∈ keys m := by
  induction m with
  | nil => simp [lookup, keys]
  | cons kv rest ih =>
    obtain ⟨k, v⟩ := kv
    by_cases hk : k = s
    · subst hk; simp [lookup, keys]
    · have hne : ¬ s = k := fun e => hk e.symm
      simp only [lookup, if_neg hk, ih, keys, List.map_cons, List.mem_cons, hne, false_or]

theorem lookup_eq_none_iff (m : KnownBlocks) (s : Nat) :
    lookup m s = none ↔ s ∉ keys m := by
  rw [← lookup_isSome_iff]; cases lookup m s <;> simp

theorem insert_of_lookup (m : KnownBlocks) (s : Nat) (p : Block) (h : lookup m s = some p) :
    insert m s p = m := by
  induction m with
  | nil => simp [lookup] at h
  | cons kv rest ih =>
    obtain ⟨k, v⟩ := kv
    by_cases hk : k = s
    · subst hk
      simp [lookup] at h
      simp [insert, h]
    · simp only [lookup, if_neg hk] at h
      simp [insert, hk, ih h]

theorem nodup_keys_insert (m : KnownBlocks) (s : Nat) (p : Block) (h : (keys m).Nodup) :
    (keys (insert m s p)).Nodup := by
  rw [keys_insert]
  split
  · exact h
  · rename_i hs
    rw [List.nodup_append]
    refine ⟨h, by simp, ?_⟩
    intro a ha hb
    simp at hb
    subst hb
    exact hs ha

end KnownBlocks

/-! ## The aggregation loops as a fold over the leaks -/

theorem recordSlot_si (st : AggState) (s : Nat) (p : Block) : (recordSlot st s p).si = st.si := by
  unfold recordSlot
  split
  · split <;> rfl
  · rfl

theorem recordSlot_withSi (st : AggState) (x s : Nat) (p : Block) :
    recordSlot (st.withSi x) s p = (recordSlot st s p).withSi x := by
  unfold recordSlot AggState.withSi
  cases h : st.knownblocks.lookup s with
  | none => simp [h]
  | some v => by_cases hv : v = p <;> simp [h, hv]

theorem recordAll_withSi (L : List (Nat × Block)) (st : AggState) (x : Nat) :
    recordAll (st.withSi x) L = (recordAll st L).withSi x := by
  induction L generalizing st with
  | nil => rfl
  | cons l L ih =>
    simp only [recordAll, List.foldl_cons] at ih ⊢
    rw [recordSlot_withSi, ih]

theorem recordAll_append (st : AggState) (L M : List (Nat × Block)) :
    recordAll st (L ++ M) = recordAll (recordAll st L) M := by
  simp [recordAll, List.foldl_append]

theorem withSi_withSi (st : AggState) (x y : Nat) : (st.withSi x).withSi y = st.withSi y := rfl

theorem withSi_self (st : AggState) : st.withSi st.si = st := rfl

theorem recordAll_si (L : List (Nat × Block)) (st : AggState) : (recordAll st L).si = st.si := by
  induction L generalizing st with
  | nil => rfl
  | cons l L ih =>
    simp only [recordAll, List.foldl_cons] at ih ⊢
    rw [ih, recordSlot_si]

theorem getElem?_preimage (sig : Signature) (i : Nat) (h : i < 256) :
    sig.Preimage[i]? = some (sig.Preimage.getD i Block.zero) := by
  have : i < sig.Preimage.length := by rw [sig.size]; exact h
  simp [List.getD, List.getElem?_eq_getElem this]

/-- One bit step of the aggregation records the leak at index `si`. -/
theorem aggBit_eq (msg : Message) (sig : Signature) (st : AggState) (j : Nat)
    (h : st.si < 256) (hj : j = 7 - st.si % 8) :
    aggBit sig (msg.bytes.getD (st.si / 8) 0) j st
      = .next ((recordSlot st (leak msg sig st.si).1 (leak msg sig st.si).2).withSi (st.si + 1)) := by
  unfold aggBit
  rw [getElem?_preimage sig _ h]
  have hbit := bit_test_iff (msg.bytes.getD (st.si / 8) 0).val j (by omega)
  simp only [leak, slotOf, BitAt, AggState.withSi]
  subst hj
  by_cases hz : (msg.bytes.getD (st.si / 8) 0).val &&& mask (7 - st.si % 8) = 0
  · rw [if_pos hz, if_pos (hbit.mp hz), recordSlot_si]
  · rw [if_neg hz, if_neg (fun e => hz (hbit.mpr e)), recordSlot_si]

theorem range_reverse_succ (t : Nat) : (List.range (t + 1)).reverse = t :: (List.range t).reverse := by
  rw [List.range_succ, List.reverse_append]; rfl

/-- The loop over `j`, entered with `t` bits of byte `q` left. -/
theorem aggBits_eq (msg : Message) (sig : Signature) (q : Nat) (hq : q < 32) :
    ∀ (t : Nat) (st : AggState), st.si + t = 8 * q + 8 → t ≤ 8 →
      forEach (aggBit sig (msg.bytes.getD q 0)) (List.range t).reverse st
        = .next ((recordAll st ((List.range' st.si t).map (leak msg sig))).withSi (st.si + t)) := by
  intro t
  induction t with
  | zero => intro st _ _; rfl
  | succ t ih =>
    intro st hs ht
    rw [range_reverse_succ, forEach]
    have hq2 : st.si / 8 = q := by omega
    have h1 := aggBit_eq msg sig st t (by omega) (by omega)
    rw [hq2] at h1
    rw [h1]
    simp only
    rw [ih _ (by simp [AggState.withSi]; omega) (by omega)]
    simp only [AggState.withSi, List.range'_succ, List.map_cons, recordAll, List.foldl_cons]
    have := recordAll_withSi ((List.range' (st.si + 1) t).map (leak msg sig))
      (recordSlot st (leak msg sig st.si).1 (leak msg sig st.si).2) (st.si + 1)
    simp only [AggState.withSi, recordAll] at this
    rw [this]
    simp only [Nat.add_assoc, Nat.add_comm 1 t]

theorem jRange_eq : jRange = (List.range 8).reverse := by decide

/-- The loop over the bytes of the message, entered at byte `q`. -/
theorem aggBytes_eq (msg : Message) (sig : Signature) :
    ∀ (r q : Nat) (st : AggState), q + r = 32 → st.si = 8 * q →
      forEach (aggByte sig) (msg.bytes.drop q) st
        = .next ((recordAll st ((List.range' (8 * q) (8 * r)).map (leak msg sig))).withSi 256) := by
  intro r
  induction r with
  | zero =>
    intro q st hq hs
    have : msg.bytes.drop q = [] := by
      apply List.drop_eq_nil_of_le; rw [msg.size]; omega
    rw [this]
    simp only [forEach, Nat.mul_zero, List.range'_zero, List.map_nil, recordAll, List.foldl_nil]
    have : st.si = 256 := by omega
    rw [← this]; rfl
  | succ r ih =>
    intro q st hq hs
    have hlt : q < msg.bytes.length := by rw [msg.size]; omega
    have hd : msg.bytes.drop q = msg.bytes.getD q 0 :: msg.bytes.drop (q + 1) := by
      rw [List.drop_eq_getElem_cons hlt]
      simp [List.getD, List.getElem?_eq_getElem hlt]
    rw [hd, forEach]
    have hb := aggBits_eq msg sig q (by omega) 8 st (by omega) (le_refl _)
    rw [← jRange_eq] at hb
    rw [aggByte, hb]
    simp only
    rw [ih (q + 1) _ (by omega) (by simp [AggState.withSi]; omega)]
    rw [recordAll_withSi, withSi_withSi, ← recordAll_append, ← List.map_append, hs]
    have : List.range' (8 * q) 8 ++ List.range' (8 * (q + 1)) (8 * r)
        = List.range' (8 * q) (8 * (r + 1)) := by
      rw [show 8 * (r + 1) = 8 * r + 8 by ring, show 8 * (q + 1) = 8 * q + 8 by ring]
      rw [List.range'_append_1]
    rw [this]

/-- The body of the outer loop records the 256 leaks of its pair. -/
theorem aggMsg_eq (sigslice : List Signature) (mi : Nat) (msg : Message) (sig : Signature)
    (st : AggState) (h : sigslice[mi]? = some sig) :
    aggMsg sigslice mi msg st = .next ((recordAll st (leaksOf msg sig)).withSi 256) := by
  unfold aggMsg
  rw [h]
  simp only
  have := aggBytes_eq msg sig 32 0 (st.withSi 0) rfl rfl
  simp only [List.drop_zero, Nat.mul_zero] at this
  simp only [AggState.withSi] at this ⊢
  rw [this]
  have h2 := recordAll_withSi (leaksOf msg sig) st 0
  simp only [AggState.withSi] at h2
  simp only [leaksOf, List.range_eq_range']
  simp only [leaksOf, List.range_eq_range'] at h2
  rw [h2]

/-- The outer loop records the leaks of all its pairs. -/
theorem aggLoop_eq (sigslice : List Signature) :
    ∀ (msgs : List Message) (mi : Nat) (st : AggState), mi + msgs.length ≤ sigslice.length →
      aggLoop sigslice mi msgs st
        = .next ((recordAll st (allLeaks msgs (sigslice.drop mi))).withSi
            (if msgs = [] then st.si else 256)) := by
  intro msgs
  induction msgs with
  | nil => intro mi st _; simp [aggLoop, allLeaks, recordAll, AggState.withSi]
  | cons m rest ih =>
    intro mi st h
    simp only [List.length_cons] at h
    have hlt : mi < sigslice.length := by omega
    have hd : sigslice.drop mi = sigslice[mi] :: sigslice.drop (mi + 1) :=
      List.drop_eq_getElem_cons hlt
    rw [aggLoop, aggMsg_eq sigslice mi m sigslice[mi] st (List.getElem?_eq_getElem hlt)]
    simp only
    rw [ih (mi + 1) _ (by omega), hd, allLeaks, recordAll_append, recordAll_withSi,
      withSi_withSi]
    by_cases hr : rest = []
    · subst hr
      simp [allLeaks, recordAll, AggState.withSi]
    · simp [hr]

/-- The aggregation ends normally, having recorded the leaks of all pairs in
processing order. -/
theorem aggregate_eq (msgs : List Message) (sigs : List Signature)
    (h : msgs.length ≤ sigs.length) :
    aggregate msgs sigs
      = .next ((recordAll AggState.init (allLeaks msgs sigs)).withSi
          (if msgs = [] then 0 else 256)) := by
  unfold aggregate
  have := aggLoop_eq sigs msgs 0 AggState.init (by simpa using h)
  simpa [AggState.init] using this

namespace KnownBlocks

theorem lookup_append (L M : KnownBlocks) (s : Nat) :
    lookup (L ++ M) s = (lookup L s).orElse (fun _ => lookup M s) := by
  induction L with
  | nil => simp [lookup]
  | cons kv L ih =>
    obtain ⟨k, v⟩ := kv
    by_cases hk : k = s
    · simp [lookup, hk]
    · simp [lookup, hk, ih]

theorem mem_of_lookup (L : KnownBlocks) (s : Nat) (b : Block) (h : lookup L s = some b) :
    (s, b) ∈ L := by
  induction L with
  | nil => simp [lookup] at h
  | cons kv L ih =>
    obtain ⟨k, v⟩ := kv
    by_cases hk : k = s
    · simp [lookup, hk] at h
      simp [hk, h]
    · simp only [lookup, if_neg hk] at h
      exact List.mem_cons_of_mem _ (ih h)

theorem lookup_of_mem (L : KnownBlocks) (s : Nat) (b : Block) (hn : (keys L).Nodup)
    (h : (s, b) ∈ L) : lookup L s = some b := by
  induction L with
  | nil => simp at h
  | cons kv L ih =>
    obtain ⟨k, v⟩ := kv
    simp only [keys, List.map_cons, List.nodup_cons] at hn
    rcases List.mem_cons.mp h with h1 | h1
    · cases h1; simp [lookup]
    · have hk : k ≠ s := by
        rintro rfl
        exact hn.1 (List.mem_map_of_mem Prod.fst h1)
      simp only [lookup, if_neg hk]
      exact ih hn.2 h1

end KnownBlocks

/-- The map after one `recordSlot`: a slot already present keeps its block. -/
theorem lookup_recordSlot (st : AggState) (slot : Nat) (p : Block) (s : Nat) :
    (recordSlot st slot p).knownblocks.lookup s
      = (st.knownblocks.lookup s).orElse (fun _ => if s = slot then some p else none) := by
  unfold recordSlot
  cases h : st.knownblocks.lookup slot with
  | none =>
    simp only [KnownBlocks.lookup_insert]
    by_cases hs : s = slot
    · subst hs; simp [h]
    · simp only [if_neg hs]
      cases st.knownblocks.lookup s <;> simp
  | some v =>
    by_cases hv : v = p
    · subst hv
      simp only [ne_eq, not_true_eq_false, if_false, KnownBlocks.lookup_insert]
      by_cases hs : s = slot
      · subst hs; simp [h]
      · simp only [if_neg hs]
        cases st.knownblocks.lookup s <;> simp
    · simp only [ne_eq, hv, not_false_eq_true, if_true]
      by_cases hs : s = slot
      · subst hs; simp [h]
      · simp only [if_neg hs]
        cases st.knownblocks.lookup s <;> simp

/-- The map after a list of leaks: what was there, then the first leak of each
new slot. -/
theorem lookup_recordAll (L : List (Nat × Block)) (st : AggState) (s : Nat) :
    (recordAll st L).knownblocks.lookup s
      = (st.knownblocks.lookup s).orElse (fun _ => KnownBlocks.lookup L s) := by
  induction L generalizing st with
  | nil => cases h : st.knownblocks.lookup s <;> simp [recordAll, KnownBlocks.lookup, h]
  | cons l L ih =>
    obtain ⟨k, v⟩ := l
    have : recordAll st ((k, v) :: L) = recordAll (recordSlot st k v) L := rfl
    rw [this, ih, lookup_recordSlot]
    cases h : st.knownblocks.lookup s with
    | some w => simp
    | none =>
      by_cases hk : k = s
      · subst hk; simp [KnownBlocks.lookup]
      · have : ¬ s = k := fun e => hk e.symm
        simp [KnownBlocks.lookup, hk, this]

theorem nodup_recordSlot (st : AggState) (slot : Nat) (p : Block)
    (h : st.knownblocks.keys.Nodup) : (recordSlot st slot p).knownblocks.keys.Nodup := by
  unfold recordSlot
  split
  · split
    · exact h
    · exact KnownBlocks.nodup_keys_insert _ _ _ h
  · exact KnownBlocks.nodup_keys_insert _ _ _ h

theorem nodup_recordAll (L : List (Nat × Block)) (st : AggState)
    (h : st.knownblocks.keys.Nodup) : (recordAll st L).knownblocks.keys.Nodup := by
  induction L generalizing st with
  | nil => exact h
  | cons l L ih => exact ih _ (nodup_recordSlot st l.1 l.2 h)

/-- The aggregated map looks a slot up as the first leak of that slot. -/
theorem lookup_aggregated (L : List (Nat × Block)) (s x : Nat) :
    ((recordAll AggState.init L).withSi x).knownblocks.lookup s = KnownBlocks.lookup L s := by
  have := lookup_recordAll L AggState.init s
  simpa [AggState.withSi, AggState.init, KnownBlocks.lookup] using this

/-! ## The leaks of one pair and of all pairs -/

theorem BitAt_le_one (buffer : List Byte) (i : Nat) : BitAt buffer i ≤ 1 := by
  unfold BitAt
  exact Nat.and_le_right

theorem slotOf_lt (msg : Message) (i : Nat) (h : i < 256) : slotOf msg i < 512 := by
  unfold slotOf; split <;> omega

theorem slotOf_mod (msg : Message) (i : Nat) (h : i < 256) : slotOf msg i % 256 = i := by
  unfold slotOf; split <;> omega

theorem slotOf_inj (m1 m2 : Message) (i j : Nat) (hi : i < 256) (hj : j < 256)
    (h : slotOf m1 i = slotOf m2 j) : i = j := by
  rw [← slotOf_mod m1 i hi, ← slotOf_mod m2 j hj, h]

theorem selects_iff (msg : Message) (s : Nat) :
    selects msg s ↔ s < 512 ∧ slotOf msg (s % 256) = s := by
  constructor
  · rintro ⟨i, hi, rfl⟩
    exact ⟨slotOf_lt msg i hi, by rw [slotOf_mod msg i hi]⟩
  · rintro ⟨hs, h⟩
    exact ⟨s % 256, Nat.mod_lt _ (by norm_num), h⟩

theorem keys_leaksOf (msg : Message) (sig : Signature) :
    KnownBlocks.keys (leaksOf msg sig) = (List.range 256).map (slotOf msg) := by
  simp [KnownBlocks.keys, leaksOf, leak, List.map_map, Function.comp_def]

theorem nodup_keys_leaksOf (msg : Message) (sig : Signature) :
    (KnownBlocks.keys (leaksOf msg sig)).Nodup := by
  rw [keys_leaksOf]
  apply List.Nodup.map_on _ (List.nodup_range 256)
  intro x hx y hy hxy
  exact slotOf_inj msg msg x y (List.mem_range.mp hx) (List.mem_range.mp hy) hxy

theorem lookup_leaksOf (msg : Message) (sig : Signature) (i : Nat) (h : i < 256) :
    KnownBlocks.lookup (leaksOf msg sig) (slotOf msg i) = some (sig.Preimage.getD i Block.zero) := by
  apply KnownBlocks.lookup_of_mem _ _ _ (nodup_keys_leaksOf msg sig)
  exact List.mem_map.mpr ⟨i, List.mem_range.mpr h, rfl⟩

theorem lookup_leaksOf_none (msg : Message) (sig : Signature) (s : Nat) :
    KnownBlocks.lookup (leaksOf msg sig) s = none ↔ ¬ selects msg s := by
  rw [KnownBlocks.lookup_eq_none_iff, keys_leaksOf]
  simp [selects, List.mem_map]

theorem lookup_leaksOf_some (msg : Message) (sig : Signature) (s : Nat) (b : Block)
    (h : KnownBlocks.lookup (leaksOf msg sig) s = some b) :
    selects msg s ∧ b = sig.Preimage.getD (s % 256) Block.zero := by
  have hm := KnownBlocks.mem_of_lookup _ _ _ h
  obtain ⟨i, hi, he⟩ := List.mem_map.mp hm
  have hi2 := List.mem_range.mp hi
  simp only [leak, Prod.mk.injEq] at he
  refine ⟨⟨i, hi2, he.1⟩, ?_⟩
  rw [← he.1, slotOf_mod msg i hi2, he.2]

theorem lookup_allLeaks_cons (m : Message) (ms : List Message) (sg : Signature)
    (ss : List Signature) (s : Nat) :
    KnownBlocks.lookup (allLeaks (m :: ms) (sg :: ss)) s
      = (KnownBlocks.lookup (leaksOf m sg) s).orElse
          (fun _ => KnownBlocks.lookup (allLeaks ms ss) s) := by
  rw [allLeaks, KnownBlocks.lookup_append]

/-- A slot is absent from the leaks exactly when no known message selects it. -/
theorem lookup_allLeaks_none (msgs : List Message) (sigs : List Signature) (s : Nat) :
    KnownBlocks.lookup (allLeaks msgs sigs) s = none
      ↔ ∀ p ∈ msgs.zip sigs, ¬ selects p.1 s := by
  induction msgs generalizing sigs with
  | nil => simp [allLeaks, KnownBlocks.lookup]
  | cons m ms ih =>
    cases sigs with
    | nil => simp [allLeaks, KnownBlocks.lookup]
    | cons sg ss =>
      rw [lookup_allLeaks_cons]
      cases h : KnownBlocks.lookup (leaksOf m sg) s with
      | none =>
        have h1 := (lookup_leaksOf_none m sg s).mp h
        simp only [Option.orElse, List.zip_cons_cons, List.mem_cons, forall_eq_or_imp]
        rw [ih]
        exact ⟨fun hh => ⟨h1, hh⟩, fun hh => hh.2⟩
      | some b =>
        have h1 := (lookup_leaksOf_some m sg s b h).1
        simp only [Option.orElse, List.zip_cons_cons, List.mem_cons, forall_eq_or_imp]
        constructor
        · intro hh; cases hh
        · intro hh; exact absurd h1 hh.1

/-- The first-seen rule on the list of leaks: a slot holds the block of the
first pair whose message selects it. -/
theorem lookup_allLeaks_some (msgs : List Message) (sigs : List Signature) (s : Nat) (b : Block)
    (h : KnownBlocks.lookup (allLeaks msgs sigs) s = some b) :
    ∃ (k : Nat) (m : Message) (sg : Signature), (msgs.zip sigs)[k]? = some (m, sg) ∧ selects m s
      ∧ (∀ (k1 : Nat) (p : Message × Signature), k1 < k →
          (msgs.zip sigs)[k1]? = some p → ¬ selects p.1 s)
      ∧ b = sg.Preimage.getD (s % 256) Block.zero := by
  induction msgs generalizing sigs with
  | nil => simp [allLeaks, KnownBlocks.lookup] at h
  | cons m ms ih =>
    cases sigs with
    | nil => simp [allLeaks, KnownBlocks.lookup] at h
    | cons sg ss =>
      rw [lookup_allLeaks_cons] at h
      cases h1 : KnownBlocks.lookup (leaksOf m sg) s with
      | some b1 =>
        rw [h1] at h
        simp only [Option.orElse, Option.some.injEq] at h
        subst h
        obtain ⟨hs, hb⟩ := lookup_leaksOf_some m sg s b1 h1
        exact ⟨0, m, sg, by simp, hs, by intro k1 p hk; omega, hb⟩
      | none =>
        rw [h1] at h
        simp only [Option.orElse] at h
        obtain ⟨k, m2, sg2, hk, hsel, hfirst, hb⟩ := ih ss h
        refine ⟨k + 1, m2, sg2, by simpa using hk, hsel, ?_, hb⟩
        intro k1 p hk1 hp
        cases k1 with
        | zero =>
          simp at hp
          subst hp
          exact (lookup_leaksOf_none m sg s).mp h1
        | succ k1 =>
          exact hfirst k1 p (by omega) (by simpa using hp)

/-! ## The aggregated map -/

theorem mem_keys_aggregated (L : List (Nat × Block)) (x s : Nat) :
    s ∈ ((recordAll AggState.init L).withSi x).knownblocks.keys
      ↔ KnownBlocks.lookup L s ≠ none := by
  rw [← KnownBlocks.lookup_isSome_iff, lookup_aggregated]
  cases KnownBlocks.lookup L s <;> simp

theorem nodup_keys_aggregated (L : List (Nat × Block)) (x : Nat) :
    ((recordAll AggState.init L).withSi x).knownblocks.keys.Nodup :=
  nodup_recordAll L AggState.init (by simp [AggState.init, KnownBlocks.keys])

/-- A present slot is selected by a known message. -/
theorem selected_of_lookup_allLeaks (msgs : List Message) (sigs : List Signature) (s : Nat)
    (h : KnownBlocks.lookup (allLeaks msgs sigs) s ≠ none) :
    ∃ p ∈ msgs.zip sigs, selects p.1 s := by
  by_contra hc
  push_neg at hc
  exact h ((lookup_allLeaks_none msgs sigs s).mpr hc)

theorem len_le_of_keys_lt (m : KnownBlocks) (hn : m.keys.Nodup) (hb : ∀ s ∈ m.keys, s < 512) :
    m.len ≤ 512 := by
  have hsub : m.keys ⊆ List.range 512 := fun s hs => List.mem_range.mpr (hb s hs)
  have := (List.subperm_of_subset hn hsub).length_le
  simpa [KnownBlocks.keys, KnownBlocks.len] using this

theorem len_eq_of_keys_iff (m : KnownBlocks) (hn : m.keys.Nodup)
    (hb : ∀ s, s ∈ m.keys ↔ s < 512) : m.len = 512 := by
  have hp : m.keys.Perm (List.range 512) :=
    (List.perm_ext_iff_of_nodup hn (List.nodup_range 512)).mpr
      (fun s => by rw [hb s, List.mem_range])
  have := hp.length_eq
  simpa [KnownBlocks.keys, KnownBlocks.len] using this

/-! ## Facts on the concrete inputs -/

theorem BitAt_msgZeros (i : Nat) : BitAt msgZeros.bytes i = 0 := by
  have h : msgZeros.bytes.getD (i / 8) 0 = 0 := by
    unfold msgZeros
    simp only [List.getD_eq_getElem?_getD, List.getElem?_replicate]
    split <;> rfl
  unfold BitAt
  rw [h]
  simp

theorem BitAt_msgOnes (i : Nat) (hi : i < 256) : BitAt msgOnes.bytes i = 1 := by
  have h : msgOnes.bytes.getD (i / 8) 0 = 255 := by
    unfold msgOnes
    simp only [List.getD_eq_getElem?_getD, List.getElem?_replicate]
    rw [if_pos (by omega)]
    rfl
  unfold BitAt
  rw [h]
  have hk : 7 - i % 8 ≤ 7 := by omega
  generalize 7 - i % 8 = k at hk
  interval_cases k <;> rfl

theorem slotOf_msgZeros (i : Nat) : slotOf msgZeros i = i := by
  simp [slotOf, BitAt_msgZeros]

theorem slotOf_msgOnes (i : Nat) (hi : i < 256) : slotOf msgOnes i = i + 256 := by
  simp [slotOf, BitAt_msgOnes i hi]

theorem consistent_singleton (m : Message) (sg : Signature) : Consistent [m] [sg] := by
  intro p hp q hq i _ _
  simp only [List.zip_cons_cons, List.zip_nil_right, List.mem_singleton] at hp hq
  rw [hp, hq]

theorem blockA_ne_blockB : blockA ≠ blockB := by decide

theorem sigA_getElem (i : Nat) (hi : i < 256) : sigA.Preimage[i]? = some blockA := by
  show (List.replicate 256 blockA)[i]? = some blockA
  rw [List.getElem?_replicate, if_pos hi]

theorem sigB_getElem (i : Nat) (hi : i < 256) : sigB.Preimage[i]? = some blockB := by
  show (List.replicate 256 blockB)[i]? = some blockB
  rw [List.getElem?_replicate, if_pos hi]

theorem allLeaks_append (msgs : List Message) (sigs : List Signature) (ms : List Message)
    (ss : List Signature) (hlen : msgs.length = sigs.length) :
    allLeaks (msgs ++ ms) (sigs ++ ss) = allLeaks msgs sigs ++ allLeaks ms ss := by
  induction msgs generalizing sigs with
  | nil =>
    cases sigs with
    | nil => simp [allLeaks]
    | cons _ _ => simp at hlen
  | cons m rest ih =>
    cases sigs with
    | nil => simp at hlen
    | cons sg srest =>
      simp only [List.length_cons, Nat.add_right_cancel_iff] at hlen
      have := ih srest hlen
      show leaksOf m sg ++ allLeaks (rest ++ ms) (srest ++ ss) = _
      rw [this, allLeaks, List.append_assoc]

/-! ## The candidate construction as a walk over the bit indices -/

theorem forEach_append {α σ ρ : Type} (body : α → σ → Ctl σ ρ) (xs ys : List α) (s : σ) :
    forEach body (xs ++ ys) s
      = match forEach body xs s with
        | .next s1 => forEach body ys s1
        | .ret r => .ret r
        | .panicked => .panicked := by
  induction xs generalizing s with
  | nil => rfl
  | cons x xs ih =>
    simp only [List.cons_append, forEach]
    cases body x s with
    | next s1 => exact ih s1
    | ret r => rfl
    | panicked => rfl

theorem fillSlot_si (rnd : RandSource) (kb : KnownBlocks) (st st1 : SearchState) (slot : Nat)
    (h : fillSlot rnd kb st slot = .next st1) : st1.si = st.si := by
  unfold fillSlot at h
  split at h
  · split at h
    · cases h; rfl
    · split at h
      · cases h; rfl
      · cases h
      · cases h
  · cases h

theorem forgeStep_si (rnd : RandSource) (kb : KnownBlocks) (msg : Message)
    (st st1 : SearchState) (h : forgeStep rnd kb msg st = .next st1) : st1.si = st.si + 1 := by
  unfold forgeStep at h
  cases hf : fillSlot rnd kb st (slotOf msg st.si) with
  | next s2 =>
    rw [hf] at h
    cases h
    simp [fillSlot_si rnd kb st s2 _ hf]
  | ret r => rw [hf] at h; cases h
  | panicked => rw [hf] at h; cases h

theorem forgeSteps_si (rnd : RandSource) (kb : KnownBlocks) (msg : Message) (L : List Nat) :
    ∀ (st st1 : SearchState), forEach (fun _ => forgeStep rnd kb msg) L st = .next st1 →
      st1.si = st.si + L.length := by
  induction L with
  | nil => intro st st1 h; cases h; rfl
  | cons x L ih =>
    intro st st1 h
    rw [forEach] at h
    cases hf : forgeStep rnd kb msg st with
    | next s2 =>
      rw [hf] at h
      have := ih s2 st1 h
      rw [this, forgeStep_si rnd kb msg st s2 hf, List.length_cons]
      omega
    | ret r => rw [hf] at h; cases h
    | panicked => rw [hf] at h; cases h

/-- One bit step of the construction takes the slot that `BitAt` gives at
index `si`. -/
theorem forgeBit_eq (rnd : RandSource) (kb : KnownBlocks) (msg : Message) (st : SearchState)
    (j : Nat) (hj : j = 7 - st.si % 8) :
    forgeBit rnd kb (msg.bytes.getD (st.si / 8) 0) j st = forgeStep rnd kb msg st := by
  unfold forgeBit forgeStep
  have hbit := bit_test_iff (msg.bytes.getD (st.si / 8) 0).val j (by omega)
  subst hj
  simp only [slotOf, BitAt]
  by_cases hz : (msg.bytes.getD (st.si / 8) 0).val &&& mask (7 - st.si % 8) = 0
  · rw [if_pos hz, if_pos (hbit.mp hz)]
  · rw [if_neg hz, if_neg (fun e => hz (hbit.mpr e))]

/-- The loop over `j`, entered with `t` bits of byte `q` left. -/
theorem forgeBits_eq (rnd : RandSource) (kb : KnownBlocks) (msg : Message) (q : Nat) :
    ∀ (t : Nat) (st : SearchState), st.si + t = 8 * q + 8 → t ≤ 8 →
      forEach (forgeBit rnd kb (msg.bytes.getD q 0)) (List.range t).reverse st
        = forEach (fun _ => forgeStep rnd kb msg) (List.range' st.si t) st := by
  intro t
  induction t with
  | zero => intro st _ _; rfl
  | succ t ih =>
    intro st hs ht
    rw [range_reverse_succ, List.range'_succ, forEach, forEach]
    have hq2 : st.si / 8 = q := by omega
    have h1 := forgeBit_eq rnd kb msg st t (by omega)
    rw [hq2] at h1
    rw [h1]
    cases hf : forgeStep rnd kb msg st with
    | next s2 =>
      have hsi := forgeStep_si rnd kb msg st s2 hf
      simp only
      rw [ih s2 (by omega) (by omega), hsi]
    | ret r => rfl
    | panicked => rfl

/-- The loop over the bytes of the candidate, entered at byte `q`. -/
theorem forgeBytes_eq (rnd : RandSource) (kb : KnownBlocks) (msg : Message) :
    ∀ (r q : Nat) (st : SearchState), q + r = 32 → st.si = 8 * q →
      forEach (forgeByte rnd kb) (msg.bytes.drop q) st
        = forEach (fun _ => forgeStep rnd kb msg) (List.range' (8 * q) (8 * r)) st := by
  intro r
  induction r with
  | zero =>
    intro q st hq hs
    have : msg.bytes.drop q = [] := by
      apply List.drop_eq_nil_of_le; rw [msg.size]; omega
    rw [this]
    rfl
  | succ r ih =>
    intro q st hq hs
    have hlt : q < msg.bytes.length := by rw [msg.size]; omega
    have hd : msg.bytes.drop q = msg.bytes.getD q 0 :: msg.bytes.drop (q + 1) := by
      rw [List.drop_eq_getElem_cons hlt]
      simp [List.getD, List.getElem?_eq_getElem hlt]
    have hr : List.range' (8 * q) (8 * (r + 1))
        = List.range' (8 * q) 8 ++ List.range' (8 * (q + 1)) (8 * r) := by
      rw [show 8 * (r + 1) = 8 * r + 8 by ring, show 8 * (q + 1) = 8 * q + 8 by ring]
      rw [List.range'_append_1]
    rw [hd, forEach, hr, forEach_append]
    have hb := forgeBits_eq rnd kb msg q 8 st (by omega) (le_refl _)
    rw [← jRange_eq, hs] at hb
    rw [forgeByte, hb]
    cases hf : forEach (fun _ => forgeStep rnd kb msg) (List.range' (8 * q) 8) st with
    | next s2 =>
      have hsi := forgeSteps_si rnd kb msg _ st s2 hf
      simp only [List.length_range'] at hsi
      simp only
      exact ih (q + 1) s2 (by omega) (by omega)
    | ret r => rfl
    | panicked => rfl

/-- The two loops over the candidate visit the bit indices `0..255` in order. -/
theorem buildSig_eq (rnd : RandSource) (kb : KnownBlocks) (msg : Message) (st : SearchState) :
    buildSig rnd kb msg st
      = forEach (fun _ => forgeStep rnd kb msg) (List.range 256) { st with si := 0 } := by
  unfold buildSig
  have := forgeBytes_eq rnd kb msg 32 0 { st with si := 0 } rfl rfl
  simp only [List.drop_zero, Nat.mul_zero] at this
  rw [this, List.range_eq_range']

/-! ## What the candidate construction builds -/

theorem absentBefore_succ (kb : KnownBlocks) (msg : Message) (i : Nat) :
    absentBefore kb msg (i + 1)
      = absentBefore kb msg i + (if (kb.lookup (slotOf msg i)).isNone then 1 else 0) := by
  unfold absentBefore
  rw [List.range_succ, List.filter_append, List.length_append]
  by_cases h : (kb.lookup (slotOf msg i)).isNone = true
  · simp [List.filter, h]
  · simp [List.filter, h]

theorem forgeStep_present (rnd : RandSource) (kb : KnownBlocks) (msg : Message)
    (st : SearchState) (v : Block) (hsi : st.si < 256)
    (h : kb.lookup (slotOf msg st.si) = some v) :
    forgeStep rnd kb msg st
      = .next { st with sig := st.sig.setPreimage st.si v, si := st.si + 1 } := by
  simp [forgeStep, fillSlot, hsi, h]

theorem forgeStep_absent_ok (rnd : RandSource) (kb : KnownBlocks) (msg : Message)
    (st : SearchState) (bytes : Nat → Byte) (hsi : st.si < 256)
    (h : kb.lookup (slotOf msg st.si) = none) (hr : rnd st.draws = .ok bytes) :
    forgeStep rnd kb msg st
      = .next { st with sig := st.sig.setPreimage st.si (Block.ofFn bytes),
                        draws := st.draws + 1, si := st.si + 1 } := by
  simp [forgeStep, fillSlot, hsi, h, hr]

theorem forgeStep_absent_fail (rnd : RandSource) (kb : KnownBlocks) (msg : Message)
    (st : SearchState) (e : Error) (hsi : st.si < 256)
    (h : kb.lookup (slotOf msg st.si) = none) (hr : rnd st.draws = .fail e) :
    forgeStep rnd kb msg st = .ret ⟨st.msgString, st.sig, some e⟩ := by
  simp [forgeStep, fillSlot, hsi, h, hr]

/-- A read that reports an error makes the bit step return that error, with
the string unchanged. -/
theorem forgeStep_absent_error (rnd : RandSource) (kb : KnownBlocks) (msg : Message)
    (st : SearchState) (e : Error) (hsi : st.si < 256)
    (h : kb.lookup (slotOf msg st.si) = none) (hr : (rnd st.draws).error? = some e) :
    ∃ sig1, forgeStep rnd kb msg st = .ret ⟨st.msgString, sig1, some e⟩ := by
  cases hx : rnd st.draws with
  | ok bytes =>
    rw [hx] at hr
    simp [RandResult.error?] at hr
  | fail e1 =>
    rw [hx] at hr
    simp only [RandResult.error?, Option.some.injEq] at hr
    subst hr
    exact ⟨st.sig, by simp [forgeStep, fillSlot, hsi, h, hx]⟩
  | failAfter e1 n bytes =>
    rw [hx] at hr
    simp only [RandResult.error?, Option.some.injEq] at hr
    subst hr
    exact ⟨st.sig.setPreimage st.si
      ((st.sig.Preimage.getD st.si Block.zero).overwrite n bytes),
      by simp [forgeStep, fillSlot, hsi, h, hx]⟩

theorem getElem?_setPreimage (sig : Signature) (i j : Nat) (b : Block) (hi : i < 256) :
    (sig.setPreimage i b).Preimage[j]? = if i = j then some b else sig.Preimage[j]? := by
  show (sig.Preimage.set i b)[j]? = _
  have : i < sig.Preimage.length := by rw [sig.size]; exact hi
  by_cases h : i = j
  · subst h
    rw [List.getElem?_set_self this, if_pos rfl]
  · rw [List.getElem?_set_ne h, if_neg h]

/-- The state after the first `t` bit steps of a construction whose requests
all succeed. -/
theorem forgeSteps_prefix (rnd : RandSource) (kb : KnownBlocks) (msg : Message)
    (st : SearchState) :
    ∀ t, t ≤ 256 →
      (∀ i, i < t → kb.lookup (slotOf msg i) = none →
        ∃ bytes, rnd (st.draws + absentBefore kb msg i) = .ok bytes) →
      ∃ st1, forEach (fun _ => forgeStep rnd kb msg) (List.range t) { st with si := 0 }
          = .next st1 ∧
        st1.si = t ∧ st1.draws = st.draws + absentBefore kb msg t ∧
        st1.msgString = st.msgString ∧ st1.tested = st.tested ∧
        (∀ i, i < t → ∃ b, st1.sig.Preimage[i]? = some b ∧ BuiltAt rnd kb msg st.draws i b) ∧
        (∀ i, t ≤ i → st1.sig.Preimage[i]? = st.sig.Preimage[i]?) := by
  intro t
  induction t with
  | zero =>
    intro _ _
    exact ⟨_, rfl, rfl, by simp [absentBefore], rfl, rfl, by intro i hi; omega, fun _ _ => rfl⟩
  | succ t ih =>
    intro ht hok
    obtain ⟨⟨ms1, sg1, si1, dr1, te1⟩, hrun, hsi, hdr, hms, hte, hbuilt, hrest⟩ :=
      ih (by omega) (fun i hi => hok i (by omega))
    simp only at hsi hdr hms hte hbuilt hrest
    subst hsi
    rw [List.range_succ, forEach_append, hrun]
    simp only [forEach]
    have hlt : si1 < 256 := by omega
    cases hl : kb.lookup (slotOf msg si1) with
    | some v =>
      rw [forgeStep_present rnd kb msg _ v hlt hl]
      refine ⟨_, rfl, rfl, ?_, hms, hte, ?_, ?_⟩
      · simp [absentBefore_succ, hl, hdr]
      · intro i hi
        simp only [getElem?_setPreimage _ _ _ _ hlt]
        by_cases hit : si1 = i
        · subst hit
          exact ⟨v, by simp, by simp [BuiltAt, hl]⟩
        · rw [if_neg hit]
          exact hbuilt i (by omega)
      · intro i hi
        simp only [getElem?_setPreimage _ _ _ _ hlt]
        rw [if_neg (by omega)]
        exact hrest i (by omega)
    | none =>
      obtain ⟨bytes, hb⟩ := hok si1 (by omega) hl
      have hb2 : rnd dr1 = .ok bytes := by rw [hdr]; exact hb
      rw [forgeStep_absent_ok rnd kb msg _ bytes hlt hl hb2]
      refine ⟨_, rfl, rfl, ?_, hms, hte, ?_, ?_⟩
      · simp [absentBefore_succ, hl, hdr]; omega
      · intro i hi
        simp only [getElem?_setPreimage _ _ _ _ hlt]
        by_cases hit : si1 = i
        · subst hit
          exact ⟨Block.ofFn bytes, by simp, by simp only [BuiltAt, hl]; exact ⟨bytes, hb, rfl⟩⟩
        · rw [if_neg hit]
          exact hbuilt i (by omega)
      · intro i hi
        simp only [getElem?_setPreimage _ _ _ _ hlt]
        rw [if_neg (by omega)]
        exact hrest i (by omega)

/-! ## `Verify` and the validity of leaked blocks -/

theorem verify_iff (H : Block → Block) (msg : Message) (pub : PublicKey) (sig : Signature) :
    Verify H msg pub sig = true ↔
      ∀ i, i < 256 → H (sig.Preimage.getD i Block.zero)
        = (if BitAt msg.bytes i = 0 then pub.row0 else pub.row1).getD i Block.zero := by
  unfold Verify
  rw [List.all_eq_true]
  constructor
  · intro h i hi
    simpa using h i (List.mem_range.mpr hi)
  · intro h i hi
    simpa using h i (List.mem_range.mp hi)

theorem getD_of_getElem? (sig : Signature) (i : Nat) (b : Block) (h : sig.Preimage[i]? = some b) :
    sig.Preimage.getD i Block.zero = b := by
  simp [List.getD_eq_getElem?_getD, h]

/-- The public key at the slot a message selects at bit index `i`. -/
theorem atSlot_slotOf (pub : PublicKey) (msg : Message) (i : Nat) (hi : i < 256) :
    pub.atSlot (slotOf msg i)
      = (if BitAt msg.bytes i = 0 then pub.row0 else pub.row1).getD i Block.zero := by
  unfold PublicKey.atSlot slotOf
  by_cases h : BitAt msg.bytes i = 0
  · simp [h, hi]
  · simp [h]

/-- Every leak of verified pairs is a preimage of the public key at its slot. -/
theorem leak_valid (H : Block → Block) (pub : PublicKey) (msgs : List Message)
    (sigs : List Signature) (hver : ∀ p ∈ msgs.zip sigs, Verify H p.1 pub p.2 = true)
    (s : Nat) (b : Block) (h : KnownBlocks.lookup (allLeaks msgs sigs) s = some b) :
    H b = pub.atSlot s := by
  obtain ⟨k, m, sg, hk, hs, _, hb⟩ := lookup_allLeaks_some msgs sigs s b h
  have hmem : (m, sg) ∈ msgs.zip sigs := List.getElem?_mem hk
  have hi : s % 256 < 256 := Nat.mod_lt _ (by norm_num)
  have hv := (verify_iff H m pub sg).mp (hver _ hmem) (s % 256) hi
  have hsl := ((selects_iff m s).mp hs).2
  rw [hb, hv, ← atSlot_slotOf pub m _ hi, hsl]

theorem absentBefore_eq_zero (kb : KnownBlocks) (msg : Message) (t : Nat)
    (h : ∀ i, i < t → (kb.lookup (slotOf msg i)).isSome) : absentBefore kb msg t = 0 := by
  unfold absentBefore
  rw [List.length_eq_zero, List.filter_eq_nil_iff]
  intro i hi
  have := h i (List.mem_range.mp hi)
  cases hl : kb.lookup (slotOf msg i) with
  | none => rw [hl] at this; cases this
  | some v => simp

/-- A candidate all of whose slots are present is built without any request to
the random source, from the blocks of the map. -/
theorem buildSig_covered (rnd : RandSource) (kb : KnownBlocks) (msg : Message)
    (st : SearchState) (hcov : ∀ i, i < 256 → (kb.lookup (slotOf msg i)).isSome) :
    ∃ st1, buildSig rnd kb msg st = .next st1 ∧ st1.si = 256 ∧ st1.draws = st.draws ∧
      st1.msgString = st.msgString ∧ st1.tested = st.tested ∧
      ∀ i, i < 256 → st1.sig.Preimage[i]? = kb.lookup (slotOf msg i) := by
  have hok : ∀ i, i < 256 → kb.lookup (slotOf msg i) = none →
      ∃ bytes, rnd (st.draws + absentBefore kb msg i) = .ok bytes := by
    intro i hi hn
    have := hcov i hi
    rw [hn] at this
    cases this
  obtain ⟨st1, hrun, hsi, hdr, hms, hte, hbuilt, _⟩ :=
    forgeSteps_prefix rnd kb msg st 256 (le_refl _) hok
  refine ⟨st1, by rw [buildSig_eq]; exact hrun, hsi, ?_, hms, hte, ?_⟩
  · rw [hdr, absentBefore_eq_zero kb msg 256 hcov]; rfl
  · intro i hi
    obtain ⟨b, hb, hB⟩ := hbuilt i hi
    unfold BuiltAt at hB
    cases hl : kb.lookup (slotOf msg i) with
    | none =>
      have := hcov i hi
      rw [hl] at this
      cases this
    | some v =>
      rw [hl] at hB
      rw [hb, hB]

/-! ## The bit-walking skeleton -/

theorem test_eq_bitAt (msg : Message) (i j : Nat) (hj : j = 7 - i % 8) :
    decide ((msg.bytes.getD (i / 8) 0).val &&& mask j ≠ 0) = decide (BitAt msg.bytes i = 1) := by
  have hbit := bit_test_iff (msg.bytes.getD (i / 8) 0).val j (by omega)
  have hle := BitAt_le_one msg.bytes i
  subst hj
  have hiff : ((msg.bytes.getD (i / 8) 0).val &&& mask (7 - i % 8) ≠ 0) ↔ BitAt msg.bytes i = 1 := by
    rw [ne_eq, hbit]
    unfold BitAt at hle ⊢
    omega
  exact decide_eq_decide.mpr hiff

/-- The loop over `j` of the skeleton, entered with `t` bits of byte `q` left. -/
theorem walkBits_eq (msg : Message) (q : Nat) :
    ∀ (t : Nat) (st : WalkState), st.si + t = 8 * q + 8 → t ≤ 8 →
      forEach (walkBit (msg.bytes.getD q 0)) (List.range t).reverse st
        = .next ⟨st.si + t, st.tests ++
            (List.range' st.si t).map (fun i => (i, decide (BitAt msg.bytes i = 1)))⟩ := by
  intro t
  induction t with
  | zero => intro st _ _; simp [forEach]
  | succ t ih =>
    intro st hs ht
    rw [range_reverse_succ, forEach]
    have hq2 : st.si / 8 = q := by omega
    have h1 := test_eq_bitAt msg st.si t (by omega)
    rw [hq2] at h1
    simp only [walkBit, h1]
    rw [ih _ (by simp only; omega) (by omega)]
    simp only [List.range'_succ, List.map_cons, List.append_assoc, List.singleton_append,
      Nat.add_assoc, Nat.add_comm 1 t]

/-- The loop over the bytes of the skeleton, entered at byte `q`. -/
theorem walkBytes_eq (msg : Message) :
    ∀ (r q : Nat) (st : WalkState), q + r = 32 → st.si = 8 * q →
      forEach walkByte (msg.bytes.drop q) st
        = .next ⟨256, st.tests ++
            (List.range' (8 * q) (8 * r)).map (fun i => (i, decide (BitAt msg.bytes i = 1)))⟩ := by
  intro r
  induction r with
  | zero =>
    intro q st hq hs
    have : msg.bytes.drop q = [] := by
      apply List.drop_eq_nil_of_le; rw [msg.size]; omega
    rw [this]
    have h256 : st.si = 256 := by omega
    simp [forEach, ← h256]
  | succ r ih =>
    intro q st hq hs
    have hlt : q < msg.bytes.length := by rw [msg.size]; omega
    have hd : msg.bytes.drop q = msg.bytes.getD q 0 :: msg.bytes.drop (q + 1) := by
      rw [List.drop_eq_getElem_cons hlt]
      simp [List.getD, List.getElem?_eq_getElem hlt]
    have hr : List.range' (8 * q) (8 * (r + 1))
        = List.range' (8 * q) 8 ++ List.range' (8 * (q + 1)) (8 * r) := by
      rw [show 8 * (r + 1) = 8 * r + 8 by ring, show 8 * (q + 1) = 8 * q + 8 by ring]
      rw [List.range'_append_1]
    rw [hd, forEach]
    have hb := walkBits_eq msg q 8 st (by omega) (le_refl _)
    rw [← jRange_eq, hs] at hb
    rw [walkByte, hb]
    simp only
    rw [ih (q + 1) _ (by omega) (by simp only; omega), hr, List.map_append, List.append_assoc]

theorem walk_eq (msg : Message) :
    walk msg = .next ⟨256, (List.range 256).map (fun i => (i, decide (BitAt msg.bytes i = 1)))⟩ := by
  have := walkBytes_eq msg 32 0 ⟨0, []⟩ rfl rfl
  simp only [List.drop_zero, Nat.mul_zero, List.nil_append] at this
  rw [walk, this, List.range_eq_range']

theorem BitAt_zero (buffer : List Byte) : BitAt buffer 0 = (buffer.getD 0 0).val / 128 := by
  unfold BitAt
  have h := (buffer.getD 0 0).isLt
  simp only [Nat.zero_div, Nat.zero_mod, Nat.sub_zero, Nat.and_one_is_mod, Nat.shiftRight_eq_div_pow]
  norm_num
  omega

theorem BitAt_last (buffer : List Byte) : BitAt buffer 255 = (buffer.getD 31 0).val % 2 := by
  unfold BitAt
  simp [Nat.and_one_is_mod]

/-! ## How the candidate construction ends -/

/-- The construction returns the error of the first request that fails. -/
theorem buildSig_fail (rnd : RandSource) (kb : KnownBlocks) (msg : Message) (st : SearchState)
    (i : Nat) (e : Error) (hi : i < 256)
    (hprev : ∀ k, k < i → kb.lookup (slotOf msg k) = none →
      ∃ bytes, rnd (st.draws + absentBefore kb msg k) = .ok bytes)
    (hl : kb.lookup (slotOf msg i) = none)
    (hf : (rnd (st.draws + absentBefore kb msg i)).error? = some e) :
    ∃ sig1, buildSig rnd kb msg st = .ret ⟨st.msgString, sig1, some e⟩ := by
  obtain ⟨⟨ms1, sg1, si1, dr1, te1⟩, hrun, hsi, hdr, hms, _, _, _⟩ :=
    forgeSteps_prefix rnd kb msg st i (by omega) hprev
  simp only at hsi hdr hms
  subst hsi
  have hsplit : List.range 256 = List.range si1 ++ (si1 :: List.range' (si1 + 1) (255 - si1)) := by
    rw [List.range_eq_range', List.range_eq_range', ← List.range'_succ]
    have := List.range'_append_1 0 si1 (255 - si1 + 1)
    simp only [Nat.zero_add] at this
    rw [this]
    congr 1
    omega
  obtain ⟨sig1, hstep⟩ := forgeStep_absent_error rnd kb msg
    ⟨ms1, sg1, si1, dr1, te1⟩ e hi hl (by rw [hdr]; exact hf)
  refine ⟨sig1, ?_⟩
  rw [buildSig_eq, hsplit, forEach_append, hrun]
  simp only [forEach]
  rw [hstep]
  simp only [hms]

/-- The construction never panics: either every request it makes succeeds and
it builds the 256 blocks, or it returns the error of a failed request. -/
theorem buildSig_cases (rnd : RandSource) (kb : KnownBlocks) (msg : Message)
    (st : SearchState) :
    (∃ st1, buildSig rnd kb msg st = .next st1 ∧ st1.si = 256 ∧
        st1.draws = st.draws + absentBefore kb msg 256 ∧
        st1.msgString = st.msgString ∧ st1.tested = st.tested ∧
        (∀ i, i < 256 → ∃ b, st1.sig.Preimage[i]? = some b ∧ BuiltAt rnd kb msg st.draws i b))
    ∨ (∃ sig1 e i, buildSig rnd kb msg st = .ret ⟨st.msgString, sig1, some e⟩ ∧ i < 256 ∧
        kb.lookup (slotOf msg i) = none ∧
        (rnd (st.draws + absentBefore kb msg i)).error? = some e) := by
  by_cases hall : ∀ i, i < 256 → kb.lookup (slotOf msg i) = none →
      ∃ bytes, rnd (st.draws + absentBefore kb msg i) = .ok bytes
  · left
    obtain ⟨st1, hrun, hsi, hdr, hms, hte, hbuilt, _⟩ :=
      forgeSteps_prefix rnd kb msg st 256 (le_refl _) hall
    exact ⟨st1, by rw [buildSig_eq]; exact hrun, hsi, hdr, hms, hte, hbuilt⟩
  · right
    have hex : ∃ i, i < 256 ∧ kb.lookup (slotOf msg i) = none ∧
        ¬ ∃ bytes, rnd (st.draws + absentBefore kb msg i) = .ok bytes := by
      by_contra hc
      apply hall
      intro i hi hl
      by_contra hn
      exact hc ⟨i, hi, hl, hn⟩
    classical
    obtain ⟨hi, hl, hno⟩ := Nat.find_spec hex
    have hmin : ∀ k, k < Nat.find hex → kb.lookup (slotOf msg k) = none →
        ∃ bytes, rnd (st.draws + absentBefore kb msg k) = .ok bytes := by
      intro k hk hkl
      by_contra hn
      exact Nat.find_min hex hk ⟨by omega, hkl, hn⟩
    cases hr : rnd (st.draws + absentBefore kb msg (Nat.find hex)) with
    | ok bytes => exact absurd ⟨bytes, hr⟩ hno
    | fail e =>
      have he : (rnd (st.draws + absentBefore kb msg (Nat.find hex))).error? = some e := by
        rw [hr]; rfl
      obtain ⟨sig1, hs⟩ := buildSig_fail rnd kb msg st _ e hi hmin hl he
      exact ⟨sig1, e, _, hs, hi, hl, he⟩
    | failAfter e n bytes =>
      have he : (rnd (st.draws + absentBefore kb msg (Nat.find hex))).error? = some e := by
        rw [hr]; rfl
      obtain ⟨sig1, hs⟩ := buildSig_fail rnd kb msg st _ e hi hmin hl he
      exact ⟨sig1, e, _, hs, hi, hl, he⟩

/-! ## Coverage of the known pairs -/

theorem lookup_allLeaks_isSome (msgs : List Message) (sigs : List Signature)
    (p : Message × Signature) (hp : p ∈ msgs.zip sigs) (i : Nat) (hi : i < 256) :
    (KnownBlocks.lookup (allLeaks msgs sigs) (slotOf p.1 i)).isSome := by
  cases h : KnownBlocks.lookup (allLeaks msgs sigs) (slotOf p.1 i) with
  | none => exact absurd ⟨i, hi, rfl⟩ ((lookup_allLeaks_none msgs sigs _).mp h p hp)
  | some b => rfl

theorem verify_sigA : Verify id msgZeros pubAB sigA = true := by
  rw [verify_iff]
  intro i hi
  rw [BitAt_msgZeros, if_pos rfl, getD_of_getElem? sigA i blockA (sigA_getElem i hi)]
  show blockA = (List.replicate 256 blockA).getD i Block.zero
  rw [List.getD_eq_getElem?_getD, List.getElem?_replicate, if_pos hi]
  rfl

/-! ## What the aggregation prints -/

theorem mem_allLeaks (msgs : List Message) (sigs : List Signature) (l : Nat × Block) :
    l ∈ allLeaks msgs sigs ↔ ∃ p ∈ msgs.zip sigs, ∃ i, i < 256 ∧ l = leak p.1 p.2 i := by
  induction msgs generalizing sigs with
  | nil => simp [allLeaks]
  | cons m ms ih =>
    cases sigs with
    | nil => simp [allLeaks]
    | cons sg ss =>
      simp only [allLeaks, List.mem_append, ih, List.zip_cons_cons, List.mem_cons,
        exists_eq_or_imp, leaksOf, List.mem_map, List.mem_range]
      constructor
      · rintro (⟨i, hi, rfl⟩ | h)
        · exact Or.inl ⟨i, hi, rfl⟩
        · exact Or.inr h
      · rintro (⟨i, hi, rfl⟩ | h)
        · exact Or.inl ⟨i, hi, rfl⟩
        · exact Or.inr h

theorem allAgree_iff_consistent (msgs : List Message) (sigs : List Signature) :
    AllAgree [] (allLeaks msgs sigs) ↔ Consistent msgs sigs := by
  unfold AllAgree Consistent
  simp only [KnownBlocks.lookup, Option.orElse]
  constructor
  · intro h p hp q hq i hi hs
    have h1 := h (leak p.1 p.2 i) ((mem_allLeaks msgs sigs _).mpr ⟨p, hp, i, hi, rfl⟩)
    have h2 := h (leak q.1 q.2 i) ((mem_allLeaks msgs sigs _).mpr ⟨q, hq, i, hi, rfl⟩)
    simp only [leak] at h1 h2
    rw [hs, h2] at h1
    rw [getElem?_preimage p.2 i hi, getElem?_preimage q.2 i hi]
    exact (congrArg some (Option.some.inj h1)).symm
  · intro h l hl
    obtain ⟨p, hp, i, hi, rfl⟩ := (mem_allLeaks msgs sigs l).mp hl
    simp only [leak]
    cases hlk : KnownBlocks.lookup (allLeaks msgs sigs) (slotOf p.1 i) with
    | none =>
      have := lookup_allLeaks_isSome msgs sigs p hp i hi
      rw [hlk] at this
      cases this
    | some b =>
      obtain ⟨k, m, sg, hk, hsel, _, hb⟩ := lookup_allLeaks_some msgs sigs _ b hlk
      rw [slotOf_mod p.1 i hi] at hb
      have hsl : slotOf m i = slotOf p.1 i := by
        have := ((selects_iff m _).mp hsel).2
        rwa [slotOf_mod p.1 i hi] at this
      have := h (m, sg) (List.getElem?_mem hk) p hp i hi hsl
      rw [getElem?_preimage sg i hi, getElem?_preimage p.2 i hi] at this
      rw [hb, Option.some.inj this]

theorem lookup_orElse_recordSlot (st : AggState) (s : Nat) (b : Block) (L : List (Nat × Block))
    (t : Nat) :
    ((recordSlot st s b).knownblocks.lookup t).orElse (fun _ => KnownBlocks.lookup L t)
      = (st.knownblocks.lookup t).orElse (fun _ => KnownBlocks.lookup ((s, b) :: L) t) := by
  rw [lookup_recordSlot]
  cases st.knownblocks.lookup t with
  | some w => rfl
  | none =>
    by_cases hts : t = s
    · subst hts; simp [KnownBlocks.lookup, Option.orElse]
    · have : ¬ s = t := fun e => hts e.symm
      simp [KnownBlocks.lookup, Option.orElse, hts, this]

/-- The aggregation prints one line for every leak that disagrees with the
block first seen for its slot, and nothing else. -/
theorem out_recordAll (L : List (Nat × Block)) :
    ∀ st : AggState, ∃ n, (recordAll st L).out = st.out ++ List.replicate n inconsistentText ∧
      (n = 0 ↔ AllAgree st.knownblocks L) := by
  induction L with
  | nil =>
    intro st
    exact ⟨0, by simp [recordAll], by simp [AllAgree]⟩
  | cons l L ih =>
    obtain ⟨s, b⟩ := l
    intro st
    obtain ⟨n1, hout, hiff⟩ := ih (recordSlot st s b)
    have hstep : recordAll st ((s, b) :: L) = recordAll (recordSlot st s b) L := rfl
    have hagree : AllAgree (recordSlot st s b).knownblocks L ↔
        ∀ l ∈ L, (st.knownblocks.lookup l.1).orElse
          (fun _ => KnownBlocks.lookup ((s, b) :: L) l.1) = some l.2 := by
      unfold AllAgree
      constructor
      · intro h l hl
        rw [← lookup_orElse_recordSlot]; exact h l hl
      · intro h l hl
        rw [lookup_orElse_recordSlot]; exact h l hl
    by_cases hc : ∃ v, st.knownblocks.lookup s = some v ∧ v ≠ b
    · obtain ⟨v, hv, hne⟩ := hc
      have h1 : (recordSlot st s b).out = st.out ++ [inconsistentText] := by
        simp [recordSlot, hv, hne]
      refine ⟨n1 + 1, ?_, ?_⟩
      · rw [hstep, hout, h1, List.append_assoc, List.replicate_succ]
        rfl
      · constructor
        · intro h0; omega
        · intro h
          have := h (s, b) (List.mem_cons_self _ _)
          simp only [hv, Option.orElse, Option.some.injEq] at this
          exact absurd this hne
    · have h1 : (recordSlot st s b).out = st.out := by
        unfold recordSlot
        cases hv : st.knownblocks.lookup s with
        | none => rfl
        | some v =>
          have : v = b := by
            by_contra hne
            exact hc ⟨v, hv, hne⟩
          simp [this]
      refine ⟨n1, by rw [hstep, hout, h1], ?_⟩
      rw [hiff, hagree]
      unfold AllAgree
      constructor
      · intro h l hl
        rcases List.mem_cons.mp hl with rfl | hl
        · cases hv : st.knownblocks.lookup s with
          | none => simp [Option.orElse, KnownBlocks.lookup]
          | some v =>
            have : v = b := by
              by_contra hne
              exact hc ⟨v, hv, hne⟩
            simp [Option.orElse, this]
        · exact h l hl
      · intro h l hl
        exact h l (List.mem_cons_of_mem _ hl)

/-! ## The search loop -/

theorem sig_ext (s1 s2 : Signature) (h : ∀ i, i < 256 → s1.Preimage[i]? = s2.Preimage[i]?) :
    s1 = s2 := by
  have hl : s1.Preimage = s2.Preimage := by
    apply List.ext_getElem?
    intro i
    by_cases hi : i < 256
    · exact h i hi
    · rw [List.getElem?_eq_none (by rw [s1.size]; omega),
        List.getElem?_eq_none (by rw [s2.size]; omega)]
  cases s1
  cases s2
  simp only at hl
  subst hl
  rfl

/-- An iteration whose candidate has all its slots present in a map of verified
leaks returns that candidate with a nil error. -/
theorem searchIter_covered (env : SearchEnv) (H : Block → Block) (msgs : List Message)
    (sigs : List Signature) (st : SearchState)
    (hV : env.Verify = Verify H)
    (hkb : ∀ s, env.knownblocks.lookup s = KnownBlocks.lookup (allLeaks msgs sigs) s)
    (hver : ∀ p ∈ msgs.zip sigs, Verify H p.1 env.pub p.2 = true)
    (hcov : ∀ i, i < 256 → (env.knownblocks.lookup (slotOf (env.GetMessageFromString
      (msgString_pre ++ (GenerateRandomString env.rnd st.draws 8).1.1)) i)).isSome) :
    ∃ sig, searchIter env st
        = .ret ⟨msgString_pre ++ (GenerateRandomString env.rnd st.draws 8).1.1, sig, none⟩ ∧
      (∀ i, i < 256 → sig.Preimage[i]? = env.knownblocks.lookup (slotOf (env.GetMessageFromString
        (msgString_pre ++ (GenerateRandomString env.rnd st.draws 8).1.1)) i)) := by
  obtain ⟨st1, hrun, _, _, hms, _, hblocks⟩ := buildSig_covered env.rnd env.knownblocks
    (env.GetMessageFromString (msgString_pre ++ (GenerateRandomString env.rnd st.draws 8).1.1))
    { st with msgString := msgString_pre ++ (GenerateRandomString env.rnd st.draws 8).1.1,
              draws := (GenerateRandomString env.rnd st.draws 8).2 } hcov
  have hv : env.Verify (env.GetMessageFromString
      (msgString_pre ++ (GenerateRandomString env.rnd st.draws 8).1.1)) env.pub st1.sig = true := by
    rw [hV, verify_iff]
    intro i hi
    have hb := hblocks i hi
    rw [hkb] at hb
    cases hl : KnownBlocks.lookup (allLeaks msgs sigs) (slotOf (env.GetMessageFromString
        (msgString_pre ++ (GenerateRandomString env.rnd st.draws 8).1.1)) i) with
    | none =>
      have := hcov i hi
      rw [hkb, hl] at this
      cases this
    | some b =>
      rw [hl] at hb
      rw [getD_of_getElem? _ i b hb, leak_valid H env.pub msgs sigs hver _ b hl,
        atSlot_slotOf env.pub _ i hi]
  refine ⟨st1.sig, ?_, hblocks⟩
  unfold searchIter
  simp only [hrun, hv, if_true, hms]

/-- When every iteration rejects its candidate, the loop runs out of
iterations. -/
theorem searchLoop_exhausted (env : SearchEnv) (P : SearchState → Prop)
    (hstep : ∀ st, ∃ st1, searchIter env st = .next st1 ∧ P st1) :
    ∀ (cap : Nat) (st : SearchState), ∃ st1, searchLoop env (cap + 1) st = .next st1 ∧ P st1 := by
  intro cap
  induction cap with
  | zero =>
    intro st
    obtain ⟨st1, h1, hP⟩ := hstep st
    exact ⟨st1, by simp [searchLoop, h1], hP⟩
  | succ cap ih =>
    intro st
    obtain ⟨st1, h1, _⟩ := hstep st
    obtain ⟨st2, h2, hP⟩ := ih st1
    refine ⟨st2, ?_, hP⟩
    rw [searchLoop, h1]
    exact h2

theorem iterationCap_eq : iterationCap = 999999999 + 1 := rfl

/-! ## Runs of `Forge` -/

/-- The map `Forge` aggregates from its four known pairs. -/
theorem forge_result (env : Env) (cap : Nat) :
    (ForgeWithCap env cap).result
      = match search (env.searchEnv
          (recordAll AggState.init (allLeaks env.msgslice env.sigslice)).knownblocks)
          cap Signature.zero with
        | .ret r => some r
        | _ => none := by
  unfold ForgeWithCap
  rw [aggregate_eq env.msgslice env.sigslice (le_refl 4)]
  simp only [AggState.withSi]
  split <;> simp_all

theorem searchIter_of_buildSig (env : SearchEnv) (st st1 : SearchState)
    (h : buildSig env.rnd env.knownblocks
      (env.GetMessageFromString (msgString_pre ++ (GenerateRandomString env.rnd st.draws 8).1.1))
      { st with msgString := msgString_pre ++ (GenerateRandomString env.rnd st.draws 8).1.1,
                draws := (GenerateRandomString env.rnd st.draws 8).2 } = .next st1) :
    searchIter env st
      = if env.Verify (env.GetMessageFromString
            (msgString_pre ++ (GenerateRandomString env.rnd st.draws 8).1.1)) env.pub st1.sig
        then .ret ⟨st1.msgString, st1.sig, none⟩
        else .next { st1 with tested := st1.tested + 1 } := by
  unfold searchIter
  simp only [h]

theorem search_of_first_ret (env : SearchEnv) (cap : Nat) (sig : Signature) (r : ForgeResult)
    (h : searchIter env (SearchState.start sig) = .ret r) : search env (cap + 1) sig = .ret r := by
  unfold search
  rw [searchLoop, h]

theorem search_of_exhausted (env : SearchEnv) (cap : Nat) (sig : Signature) (st : SearchState)
    (h : searchLoop env cap (SearchState.start sig) = .next st) :
    search env cap sig = .ret ⟨st.msgString, st.sig, none⟩ := by
  unfold search
  rw [h]

/-- When every string has the digest `m0` and the first known signature is
valid for it, the first candidate is covered: `Forge` returns it with the first
known signature and a nil error, whatever the other known signatures and the
random source are. -/
theorem forge_same_digest (env : Env) (m0 : Message)
    (hdig : ∀ s, env.GetMessageFromString s = m0)
    (hv : env.Verify m0 env.pub env.sig1 = true) :
    (Forge env).result
      = some ⟨msgString_pre ++ (GenerateRandomString env.rnd 0 8).1.1, env.sig1, none⟩ := by
  have hkb : ∀ i, i < 256 → KnownBlocks.lookup
      (recordAll AggState.init (allLeaks env.msgslice env.sigslice)).knownblocks (slotOf m0 i)
        = env.sig1.Preimage[i]? := by
    intro i hi
    have := lookup_aggregated (allLeaks env.msgslice env.sigslice) (slotOf m0 i) 0
    simp only [AggState.withSi] at this
    rw [this]
    have h1 : env.msgslice = m0 :: [m0, m0, m0] := by simp [Env.msgslice, hdig]
    have h2 : env.sigslice = env.sig1 :: [env.sig2, env.sig3, env.sig4] := rfl
    rw [h1, h2, lookup_allLeaks_cons, lookup_leaksOf m0 env.sig1 i hi,
      getElem?_preimage env.sig1 i hi]
    rfl
  obtain ⟨st1, hrun, _, _, hms, _, hblocks⟩ := buildSig_covered env.rnd
    (recordAll AggState.init (allLeaks env.msgslice env.sigslice)).knownblocks m0
    { SearchState.start Signature.zero with
        msgString := msgString_pre ++ (GenerateRandomString env.rnd 0 8).1.1,
        draws := (GenerateRandomString env.rnd 0 8).2 }
    (fun i hi => by rw [hkb i hi, getElem?_preimage env.sig1 i hi]; rfl)
  have hsig : st1.sig = env.sig1 := by
    apply sig_ext
    intro i hi
    rw [hblocks i hi, hkb i hi]
  have hiter := searchIter_of_buildSig (env.searchEnv
    (recordAll AggState.init (allLeaks env.msgslice env.sigslice)).knownblocks)
    (SearchState.start Signature.zero) st1
    (by simp only [Env.searchEnv, hdig]; exact hrun)
  simp only [Env.searchEnv, hdig, hsig, hv, if_true, hms] at hiter
  have hs := search_of_first_ret _ 999999999 _ _ hiter
  rw [Forge, iterationCap_eq, forge_result]
  simp only [Env.searchEnv]
  rw [hs]

/-- When every iteration rejects its candidate, `Forge` runs out of iterations
and returns the last candidate with a nil error. -/
theorem forge_exhausted (env : Env) (P : SearchState → Prop)
    (hstep : ∀ st, ∃ st1, searchIter (env.searchEnv
      (recordAll AggState.init (allLeaks env.msgslice env.sigslice)).knownblocks) st
        = .next st1 ∧ P st1) :
    ∃ st, (Forge env).result = some ⟨st.msgString, st.sig, none⟩ ∧ P st := by
  obtain ⟨st, hrun, hP⟩ := searchLoop_exhausted _ P hstep 999999999
    (SearchState.start Signature.zero)
  refine ⟨st, ?_, hP⟩
  have hs := search_of_exhausted _ (999999999 + 1) Signature.zero st hrun
  rw [Forge, iterationCap_eq, forge_result, hs]

/-- An iteration whose candidate has the digest `m1`, whose requests to the
random source succeed and whose built signature `Verify` rejects, goes on to
the next iteration. -/
theorem searchIter_rejected (env : SearchEnv) (st : SearchState) (m1 : Message)
    (hd : ∀ s, env.GetMessageFromString (msgString_pre ++ s) = m1)
    (hrnd : ∀ c, ∃ bytes, env.rnd c = .ok bytes)
    (hrej : ∀ sig : Signature,
      (∀ i, i < 256 → ∃ b d0, sig.Preimage[i]? = some b ∧
        BuiltAt env.rnd env.knownblocks m1 d0 i b) →
      env.Verify m1 env.pub sig = false) :
    ∃ st1, searchIter env st = .next st1 ∧
      env.GetMessageFromString st1.msgString = m1 ∧ env.Verify m1 env.pub st1.sig = false := by
  rcases buildSig_cases env.rnd env.knownblocks m1
    { st with msgString := msgString_pre ++ (GenerateRandomString env.rnd st.draws 8).1.1,
              draws := (GenerateRandomString env.rnd st.draws 8).2 } with
    ⟨st1, hrun, _, _, hms, _, hbuilt⟩ | ⟨_, e, i, _, _, _, hf⟩
  · have hv : env.Verify m1 env.pub st1.sig = false :=
      hrej st1.sig (fun i hi => by
        obtain ⟨b, hb, hB⟩ := hbuilt i hi
        exact ⟨b, _, hb, hB⟩)
    have hiter := searchIter_of_buildSig env st st1 (by rw [hd]; exact hrun)
    rw [hd, hv] at hiter
    refine ⟨{ st1 with tested := st1.tested + 1 }, ?_, ?_, hv⟩
    · rw [hiter]; rfl
    · show env.GetMessageFromString st1.msgString = m1
      rw [hms]
      exact hd _
  · obtain ⟨bytes, hb⟩ := hrnd
      ((GenerateRandomString env.rnd st.draws 8).2 + absentBefore env.knownblocks m1 i)
    simp only at hf
    rw [hb] at hf
    cases hf

theorem lookup_recordAll_init (L : List (Nat × Block)) (s : Nat) :
    (recordAll AggState.init L).knownblocks.lookup s = KnownBlocks.lookup L s :=
  lookup_aggregated L s 0

theorem msgString_pre_length : msgString_pre.length = 47 := by decide

theorem ofFn_zero_ne_blockB : Block.ofFn (fun _ => 0) ≠ blockB := by decide

theorem envStuck_msgslice : envStuck.msgslice = [msgZeros, msgZeros, msgZeros, msgZeros] :=
  rfl

theorem envStuck_digest (s : String) :
    envStuck.GetMessageFromString (msgString_pre ++ s) = msgOnes := by
  show (if (msgString_pre ++ s).length ≤ 1 then msgZeros else msgOnes) = msgOnes
  rw [String.length_append, msgString_pre_length, if_neg (by omega)]

theorem envStuck_lookup_256 :
    KnownBlocks.lookup
      (recordAll AggState.init (allLeaks envStuck.msgslice envStuck.sigslice)).knownblocks 256
      = none := by
  rw [lookup_recordAll_init, lookup_allLeaks_none]
  intro p hp hsel
  have hm : p.1 ∈ envStuck.msgslice := (List.of_mem_zip hp).1
  rw [envStuck_msgslice] at hm
  have hp1 : p.1 = msgZeros := by
    simp only [List.mem_cons, List.mem_singleton, List.not_mem_nil, or_false, or_self] at hm
    exact hm
  rw [hp1, selects_iff, slotOf_msgZeros] at hsel
  omega

/-- A signature built for the all-one message from a map without slot 256 and
zero random bytes is rejected under `pubAB`. -/
theorem rejected_of_built (kb : KnownBlocks) (h256 : kb.lookup 256 = none) (sig : Signature)
    (hb : ∀ i, i < 256 → ∃ b d0, sig.Preimage[i]? = some b ∧ BuiltAt rndZero kb msgOnes d0 i b) :
    Verify id msgOnes pubAB sig = false := by
  cases hv : Verify id msgOnes pubAB sig with
  | false => rfl
  | true =>
    exfalso
    have h0 := (verify_iff id msgOnes pubAB sig).mp hv 0 (by norm_num)
    obtain ⟨b, d0, hb0, hB⟩ := hb 0 (by norm_num)
    unfold BuiltAt at hB
    rw [slotOf_msgOnes 0 (by norm_num)] at hB
    simp only [Nat.zero_add, h256] at hB
    obtain ⟨bytes, hbytes, hbb⟩ := hB
    have hz : bytes = fun _ => 0 := by
      have : rndZero (d0 + absentBefore kb msgOnes 0) = .ok (fun _ => 0) := rfl
      exact (RandResult.ok.inj (this.symm.trans hbytes)).symm
    rw [getD_of_getElem? _ 0 b hb0, BitAt_msgOnes 0 (by norm_num), hbb, hz] at h0
    exact ofFn_zero_ne_blockB h0

theorem envStuck_searchEnv_digest (kb : KnownBlocks) (s : String) :
    (envStuck.searchEnv kb).GetMessageFromString (msgString_pre ++ s) = msgOnes := by
  simp only [Env.searchEnv]
  exact envStuck_digest s

theorem envStuck_searchEnv_rnd (kb : KnownBlocks) (c : Nat) :
    ∃ bytes, (envStuck.searchEnv kb).rnd c = .ok bytes := by
  simp only [Env.searchEnv]
  exact ⟨fun _ => 0, rfl⟩

theorem envStuck_searchEnv_rej (kb : KnownBlocks) (h256 : kb.lookup 256 = none)
    (sig : Signature)
    (hb : ∀ i, i < 256 → ∃ b d0, sig.Preimage[i]? = some b ∧
      BuiltAt (envStuck.searchEnv kb).rnd (envStuck.searchEnv kb).knownblocks msgOnes d0 i b) :
    (envStuck.searchEnv kb).Verify msgOnes (envStuck.searchEnv kb).pub sig = false := by
  simp only [Env.searchEnv] at hb ⊢
  exact rejected_of_built kb h256 sig hb

/-- With `envStuck` every iteration ends with `Verify` rejecting the candidate. -/
theorem envStuck_step (st : SearchState) :
    ∃ st1, searchIter (envStuck.searchEnv
      (recordAll AggState.init (allLeaks envStuck.msgslice envStuck.sigslice)).knownblocks) st
        = .next st1 ∧
      (envStuck.GetMessageFromString st1.msgString = msgOnes ∧
        Verify id msgOnes pubAB st1.sig = false) :=
  searchIter_rejected (envStuck.searchEnv
      (recordAll AggState.init (allLeaks envStuck.msgslice envStuck.sigslice)).knownblocks)
    st msgOnes (envStuck_searchEnv_digest _) (envStuck_searchEnv_rnd _)
    (envStuck_searchEnv_rej _ envStuck_lookup_256)

/-! ## Facts on the concrete environments -/

theorem envStuck_verify : envStuck.Verify msgZeros envStuck.pub sigA = true := by
  unfold envStuck
  dsimp only
  exact verify_sigA

theorem envDup_verify (sig2 : Signature) (rnd : RandSource) :
    (envDup sig2 rnd).Verify msgZeros (envDup sig2 rnd).pub (envDup sig2 rnd).sig1 = true := by
  unfold envDup
  dsimp only
  exact verify_sigA

/-! ## How an iteration and the search end -/

/-- An iteration never panics: it rejects its candidate and goes on, returns the
accepted candidate with a nil error, or returns the error of a failed read.  In
every case the string is the prefix followed by the nonce. -/
theorem searchIter_cases (env : SearchEnv) (st : SearchState) :
    (∃ st1, searchIter env st = .next st1 ∧
        st1.msgString = msgString_pre ++ (GenerateRandomString env.rnd st.draws 8).1.1 ∧
        st1.tested = st.tested + 1 ∧ st1.si = 256 ∧
        env.Verify (env.GetMessageFromString
          (msgString_pre ++ (GenerateRandomString env.rnd st.draws 8).1.1)) env.pub st1.sig
            = false)
    ∨ (∃ sig, searchIter env st
          = .ret ⟨msgString_pre ++ (GenerateRandomString env.rnd st.draws 8).1.1, sig, none⟩ ∧
        env.Verify (env.GetMessageFromString
          (msgString_pre ++ (GenerateRandomString env.rnd st.draws 8).1.1)) env.pub sig = true)
    ∨ (∃ sig e, searchIter env st
          = .ret ⟨msgString_pre ++ (GenerateRandomString env.rnd st.draws 8).1.1, sig,
              some e⟩) := by
  rcases buildSig_cases env.rnd env.knownblocks
    (env.GetMessageFromString (msgString_pre ++ (GenerateRandomString env.rnd st.draws 8).1.1))
    { st with msgString := msgString_pre ++ (GenerateRandomString env.rnd st.draws 8).1.1,
              draws := (GenerateRandomString env.rnd st.draws 8).2 } with
    ⟨st1, hrun, hsi, _, hms, hte, _⟩ | ⟨sig1, e, _, hrun, _⟩
  · have hiter := searchIter_of_buildSig env st st1 hrun
    cases hv : env.Verify (env.GetMessageFromString
        (msgString_pre ++ (GenerateRandomString env.rnd st.draws 8).1.1)) env.pub st1.sig with
    | false =>
      left
      rw [hv] at hiter
      exact ⟨_, hiter, hms, by simp only [hte], hsi, hv⟩
    | true =>
      right; left
      rw [hv] at hiter
      refine ⟨st1.sig, ?_, hv⟩
      rw [hiter, if_pos rfl, hms]
  · right; right
    refine ⟨sig1, e, ?_⟩
    unfold searchIter
    simp only [hrun]

/-- The string held when the loop is left, by running out of iterations or by
a return, starts with the prefix. -/
theorem searchLoop_cases (env : SearchEnv) :
    ∀ (cap : Nat) (st : SearchState), (∃ suffix, st.msgString = msgString_pre ++ suffix) →
      (∃ st1, searchLoop env cap st = .next st1 ∧
          (∃ suffix, st1.msgString = msgString_pre ++ suffix) ∧
          st1.tested = st.tested + cap)
      ∨ (∃ r, searchLoop env cap st = .ret r ∧ ∃ suffix, r.msg = msgString_pre ++ suffix) := by
  intro cap
  induction cap with
  | zero =>
    intro st hst
    exact Or.inl ⟨st, rfl, hst, rfl⟩
  | succ cap ih =>
    intro st _
    rw [searchLoop]
    rcases searchIter_cases env st with ⟨st1, h1, hms, hte, _, _⟩ | ⟨sig, h1, _⟩ | ⟨sig, e, h1⟩
    · rw [h1]
      rcases ih st1 ⟨_, hms⟩ with ⟨st2, h2, hp, ht⟩ | ⟨r, h2, hp⟩
      · exact Or.inl ⟨st2, h2, hp, by rw [ht, hte]; omega⟩
      · exact Or.inr ⟨r, h2, hp⟩
    · rw [h1]
      exact Or.inr ⟨_, rfl, _, rfl⟩
    · rw [h1]
      exact Or.inr ⟨_, rfl, _, rfl⟩

/-- The search always returns, and the string it returns starts with the
prefix. -/
theorem search_returns (env : SearchEnv) (cap : Nat) (sig : Signature) :
    ∃ r, search env cap sig = .ret r ∧ ∃ suffix, r.msg = msgString_pre ++ suffix := by
  unfold search
  rcases searchLoop_cases env cap (SearchState.start sig) ⟨"", rfl⟩ with
    ⟨st1, h1, hp, _⟩ | ⟨r, h1, hp⟩
  · rw [h1]
    exact ⟨_, rfl, hp⟩
  · rw [h1]
    exact ⟨r, rfl, hp⟩

/-- The function `Forge` always returns: no index leaves its array. -/
theorem forge_returns (env : Env) (cap : Nat) :
    ∃ r, (ForgeWithCap env cap).result = some r ∧ ∃ suffix, r.msg = msgString_pre ++ suffix := by
  obtain ⟨r, hr, hp⟩ := search_returns (env.searchEnv
    (recordAll AggState.init (allLeaks env.msgslice env.sigslice)).knownblocks) cap Signature.zero
  refine ⟨r, ?_, hp⟩
  rw [forge_result, hr]

theorem msgString_pre_forge :
    msgString_pre = "my " ++ "forge" ++ "; Jingbo Liu; jingbo.liu2013@gmail.com;" := by
  decide

/-! ## The alphabet of the nonce -/

theorem letters_length : letters.length = 63 := by decide

theorem letterIndex_eq (b : Byte) : letterIndex b = b.val % 63 := by
  unfold letterIndex
  rw [letters_length]

theorem letterIndex_lt (b : Byte) : letterIndex b < letters.length := by
  rw [letterIndex_eq, letters_length]
  exact Nat.mod_lt _ (by norm_num)

theorem letterOf_eq (b : Byte) : letters.toList[b.val % 63]? = some (letterOf b) := by
  have h := letterIndex_lt b
  have hl : letterIndex b < letters.toList.length := h
  unfold letterOf
  rw [← letterIndex_eq, List.getD_eq_getElem?_getD, List.getElem?_eq_getElem hl]
  rfl

theorem letterOf_mem (b : Byte) : letterOf b ∈ letters.toList :=
  List.getElem?_mem (letterOf_eq b)

/-! ## Bounds on passes, bit steps and calls of `Verify` -/

theorem passes_le {α σ ρ : Type} (body : α → σ → Ctl σ ρ) (xs : List α) :
    ∀ s, passes body xs s ≤ xs.length := by
  induction xs with
  | nil => intro s; simp [passes]
  | cons x xs ih =>
    intro s
    simp only [passes, List.length_cons]
    cases body x s with
    | next s1 => have := ih s1; simp only; omega
    | ret r => simp only; omega
    | panicked => simp only; omega

theorem passes_of_next {α σ ρ : Type} (body : α → σ → Ctl σ ρ) (xs : List α) :
    ∀ s s1, forEach body xs s = .next s1 → passes body xs s = xs.length := by
  induction xs with
  | nil => intro s s1 _; rfl
  | cons x xs ih =>
    intro s s1 h
    simp only [passes, forEach, List.length_cons] at h ⊢
    cases hb : body x s with
    | next s2 =>
      rw [hb] at h
      simp only at h ⊢
      rw [ih s2 s1 h]
      omega
    | ret r => rw [hb] at h; cases h
    | panicked => rw [hb] at h; cases h

theorem bitSteps_le (rnd : RandSource) (kb : KnownBlocks) (bs : List Byte) :
    ∀ st, bitSteps rnd kb bs st ≤ 8 * bs.length := by
  induction bs with
  | nil => intro st; simp [bitSteps]
  | cons bk rest ih =>
    intro st
    have h1 := passes_le (forgeBit rnd kb bk) jRange st
    have h8 : jRange.length = 8 := rfl
    simp only [bitSteps, List.length_cons]
    cases forgeByte rnd kb bk st with
    | next st1 => have := ih st1; simp only; omega
    | ret r => simp only; omega
    | panicked => simp only; omega

theorem bitSteps_of_next (rnd : RandSource) (kb : KnownBlocks) (bs : List Byte) :
    ∀ st st1, forEach (forgeByte rnd kb) bs st = .next st1 →
      bitSteps rnd kb bs st = 8 * bs.length := by
  induction bs with
  | nil => intro st st1 _; rfl
  | cons bk rest ih =>
    intro st st1 h
    have h8 : jRange.length = 8 := rfl
    simp only [bitSteps, forEach, List.length_cons] at h ⊢
    cases hb : forgeByte rnd kb bk st with
    | next s2 =>
      rw [hb] at h
      simp only at h ⊢
      have hp := passes_of_next (forgeBit rnd kb bk) jRange st s2 hb
      rw [ih s2 st1 h, hp]
      omega
    | ret r => rw [hb] at h; cases h
    | panicked => rw [hb] at h; cases h

theorem iterSteps_le (env : SearchEnv) (st : SearchState) : iterSteps env st ≤ 256 := by
  unfold iterSteps
  have := bitSteps_le env.rnd env.knownblocks
    (env.GetMessageFromString (msgString_pre ++ (GenerateRandomString env.rnd st.draws 8).1.1)).bytes
    { st with msgString := msgString_pre ++ (GenerateRandomString env.rnd st.draws 8).1.1,
              draws := (GenerateRandomString env.rnd st.draws 8).2, si := 0 }
  rw [Message.size] at this
  exact this

theorem iterSteps_of_next (env : SearchEnv) (st st1 : SearchState)
    (h : buildSig env.rnd env.knownblocks
      (env.GetMessageFromString (msgString_pre ++ (GenerateRandomString env.rnd st.draws 8).1.1))
      { st with msgString := msgString_pre ++ (GenerateRandomString env.rnd st.draws 8).1.1,
                draws := (GenerateRandomString env.rnd st.draws 8).2 } = .next st1) :
    iterSteps env st = 256 := by
  unfold iterSteps
  have := bitSteps_of_next env.rnd env.knownblocks _ _ st1 h
  rw [Message.size] at this
  exact this

theorem verifyCalls_le (env : SearchEnv) : ∀ cap st, verifyCalls env cap st ≤ cap := by
  intro cap
  induction cap with
  | zero => intro st; simp [verifyCalls]
  | succ cap ih =>
    intro st
    simp only [verifyCalls]
    split
    · split
      · omega
      · rename_i st1 _ _
        have := ih { st1 with tested := st1.tested + 1 }
        omega
    · omega
    · omega

/-- An iteration whose first slot is absent and whose read fails returns in its
first bit step. -/
theorem bitSteps_first_fail (rnd : RandSource) (kb : KnownBlocks) (msg : Message)
    (st : SearchState) (e : Error) (hsi : st.si = 0)
    (hl : kb.lookup (slotOf msg 0) = none) (hr : rnd st.draws = .fail e) :
    bitSteps rnd kb msg.bytes st = 1 := by
  have hlen := msg.size
  cases hb : msg.bytes with
  | nil => rw [hb] at hlen; cases hlen
  | cons b0 rest =>
    have hb0 : msg.bytes.getD (st.si / 8) 0 = b0 := by rw [hsi, hb]; rfl
    have h1 := forgeBit_eq rnd kb msg st 7 (by rw [hsi])
    rw [hb0, forgeStep_absent_fail rnd kb msg st e (by omega) (by rw [hsi]; exact hl) hr] at h1
    simp only [bitSteps, jRange, passes, forgeByte, forEach, h1]

/-- When the candidates have the digest `m1`, the slot of its first bit is absent
and every request to the random source fails, `Forge` returns the error in the
first bit step of the first iteration. -/
theorem forge_first_read_fails (env : Env) (m1 : Message) (e : Error)
    (hd : ∀ s, env.GetMessageFromString (msgString_pre ++ s) = m1)
    (hl : KnownBlocks.lookup
      (recordAll AggState.init (allLeaks env.msgslice env.sigslice)).knownblocks (slotOf m1 0)
        = none)
    (hr : ∀ c, env.rnd c = .fail e) :
    (∃ r, (Forge env).result = some r ∧ r.err = some e) ∧
    iterSteps (env.searchEnv
      (recordAll AggState.init (allLeaks env.msgslice env.sigslice)).knownblocks)
      (SearchState.start Signature.zero) = 1 := by
  constructor
  · obtain ⟨sig1, hrun⟩ := buildSig_fail env.rnd
      (recordAll AggState.init (allLeaks env.msgslice env.sigslice)).knownblocks m1
      { SearchState.start Signature.zero with
          msgString := msgString_pre ++ (GenerateRandomString env.rnd 0 8).1.1,
          draws := (GenerateRandomString env.rnd 0 8).2 } 0 e (by norm_num)
      (fun k hk => by omega) hl (by rw [hr]; rfl)
    have hiter : searchIter (env.searchEnv
        (recordAll AggState.init (allLeaks env.msgslice env.sigslice)).knownblocks)
        (SearchState.start Signature.zero)
          = .ret ⟨msgString_pre ++ (GenerateRandomString env.rnd 0 8).1.1, sig1, some e⟩ := by
      unfold searchIter
      simp only [Env.searchEnv, hd]
      have h0 : (SearchState.start Signature.zero).draws = 0 := rfl
      rw [h0]
      simp only [hrun]
    have hs := search_of_first_ret _ 999999999 _ _ hiter
    refine ⟨⟨msgString_pre ++ (GenerateRandomString env.rnd 0 8).1.1, sig1, some e⟩, ?_, rfl⟩
    rw [Forge, iterationCap_eq, forge_result, hs]
  · unfold iterSteps
    simp only [Env.searchEnv, hd]
    exact bitSteps_first_fail env.rnd _ m1 _ e rfl hl (hr _)

/-- The same, stated on the state the aggregation of `Forge` ends in. -/
theorem forge_first_read_fails_agg (env : Env) (m1 : Message) (e : Error)
    (hd : ∀ s, env.GetMessageFromString (msgString_pre ++ s) = m1)
    (hl : KnownBlocks.lookup
      (recordAll AggState.init (allLeaks env.msgslice env.sigslice)).knownblocks (slotOf m1 0)
        = none)
    (hr : ∀ c, env.rnd c = .fail e) :
    ∃ agg, aggregate env.msgslice env.sigslice = .next agg ∧
      iterSteps (env.searchEnv agg.knownblocks) (SearchState.start Signature.zero) = 1 ∧
      ∃ r, (Forge env).result = some r ∧ r.err = some e := by
  have h := forge_first_read_fails env m1 e hd hl hr
  refine ⟨_, aggregate_eq _ _ (le_refl 4), ?_, h.1⟩
  simp only [AggState.withSi]
  exact h.2

theorem envStuckFail_lookup_256 :
    KnownBlocks.lookup
      (recordAll AggState.init
        (allLeaks envStuckFail.msgslice envStuckFail.sigslice)).knownblocks 256 = none :=
  envStuck_lookup_256

theorem envStuckFail_rnd (c : Nat) : envStuckFail.rnd c = .fail "entropy" := rfl

theorem envStuckFail_lookup_absent :
    KnownBlocks.lookup
      (recordAll AggState.init
        (allLeaks envStuckFail.msgslice envStuckFail.sigslice)).knownblocks
      (slotOf msgOnes 0) = none := by
  rw [slotOf_msgOnes 0 (by norm_num)]
  exact envStuckFail_lookup_256

theorem envStuckFail_digest (s : String) :
    envStuckFail.GetMessageFromString (msgString_pre ++ s) = msgOnes :=
  envStuck_digest s

/-- When the loop runs out of iterations, each of them has called `Verify` and
seen its candidate rejected. -/
theorem verifyCalls_of_next (env : SearchEnv) :
    ∀ cap st st1, searchLoop env cap st = .next st1 →
      st1.tested = st.tested + cap ∧ verifyCalls env cap st = cap := by
  intro cap
  induction cap with
  | zero =>
    intro st st1 h
    simp only [searchLoop] at h
    cases h
    exact ⟨rfl, rfl⟩
  | succ cap ih =>
    intro st st1 h
    rw [searchLoop] at h
    rcases buildSig_cases env.rnd env.knownblocks
      (env.GetMessageFromString (msgString_pre ++ (GenerateRandomString env.rnd st.draws 8).1.1))
      { st with msgString := msgString_pre ++ (GenerateRandomString env.rnd st.draws 8).1.1,
                draws := (GenerateRandomString env.rnd st.draws 8).2 } with
      ⟨s2, hrun, _, _, _, hte, _⟩ | ⟨sig1, e, _, hrun, _⟩
    · have hiter := searchIter_of_buildSig env st s2 hrun
      rw [hiter] at h
      simp only [verifyCalls, hrun]
      cases hv : env.Verify (env.GetMessageFromString
          (msgString_pre ++ (GenerateRandomString env.rnd st.draws 8).1.1)) env.pub s2.sig with
      | true =>
        rw [hv] at h
        simp only [if_true] at h
        cases h
      | false =>
        rw [hv] at h
        simp only [Bool.false_eq_true, if_false] at h ⊢
        obtain ⟨h1, h2⟩ := ih _ st1 h
        refine ⟨?_, by rw [h2]; omega⟩
        rw [h1]
        simp only [hte]
        omega
    · have : searchIter env st = .ret ⟨msgString_pre ++
          (GenerateRandomString env.rnd st.draws 8).1.1, sig1, some e⟩ := by
        unfold searchIter
        simp only [hrun]
      rw [this] at h
      cases h

/-! ## The built signature does not depend on the old one -/

theorem builtAt_unique (rnd : RandSource) (kb : KnownBlocks) (msg : Message) (d0 i : Nat)
    (b1 b2 : Block) (h1 : BuiltAt rnd kb msg d0 i b1) (h2 : BuiltAt rnd kb msg d0 i b2) :
    b1 = b2 := by
  unfold BuiltAt at h1 h2
  cases hl : kb.lookup (slotOf msg i) with
  | some v =>
    rw [hl] at h1 h2
    simp only at h1 h2
    rw [h1, h2]
  | none =>
    rw [hl] at h1 h2
    obtain ⟨bytes1, hr1, rfl⟩ := h1
    obtain ⟨bytes2, hr2, rfl⟩ := h2
    rw [hr1] at hr2
    rw [RandResult.ok.inj hr2]

/-- Two constructions for the same candidate from the same map, started after
the same number of requests, end alike, whatever the signature, string and
counters they start from. -/
theorem buildSig_fresh (rnd : RandSource) (kb : KnownBlocks) (msg : Message)
    (st1 st2 r1 : SearchState) (hd : st1.draws = st2.draws)
    (h1 : buildSig rnd kb msg st1 = .next r1) :
    ∃ r2, buildSig rnd kb msg st2 = .next r2 ∧ r2.sig = r1.sig ∧ r2.draws = r1.draws := by
  rcases buildSig_cases rnd kb msg st1 with ⟨r, hr, _, hdr, _, _, hb1⟩ | ⟨_, _, _, hr, _⟩
  · rw [h1] at hr
    cases hr
    rcases buildSig_cases rnd kb msg st2 with
      ⟨r2, hr2, _, hdr2, _, _, hb2⟩ | ⟨_, e, i, _, hi, hl, hf⟩
    · refine ⟨r2, hr2, ?_, by rw [hdr2, hdr, hd]⟩
      apply sig_ext
      intro i hi
      obtain ⟨b1, hp1, hB1⟩ := hb1 i hi
      obtain ⟨b2, hp2, hB2⟩ := hb2 i hi
      rw [hd] at hB1
      rw [hp1, hp2, builtAt_unique rnd kb msg _ i b1 b2 hB1 hB2]
    · exfalso
      obtain ⟨b1, _, hB1⟩ := hb1 i hi
      unfold BuiltAt at hB1
      rw [hl] at hB1
      obtain ⟨bytes, hok, _⟩ := hB1
      rw [hd] at hok
      rw [hok] at hf
      simp [RandResult.error?] at hf
  · rw [h1] at hr
    cases hr

theorem buildSig_rndZero (kb : KnownBlocks) (msg : Message) (st : SearchState) :
    ∃ r, buildSig rndZero kb msg st = .next r := by
  rcases buildSig_cases rndZero kb msg st with ⟨r, hr, _⟩ | ⟨_, _, _, _, _, _, hf⟩
  · exact ⟨r, hr⟩
  · simp [rndZero, RandResult.error?] at hf

/-! ## The search loop leaves the map as it is -/

theorem fillSlotV_eq (rnd : RandSource) (kb : KnownBlocks) (st : SearchState) (slot : Nat) :
    fillSlotV rnd ⟨kb, st⟩ slot = withMap kb (fillSlot rnd kb st slot) := by
  unfold fillSlotV fillSlot
  by_cases hsi : st.si < 256
  · simp only [hsi, if_true]
    cases kb.lookup slot with
    | some b => rfl
    | none =>
      simp only
      cases rnd st.draws with
      | ok bytes => rfl
      | fail e => rfl
      | failAfter e n bytes => rfl
  · simp only [hsi, if_false]
    rfl

theorem forgeBitV_eq (rnd : RandSource) (kb : KnownBlocks) (bk : Byte) (j : Nat)
    (st : SearchState) :
    forgeBitV rnd bk j ⟨kb, st⟩ = withMap kb (forgeBit rnd kb bk j st) := by
  unfold forgeBitV forgeBit
  by_cases hz : bk.val &&& mask j = 0
  · simp only [hz, if_true, fillSlotV_eq]
    cases fillSlot rnd kb st st.si <;> rfl
  · simp only [hz, if_false, fillSlotV_eq]
    cases fillSlot rnd kb st (st.si + 256) <;> rfl

theorem forEach_withMap {α : Type} (kb : KnownBlocks)
    (bodyV : α → SearchVars → Ctl SearchVars Returned)
    (body : α → SearchState → Ctl SearchState ForgeResult)
    (h : ∀ x st, bodyV x ⟨kb, st⟩ = withMap kb (body x st)) (xs : List α) :
    ∀ st, forEach bodyV xs ⟨kb, st⟩ = withMap kb (forEach body xs st) := by
  induction xs with
  | nil => intro st; rfl
  | cons x xs ih =>
    intro st
    simp only [forEach, h]
    cases body x st with
    | next s1 => exact ih s1
    | ret r => rfl
    | panicked => rfl

theorem buildSigV_eq (rnd : RandSource) (kb : KnownBlocks) (mymsg : Message)
    (st : SearchState) :
    buildSigV rnd mymsg ⟨kb, st⟩ = withMap kb (buildSig rnd kb mymsg st) := by
  unfold buildSigV buildSig
  exact forEach_withMap kb (forgeByteV rnd) (forgeByte rnd kb)
    (fun bk s => forEach_withMap kb (forgeBitV rnd bk) (forgeBit rnd kb bk)
      (fun j s2 => forgeBitV_eq rnd kb bk j s2) jRange s) mymsg.bytes _

theorem searchIterV_eq (env : Env) (kb : KnownBlocks) (st : SearchState) :
    searchIterV env ⟨kb, st⟩ = withMap kb (searchIter (env.searchEnv kb) st) := by
  unfold searchIterV searchIter
  simp only [buildSigV_eq, Env.searchEnv]
  cases buildSig env.rnd kb _ _ with
  | next s1 =>
    simp only [withMap]
    split <;> rfl
  | ret r => rfl
  | panicked => rfl

theorem searchLoopV_eq (env : Env) (kb : KnownBlocks) :
    ∀ cap st, searchLoopV env cap ⟨kb, st⟩ = withMap kb (searchLoop (env.searchEnv kb) cap st) := by
  intro cap
  induction cap with
  | zero => intro st; rfl
  | succ cap ih =>
    intro st
    simp only [searchLoopV, searchLoop, searchIterV_eq]
    cases searchIter (env.searchEnv kb) st with
    | next s1 => exact ih s1
    | ret r => rfl
    | panicked => rfl

/-- The search loop never panics. -/
theorem searchLoop_total (env : SearchEnv) :
    ∀ cap st, (∃ st1, searchLoop env cap st = .next st1) ∨ (∃ r, searchLoop env cap st = .ret r) := by
  intro cap
  induction cap with
  | zero => intro st; exact Or.inl ⟨st, rfl⟩
  | succ cap ih =>
    intro st
    rw [searchLoop]
    rcases searchIter_cases env st with ⟨st1, h1, _⟩ | ⟨sig, h1, _⟩ | ⟨sig, e, h1⟩
    · rw [h1]; exact ih st1
    · rw [h1]; exact Or.inr ⟨_, rfl⟩
    · rw [h1]; exact Or.inr ⟨_, rfl⟩

/-! ## Facts on `pubAA` -/

theorem verify_pubAA (msg : Message) (sig : Signature) : Verify hashToA msg pubAA sig = true := by
  rw [verify_iff]
  intro i hi
  have h : ∀ l : List Block, l = List.replicate 256 blockA → l.getD i Block.zero = blockA := by
    intro l hl
    rw [hl, List.getD_eq_getElem?_getD, List.getElem?_replicate, if_pos hi]
    rfl
  show blockA = _
  split
  · exact (h pubAA.row0 rfl).symm
  · exact (h pubAA.row1 rfl).symm

theorem not_consistent_AB : ¬ Consistent [msgZeros, msgZeros] [sigA, sigB] := by
  intro hc
  have := hc (msgZeros, sigA) (List.mem_cons_self _ _) (msgZeros, sigB)
    (List.mem_cons_of_mem _ (List.mem_cons_self _ _)) 0 (by norm_num) rfl
  rw [sigA_getElem 0 (by norm_num), sigB_getElem 0 (by norm_num)] at this
  exact blockA_ne_blockB (Option.some.inj this)

/-! ## Counting the entries of the aggregated map -/

theorem exists_mem_zip (msgs : List Message) (sigs : List Signature)
    (hlen : msgs.length = sigs.length) (m : Message) (hm : m ∈ msgs) :
    ∃ sg, (m, sg) ∈ msgs.zip sigs := by
  induction msgs generalizing sigs with
  | nil => cases hm
  | cons m0 ms ih =>
    cases sigs with
    | nil => simp at hlen
    | cons sg ss =>
      simp only [List.length_cons, Nat.add_right_cancel_iff] at hlen
      rcases List.mem_cons.mp hm with rfl | h
      · exact ⟨sg, List.mem_cons_self _ _⟩
      · obtain ⟨sg2, h2⟩ := ih ss hlen h
        exact ⟨sg2, List.mem_cons_of_mem _ h2⟩

/-- A slot is a key of the aggregated map exactly when a known message selects
it. -/
theorem mem_keys_iff_selected (msgs : List Message) (sigs : List Signature)
    (hlen : msgs.length = sigs.length) (x s : Nat) :
    s ∈ ((recordAll AggState.init (allLeaks msgs sigs)).withSi x).knownblocks.keys
      ↔ ∃ m ∈ msgs, selects m s := by
  rw [mem_keys_aggregated]
  constructor
  · intro h
    obtain ⟨p, hp, hs⟩ := selected_of_lookup_allLeaks msgs sigs s h
    exact ⟨p.1, (List.of_mem_zip hp).1, hs⟩
  · rintro ⟨m, hm, hs⟩ hnone
    obtain ⟨sg, hp⟩ := exists_mem_zip msgs sigs hlen m hm
    exact (lookup_allLeaks_none msgs sigs s).mp hnone (m, sg) hp hs

theorem countP_or_and {α : Type} (p q : α → Bool) (L : List α)
    (h : ∀ x ∈ L, p x = true ∨ q x = true) :
    L.countP p + L.countP q = L.length + L.countP (fun x => p x && q x) := by
  induction L with
  | nil => rfl
  | cons a L ih =>
    have ih2 := ih (fun x hx => h x (List.mem_cons_of_mem _ hx))
    have ha := h a (List.mem_cons_self _ _)
    simp only [List.countP_cons, List.length_cons]
    cases hp : p a <;> cases hq : q a <;> simp_all <;> omega

/-- The length of a duplicate-free list of numbers below `n` is the number of
numbers below `n` that it holds. -/
theorem length_eq_countP_range (l : List Nat) (n : Nat) (hn : l.Nodup) (hb : ∀ s ∈ l, s < n) :
    l.length = (List.range n).countP (fun s => decide (s ∈ l)) := by
  rw [List.countP_eq_length_filter]
  apply List.Perm.length_eq
  rw [List.perm_ext_iff_of_nodup hn ((List.nodup_range n).filter _)]
  intro s
  simp only [List.mem_filter, List.mem_range, decide_eq_true_eq]
  exact ⟨fun h => ⟨hb s h, h⟩, fun h => h.2⟩

/-- Some known message has bit `i` equal to 0. -/
theorem selects_low_iff (msgs : List Message) (i : Nat) (hi : i < 256) :
    (∃ m ∈ msgs, selects m i) ↔ ∃ m ∈ msgs, BitAt m.bytes i = 0 := by
  constructor
  · rintro ⟨m, hm, hs⟩
    refine ⟨m, hm, ?_⟩
    have := ((selects_iff m i).mp hs).2
    rw [Nat.mod_eq_of_lt hi] at this
    unfold slotOf at this
    by_contra hne
    rw [if_neg hne] at this
    omega
  · rintro ⟨m, hm, hb⟩
    exact ⟨m, hm, i, hi, by simp [slotOf, hb]⟩

/-- Some known message has bit `i` equal to 1. -/
theorem selects_high_iff (msgs : List Message) (i : Nat) (hi : i < 256) :
    (∃ m ∈ msgs, selects m (256 + i)) ↔ ∃ m ∈ msgs, BitAt m.bytes i ≠ 0 := by
  constructor
  · rintro ⟨m, hm, hs⟩
    refine ⟨m, hm, ?_⟩
    have := ((selects_iff m (256 + i)).mp hs).2
    rw [show (256 + i) % 256 = i by omega] at this
    unfold slotOf at this
    intro hz
    rw [if_pos hz] at this
    omega
  · rintro ⟨m, hm, hb⟩
    exact ⟨m, hm, i, hi, by simp [slotOf, hb]; omega⟩

/-- The number of entries of the aggregated map of a non-empty list of pairs. -/
theorem len_aggregated (msgs : List Message) (sigs : List Signature)
    (hlen : msgs.length = sigs.length) (hne : msgs ≠ []) (x : Nat) :
    ((recordAll AggState.init (allLeaks msgs sigs)).withSi x).knownblocks.len
      = 256 + (List.range 256).countP (fun i =>
          decide (∃ m ∈ msgs, ∃ m2 ∈ msgs, BitAt m.bytes i ≠ BitAt m2.bytes i)) := by
  have hkeys := mem_keys_iff_selected msgs sigs hlen x
  have hnd := nodup_keys_aggregated (allLeaks msgs sigs) x
  have hb : ∀ s ∈ ((recordAll AggState.init (allLeaks msgs sigs)).withSi x).knownblocks.keys,
      s < 512 := by
    intro s hs
    obtain ⟨m, _, hsel⟩ := (hkeys s).mp hs
    exact ((selects_iff m s).mp hsel).1
  have hlenkeys : ((recordAll AggState.init (allLeaks msgs sigs)).withSi x).knownblocks.len
      = ((recordAll AggState.init (allLeaks msgs sigs)).withSi x).knownblocks.keys.length := by
    simp [KnownBlocks.len, KnownBlocks.keys]
  rw [hlenkeys, length_eq_countP_range _ 512 hnd hb, show 512 = 256 + 256 from rfl,
    List.range_add, List.countP_append, List.countP_map]
  have h0 : (List.range 256).countP (fun s => decide
        (s ∈ ((recordAll AggState.init (allLeaks msgs sigs)).withSi x).knownblocks.keys))
      = (List.range 256).countP (fun i => decide (∃ m ∈ msgs, BitAt m.bytes i = 0)) := by
    apply List.countP_congr
    intro i hi
    simp only [decide_eq_true_eq]
    rw [hkeys, selects_low_iff msgs i (List.mem_range.mp hi)]
  have h1 : (List.range 256).countP ((fun s => decide
        (s ∈ ((recordAll AggState.init (allLeaks msgs sigs)).withSi x).knownblocks.keys))
          ∘ (fun i => 256 + i))
      = (List.range 256).countP (fun i => decide (∃ m ∈ msgs, BitAt m.bytes i ≠ 0)) := by
    apply List.countP_congr
    intro i hi
    simp only [Function.comp_apply, decide_eq_true_eq]
    rw [hkeys, selects_high_iff msgs i (List.mem_range.mp hi)]
  rw [h0, h1, countP_or_and, List.length_range]
  · congr 1
    apply List.countP_congr
    intro i _
    simp only [Bool.and_eq_true, decide_eq_true_eq]
    constructor
    · rintro ⟨⟨m, hm, h0⟩, ⟨m2, hm2, h2⟩⟩
      exact ⟨m, hm, m2, hm2, by rw [h0]; exact fun e => h2 e.symm⟩
    · rintro ⟨m, hm, m2, hm2, hd⟩
      have b1 := BitAt_le_one m.bytes i
      have b2 := BitAt_le_one m2.bytes i
      by_cases hz : BitAt m.bytes i = 0
      · exact ⟨⟨m, hm, hz⟩, ⟨m2, hm2, by omega⟩⟩
      · exact ⟨⟨m2, hm2, by omega⟩, ⟨m, hm, hz⟩⟩
  · intro i _
    obtain ⟨m, hm⟩ := List.exists_mem_of_ne_nil msgs hne
    by_cases hz : BitAt m.bytes i = 0
    · exact Or.inl (by simp only [decide_eq_true_eq]; exact ⟨m, hm, hz⟩)
    · exact Or.inr (by simp only [decide_eq_true_eq]; exact ⟨m, hm, hz⟩)

/-! ## The order of the known pairs -/

theorem zip_map_fst_snd (ps : List (Message × Signature)) :
    (ps.map Prod.fst).zip (ps.map Prod.snd) = ps := by
  induction ps with
  | nil => rfl
  | cons p ps ih => simp [ih]

/-- Which slots are present depends only on the set of known pairs. -/
theorem lookup_allLeaks_none_perm (ps qs : List (Message × Signature)) (hperm : ps.Perm qs)
    (s : Nat) :
    KnownBlocks.lookup (allLeaks (ps.map Prod.fst) (ps.map Prod.snd)) s = none
      ↔ KnownBlocks.lookup (allLeaks (qs.map Prod.fst) (qs.map Prod.snd)) s = none := by
  rw [lookup_allLeaks_none, lookup_allLeaks_none, zip_map_fst_snd, zip_map_fst_snd]
  exact ⟨fun h p hp => h p (hperm.mem_iff.mpr hp), fun h p hp => h p (hperm.mem_iff.mp hp)⟩

/-- For consistent pairs the block at a slot depends only on the set of known
pairs. -/
theorem lookup_allLeaks_perm (ps qs : List (Message × Signature)) (hperm : ps.Perm qs)
    (hc : Consistent (ps.map Prod.fst) (ps.map Prod.snd)) (s : Nat) :
    KnownBlocks.lookup (allLeaks (ps.map Prod.fst) (ps.map Prod.snd)) s
      = KnownBlocks.lookup (allLeaks (qs.map Prod.fst) (qs.map Prod.snd)) s := by
  cases h1 : KnownBlocks.lookup (allLeaks (ps.map Prod.fst) (ps.map Prod.snd)) s with
  | none => exact ((lookup_allLeaks_none_perm ps qs hperm s).mp h1).symm
  | some b1 =>
    cases h2 : KnownBlocks.lookup (allLeaks (qs.map Prod.fst) (qs.map Prod.snd)) s with
    | none =>
      rw [(lookup_allLeaks_none_perm ps qs hperm s).mpr h2] at h1
      cases h1
    | some b2 =>
      obtain ⟨k1, m1, sg1, hk1, hs1, _, hb1⟩ := lookup_allLeaks_some _ _ s b1 h1
      obtain ⟨k2, m2, sg2, hk2, hs2, _, hb2⟩ := lookup_allLeaks_some _ _ s b2 h2
      rw [zip_map_fst_snd] at hk1 hk2
      have hp1 : (m1, sg1) ∈ ps := List.getElem?_mem hk1
      have hp2 : (m2, sg2) ∈ ps := hperm.mem_iff.mpr (List.getElem?_mem hk2)
      have hi : s % 256 < 256 := Nat.mod_lt _ (by norm_num)
      have e1 := ((selects_iff m1 s).mp hs1).2
      have e2 := ((selects_iff m2 s).mp hs2).2
      unfold Consistent at hc
      rw [zip_map_fst_snd] at hc
      have := hc (m1, sg1) hp1 (m2, sg2) hp2 (s % 256) hi (e1.trans e2.symm)
      rw [getElem?_preimage sg1 _ hi, getElem?_preimage sg2 _ hi] at this
      rw [hb1, hb2, Option.some.inj this]

theorem consistent_complement : Consistent [msgZeros, msgOnes] [sigA, sigB] := by
  intro p hp q hq i hi hs
  simp only [List.zip_cons_cons, List.zip_nil_right, List.mem_cons, List.mem_singleton,
    List.not_mem_nil, or_false] at hp hq
  rcases hp with rfl | rfl <;> rcases hq with rfl | rfl
  · rfl
  · simp only [slotOf_msgZeros, slotOf_msgOnes i hi] at hs
    omega
  · simp only [slotOf_msgZeros, slotOf_msgOnes i hi] at hs
    omega
  · rfl

/-! ## The preimages of the characters of the nonce -/

set_option maxRecDepth 100000 in
theorem count_mod_63 : ∀ k, k < 63 →
    (List.range 256).countP (fun x => decide (x % 63 = k)) = if k < 4 then 5 else 4 := by
  decide

theorem letters_nodup : letters.toList.Nodup := by decide

theorem count_letterIndex (k : Nat) (hk : k < 63) :
    (List.finRange 256).countP (fun b => decide (letterIndex b = k))
      = if k < 4 then 5 else 4 := by
  rw [← count_mod_63 k hk, ← List.map_coe_finRange 256, List.countP_map]
  apply List.countP_congr
  intro b _
  simp only [Function.comp_apply, decide_eq_true_eq, letterIndex_eq]

theorem letterOf_eq_iff (b : Byte) (k : Nat) (c : Char) (h : letters.toList[k]? = some c) :
    letterOf b = c ↔ letterIndex b = k := by
  have hb := letterOf_eq b
  rw [← letterIndex_eq] at hb
  obtain ⟨hk, hkc⟩ := List.getElem?_eq_some.mp h
  obtain ⟨hi, hic⟩ := List.getElem?_eq_some.mp hb
  constructor
  · intro he
    rw [← he, ← hic] at hkc
    exact ((letters_nodup.getElem_inj_iff).mp hkc).symm
  · intro he
    subst he
    rw [← hic, ← hkc]

theorem count_letterOf (k : Nat) (c : Char) (h : letters.toList[k]? = some c) :
    (List.finRange 256).countP (fun b => decide (letterOf b = c)) = if k < 4 then 5 else 4 := by
  have hk : k < 63 := by
    obtain ⟨hk, _⟩ := List.getElem?_eq_some.mp h
    have : letters.toList.length = 63 := letters_length
    omega
  rw [← count_letterIndex k hk]
  apply List.countP_congr
  intro b _
  simp only [decide_eq_true_eq]
  exact letterOf_eq_iff b k c h

/-! ## Indices stay in range -/

theorem walk_indices (msg : Message) :
    ∃ w, walk msg = .next w ∧ w.si = 256 ∧ w.tests.map Prod.fst = List.range 256 := by
  refine ⟨_, walk_eq msg, rfl, ?_⟩
  simp only [List.map_map]
  exact List.map_id _

theorem buildSig_no_panic (rnd : RandSource) (kb : KnownBlocks) (msg : Message)
    (st : SearchState) :
    buildSig rnd kb msg st ≠ .panicked ∧ ∀ st1, buildSig rnd kb msg st = .next st1 → st1.si = 256 := by
  rcases buildSig_cases rnd kb msg st with ⟨s1, h1, hsi, _⟩ | ⟨sig1, e, _, h1, _⟩
  · rw [h1]
    exact ⟨fun h => (by cases h), fun st1 h => (by cases h; exact hsi)⟩
  · rw [h1]
    exact ⟨fun h => (by cases h), fun st1 h => (by cases h)⟩

/-- A message for which there is no signature makes the access `sigslice[mi]`
leave the slice. -/
theorem aggregate_short (msg : Message) (msgs : List Message) :
    aggregate (msg :: msgs) [] = .panicked := rfl

/-! ## The message with eight leading one bits -/

theorem BitAt_msgMixed_lt (i : Nat) (hi : i < 8) : BitAt msgMixed.bytes i = 1 := by
  have h : msgMixed.bytes.getD (i / 8) 0 = 255 := by
    have h0 : i / 8 = 0 := by omega
    rw [h0]
    rfl
  unfold BitAt
  rw [h]
  have hk : 7 - i % 8 ≤ 7 := by omega
  generalize 7 - i % 8 = k at hk
  interval_cases k <;> rfl

theorem BitAt_msgMixed_ge (i : Nat) (hi : 8 ≤ i) : BitAt msgMixed.bytes i = 0 := by
  have h : msgMixed.bytes.getD (i / 8) 0 = 0 := by
    obtain ⟨k, hk⟩ : ∃ k, i / 8 = k + 1 := ⟨i / 8 - 1, by omega⟩
    rw [hk]
    show (List.replicate 31 (0 : Byte)).getD k 0 = 0
    simp only [List.getD_eq_getElem?_getD, List.getElem?_replicate]
    split <;> rfl
  unfold BitAt
  rw [h]
  simp

theorem slotOf_msgMixed_lt (i : Nat) (hi : i < 8) : slotOf msgMixed i = i + 256 := by
  simp [slotOf, BitAt_msgMixed_lt i hi]

theorem slotOf_msgMixed_ge (i : Nat) (hi : 8 ≤ i) : slotOf msgMixed i = i := by
  simp [slotOf, BitAt_msgMixed_ge i hi]

theorem msgMixed_ne_msgZeros : msgMixed ≠ msgZeros := by decide

theorem msgMixed_ne_msgOnes : msgMixed ≠ msgOnes := by decide

theorem verify_sigB : Verify id msgOnes pubAB sigB = true := by
  rw [verify_iff]
  intro i hi
  rw [BitAt_msgOnes i hi, if_neg (by norm_num), getD_of_getElem? sigB i blockB (sigB_getElem i hi)]
  show blockB = (List.replicate 256 blockB).getD i Block.zero
  rw [List.getD_eq_getElem?_getD, List.getElem?_replicate, if_pos hi]
  rfl

/-- The aggregation ends normally in a state whose map looks a slot up as the
first leak of that slot. -/
theorem aggregate_lookup (msgs : List Message) (sigs : List Signature)
    (h : msgs.length ≤ sigs.length) :
    ∃ agg, aggregate msgs sigs = .next agg ∧
      ∀ s, agg.knownblocks.lookup s = KnownBlocks.lookup (allLeaks msgs sigs) s :=
  ⟨_, aggregate_eq msgs sigs h, fun s => lookup_aggregated _ s _⟩

theorem not_selects_msgZeros (s : Nat) (hs : 256 ≤ s) : ¬ selects msgZeros s := by
  rintro ⟨i, hi, h⟩
  rw [slotOf_msgZeros] at h
  omega

/-- The leaks of the all-zero message signed by `sigA`: row 0, all `blockA`. -/
theorem lookup_leaks_zeros_lo (s : Nat) (hs : s < 256) :
    KnownBlocks.lookup (allLeaks [msgZeros] [sigA]) s = some blockA := by
  rw [lookup_allLeaks_cons]
  have h := lookup_leaksOf msgZeros sigA s hs
  rw [slotOf_msgZeros, getD_of_getElem? sigA s blockA (sigA_getElem s hs)] at h
  rw [h]
  rfl

theorem lookup_leaks_zeros_hi (s : Nat) (hs : 256 ≤ s) :
    KnownBlocks.lookup (allLeaks [msgZeros] [sigA]) s = none := by
  rw [lookup_allLeaks_none]
  intro p hp
  simp only [List.zip_cons_cons, List.zip_nil_right, List.mem_singleton] at hp
  rw [hp]
  exact not_selects_msgZeros s hs

/-- The leaks of the two complementary pairs: row 0 holds `blockA`, row 1
holds `blockB`. -/
theorem lookup_leaks_complement_lo (s : Nat) (hs : s < 256) :
    KnownBlocks.lookup (allLeaks [msgZeros, msgOnes] [sigA, sigB]) s = some blockA := by
  rw [lookup_allLeaks_cons]
  have h := lookup_leaksOf msgZeros sigA s hs
  rw [slotOf_msgZeros, getD_of_getElem? sigA s blockA (sigA_getElem s hs)] at h
  rw [h]
  rfl

theorem lookup_leaks_complement_hi (i : Nat) (hi : i < 256) :
    KnownBlocks.lookup (allLeaks [msgZeros, msgOnes] [sigA, sigB]) (i + 256)
      = some blockB := by
  rw [lookup_allLeaks_cons,
    (lookup_leaksOf_none msgZeros sigA (i + 256)).mpr (not_selects_msgZeros _ (by omega))]
  show KnownBlocks.lookup (allLeaks [msgOnes] [sigB]) (i + 256) = some blockB
  rw [lookup_allLeaks_cons]
  have h := lookup_leaksOf msgOnes sigB i hi
  rw [slotOf_msgOnes i hi, getD_of_getElem? sigB i blockB (sigB_getElem i hi)] at h
  rw [h]
  rfl

/-- The bytes of a block read from a byte supply are the first 32 bytes of the
supply. -/
theorem Block.ofFn_bytes (f : Nat → Byte) (k : Nat) (hk : k < 32) :
    (Block.ofFn f).bytes[k]? = some (f k) := by
  show ((List.range 32).map f)[k]? = some (f k)
  rw [List.getElem?_map, List.getElem?_range hk]
  rfl

/-- When the slots of the positions below `i` are all absent, `i` requests are
made before position `i`. -/
theorem absentBefore_of_absent (kb : KnownBlocks) (msg : Message) (i : Nat)
    (h : ∀ k, k < i → kb.lookup (slotOf msg k) = none) : absentBefore kb msg i = i := by
  induction i with
  | zero => rfl
  | succ n ih =>
    rw [absentBefore_succ, ih (fun k hk => h k (by omega)), h n (by omega)]
    rfl

/-! ## A read that fails part-way -/

/-- The bytes of a block after its first `n` bytes were overwritten. -/
theorem Block.overwrite_bytes (old : Block) (n : Nat) (f : Nat → Byte) (k : Nat)
    (hk : k < 32) :
    (old.overwrite n f).bytes[k]? = some (if k < n then f k else old.bytes.getD k 0) := by
  show ((List.range 32).map (fun k => if k < n then f k else old.bytes.getD k 0))[k]? = _
  rw [List.getElem?_map, List.getElem?_range hk]
  rfl

/-- A read that fails after it wrote `n` bytes makes `Forge` return the error
with the signature in which the block at `si` holds these bytes. -/
theorem fillSlot_failAfter (rnd : RandSource) (kb : KnownBlocks) (st : SearchState)
    (slot : Nat) (e : Error) (n : Nat) (bytes : Nat → Byte) (hsi : st.si < 256)
    (hl : kb.lookup slot = none) (hr : rnd st.draws = .failAfter e n bytes) :
    fillSlot rnd kb st slot
      = .ret ⟨st.msgString,
          st.sig.setPreimage st.si
            ((st.sig.Preimage.getD st.si Block.zero).overwrite n bytes), some e⟩ := by
  simp [fillSlot, hsi, hl, hr]

/-! ## Claims on the leak aggregation -/

/-- C1. Leak aggregation: for known pairs given as two lists of equal length,
the aggregation ends normally, and for every pair and every bit index `i` in
`0..255` the slot the message selects at `i` (`i` when bit `i` is 0, `i + 256`
when it is 1) is present in the map; when no two pairs claim different blocks
for the same slot, the map holds the pair's `Preimage[i]` there. -/
theorem C1_leak_aggregation (msgs : List Message) (sigs : List Signature)
    (hlen : msgs.length = sigs.length) :
    ∃ st, aggregate msgs sigs = .next st ∧
      ∀ p ∈ msgs.zip sigs, ∀ i, i < 256 →
        (st.knownblocks.lookup (slotOf p.1 i)).isSome ∧
        (Consistent msgs sigs → st.knownblocks.lookup (slotOf p.1 i) = p.2.Preimage[i]?) := by
  refine ⟨_, aggregate_eq msgs sigs (le_of_eq hlen), ?_⟩
  intro p hp i hi
  rw [lookup_aggregated]
  have hsel : selects p.1 (slotOf p.1 i) := ⟨i, hi, rfl⟩
  cases h : KnownBlocks.lookup (allLeaks msgs sigs) (slotOf p.1 i) with
  | none => exact absurd hsel ((lookup_allLeaks_none msgs sigs _).mp h p hp)
  | some b =>
    refine ⟨rfl, fun hc => ?_⟩
    obtain ⟨k, m, sg, hk, hs, _, hb⟩ := lookup_allLeaks_some msgs sigs _ b h
    rw [slotOf_mod p.1 i hi] at hb
    have hq : (m, sg) ∈ msgs.zip sigs := List.getElem?_mem hk
    have hsl : slotOf m i = slotOf p.1 i := by
      have := ((selects_iff m _).mp hs).2
      rwa [slotOf_mod p.1 i hi] at this
    have := hc (m, sg) hq p hp i hi hsl
    rw [← this, getElem?_preimage sg i hi, hb]

/-- C1, at a concrete input: the single pair of the all-zero message and `sigA`
is consistent, and every slot `0..255` then holds `blockA`. -/
theorem C1_leak_aggregation_witness :
    Consistent [msgZeros] [sigA] ∧
    ∃ st, aggregate [msgZeros] [sigA] = .next st ∧
      ∀ i, i < 256 → st.knownblocks.lookup i = some blockA := by
  obtain ⟨st, h1, h2⟩ := C1_leak_aggregation [msgZeros] [sigA] rfl
  refine ⟨consistent_singleton _ _, st, h1, fun i hi => ?_⟩
  have := (h2 (msgZeros, sigA) (by simp) i hi).2 (consistent_singleton _ _)
  rw [slotOf_msgZeros] at this
  rw [this]
  exact sigA_getElem i hi

/-- C6. First-seen value is kept: every entry of the aggregated map holds the
`Preimage` block of the first pair, in processing order, whose message selects
the slot; a further pair processed afterwards leaves every entry that exists
unchanged; and one step that finds a different block recorded for its slot
leaves the whole map unchanged. -/
theorem C6_first_seen_kept (msgs : List Message) (sigs : List Signature)
    (hlen : msgs.length = sigs.length) :
    ∃ st, aggregate msgs sigs = .next st ∧
      (∀ s b, st.knownblocks.lookup s = some b →
        ∃ (k : Nat) (m : Message) (sg : Signature),
          (msgs.zip sigs)[k]? = some (m, sg) ∧ selects m s ∧
          (∀ (k1 : Nat) (p : Message × Signature), k1 < k →
            (msgs.zip sigs)[k1]? = some p → ¬ selects p.1 s) ∧
          sg.Preimage[s % 256]? = some b) ∧
      (∀ (m : Message) (sg : Signature),
        ∃ st2, aggregate (msgs ++ [m]) (sigs ++ [sg]) = .next st2 ∧
          ∀ s b, st.knownblocks.lookup s = some b → st2.knownblocks.lookup s = some b) ∧
      (∀ (a : AggState) (slot : Nat) (p v : Block),
        a.knownblocks.lookup slot = some v → v ≠ p →
          (recordSlot a slot p).knownblocks = a.knownblocks) := by
  refine ⟨_, aggregate_eq msgs sigs (le_of_eq hlen), ?_, ?_, ?_⟩
  · intro s b h
    rw [lookup_aggregated] at h
    obtain ⟨k, m, sg, hk, hs, hf, hb⟩ := lookup_allLeaks_some msgs sigs s b h
    refine ⟨k, m, sg, hk, hs, hf, ?_⟩
    rw [getElem?_preimage sg _ (Nat.mod_lt _ (by norm_num)), hb]
  · intro m sg
    refine ⟨_, aggregate_eq (msgs ++ [m]) (sigs ++ [sg]) (by simp [hlen]), ?_⟩
    intro s b h
    rw [lookup_aggregated] at h ⊢
    rw [allLeaks_append msgs sigs [m] [sg] hlen, KnownBlocks.lookup_append, h]
    rfl
  · intro a slot p v h hv
    unfold recordSlot
    rw [h]
    simp [hv]

/-- C6, at a concrete input: of two pairs on the same message with different
blocks, every entry holds the block of the first pair. -/
theorem C6_first_seen_kept_witness :
    ∃ st, aggregate [msgZeros, msgZeros] [sigA, sigB] = .next st ∧
      ∀ s b, st.knownblocks.lookup s = some b → b = blockA := by
  obtain ⟨st, h1, h2, _, _⟩ := C6_first_seen_kept [msgZeros, msgZeros] [sigA, sigB] rfl
  refine ⟨st, h1, fun s b h => ?_⟩
  obtain ⟨k, m, sg, hk, hs, hf, hb⟩ := h2 s b h
  have hlt : s % 256 < 256 := Nat.mod_lt _ (by norm_num)
  match k, hk, hf with
  | 0, hk, _ =>
    simp only [List.zip_cons_cons, List.getElem?_cons_zero, Option.some.injEq,
      Prod.mk.injEq] at hk
    rw [← hk.2, sigA_getElem _ hlt] at hb
    exact (Option.some.inj hb).symm
  | 1, hk, hf =>
    simp only [List.zip_cons_cons, List.getElem?_cons_succ, List.getElem?_cons_zero,
      Option.some.injEq, Prod.mk.injEq] at hk
    rw [← hk.1] at hs
    exact absurd hs (hf 0 (msgZeros, sigA) (by norm_num) (by simp))
  | k + 2, hk, _ => simp at hk

/-- C9. Complementary messages give full coverage: for two known pairs whose
messages differ at every one of the 256 bit positions, the aggregation ends
normally with exactly 512 entries, and a slot is present exactly when it is one
of `0..511`. -/
theorem C9_complementary_full_coverage (m1 m2 : Message) (sg1 sg2 : Signature)
    (hdiff : ∀ i, i < 256 → BitAt m1.bytes i ≠ BitAt m2.bytes i) :
    ∃ st, aggregate [m1, m2] [sg1, sg2] = .next st ∧
      st.knownblocks.len = 512 ∧
      ∀ s, (st.knownblocks.lookup s).isSome ↔ s < 512 := by
  refine ⟨_, aggregate_eq [m1, m2] [sg1, sg2] (le_refl _), ?_⟩
  have key : ∀ s, s ∈ ((recordAll AggState.init (allLeaks [m1, m2] [sg1, sg2])).withSi
      (if [m1, m2] = [] then 0 else 256)).knownblocks.keys ↔ s < 512 := by
    intro s
    rw [mem_keys_aggregated]
    constructor
    · intro h
      obtain ⟨p, _, hp⟩ := selected_of_lookup_allLeaks _ _ s h
      exact ((selects_iff p.1 s).mp hp).1
    · intro hs h
      have hno := (lookup_allLeaks_none _ _ s).mp h
      have hi : s % 256 < 256 := Nat.mod_lt _ (by norm_num)
      have n1 : ¬ selects m1 s := hno (m1, sg1) (by simp)
      have n2 : ¬ selects m2 s := hno (m2, sg2) (by simp)
      rw [selects_iff] at n1 n2
      have b1 := BitAt_le_one m1.bytes (s % 256)
      have b2 := BitAt_le_one m2.bytes (s % 256)
      have hd := hdiff (s % 256) hi
      simp only [slotOf, hs, true_and] at n1 n2
      by_cases h1 : BitAt m1.bytes (s % 256) = 0
      · have h2 : BitAt m2.bytes (s % 256) ≠ 0 := fun e => hd (h1.trans e.symm)
        rw [if_pos h1] at n1
        rw [if_neg h2] at n2
        omega
      · have h2 : BitAt m2.bytes (s % 256) = 0 := by omega
        rw [if_neg h1] at n1
        rw [if_pos h2] at n2
        omega
  refine ⟨len_eq_of_keys_iff _ (nodup_keys_aggregated _ _) key, fun s => ?_⟩
  rw [KnownBlocks.lookup_isSome_iff]
  exact key s

/-- C9, at a concrete input: the all-zero message and its complement, the
all-one message. -/
theorem C9_complementary_full_coverage_witness :
    ∃ st, aggregate [msgZeros, msgOnes] [sigA, sigB] = .next st ∧
      st.knownblocks.len = 512 ∧
      ∀ s, (st.knownblocks.lookup s).isSome ↔ s < 512 :=
  C9_complementary_full_coverage msgZeros msgOnes sigA sigB
    (fun i hi => by rw [BitAt_msgZeros, BitAt_msgOnes i hi]; decide)

/-- C10. Partial-key domain invariant: the aggregation ends normally; every key
of the map is below 512 and is a slot selected by a known message (`i` with bit
`i` equal to 0, or `i + 256` with bit `i` equal to 1, for some `i` in `0..255`);
hence the reported count `len(knownblocks)` is at most 512. -/
theorem C10_domain_invariant (msgs : List Message) (sigs : List Signature)
    (hlen : msgs.length = sigs.length) :
    ∃ st, aggregate msgs sigs = .next st ∧
      (∀ s ∈ st.knownblocks.keys, s < 512 ∧
        ∃ m ∈ msgs, ∃ i, i < 256 ∧
          ((s = i ∧ BitAt m.bytes i = 0) ∨ (s = i + 256 ∧ BitAt m.bytes i = 1))) ∧
      st.knownblocks.len ≤ 512 := by
  refine ⟨_, aggregate_eq msgs sigs (le_of_eq hlen), ?_⟩
  have key : ∀ s ∈ ((recordAll AggState.init (allLeaks msgs sigs)).withSi
      (if msgs = [] then 0 else 256)).knownblocks.keys, s < 512 ∧
        ∃ m ∈ msgs, ∃ i, i < 256 ∧
          ((s = i ∧ BitAt m.bytes i = 0) ∨ (s = i + 256 ∧ BitAt m.bytes i = 1)) := by
    intro s hs
    rw [mem_keys_aggregated] at hs
    obtain ⟨p, hp, i, hi, hsl⟩ := selected_of_lookup_allLeaks _ _ s hs
    refine ⟨hsl ▸ slotOf_lt p.1 i hi, p.1, (List.of_mem_zip hp).1, i, hi, ?_⟩
    have b1 := BitAt_le_one p.1.bytes i
    unfold slotOf at hsl
    by_cases h0 : BitAt p.1.bytes i = 0
    · rw [if_pos h0] at hsl
      exact Or.inl ⟨hsl.symm, h0⟩
    · rw [if_neg h0] at hsl
      exact Or.inr ⟨hsl.symm, by omega⟩
  exact ⟨key, len_le_of_keys_lt _ (nodup_keys_aggregated _ _) (fun s hs => (key s hs).1)⟩

/-- C10, at a concrete input: the all-zero message and `sigA`. -/
theorem C10_domain_invariant_witness :
    ∃ st, aggregate [msgZeros] [sigA] = .next st ∧
      (∀ s ∈ st.knownblocks.keys, s < 512 ∧
        ∃ m ∈ [msgZeros], ∃ i, i < 256 ∧
          ((s = i ∧ BitAt m.bytes i = 0) ∨ (s = i + 256 ∧ BitAt m.bytes i = 1))) ∧
      st.knownblocks.len ≤ 512 :=
  C10_domain_invariant [msgZeros] [sigA] rfl

/-! ## Claims on the bit convention and the candidate construction -/

/-- C7. Bit convention: walking a 32-byte message as both loops of `Forge` do
(byte by byte, mask `1 << j` for `j = 7` down to `0`, `si` incremented once per
bit) performs 256 tests, and the test `(bk & mask) != 0` made when the counter
has the value `si` is true exactly when `BitAt(message, si)` is 1; `BitAt` is 0
or 1, bit 0 is the most significant bit of byte 0 and bit 255 the least
significant bit of byte 31.  Accordingly the aggregation loop over a message
records the leaks at the slots `BitAt` gives, and the construction loop takes
the slots `BitAt` gives at the indices `0..255`. -/
theorem C7_bit_convention (msg : Message) :
    walk msg
      = .next ⟨256, (List.range 256).map (fun si => (si, decide (BitAt msg.bytes si = 1)))⟩ ∧
    (∀ si, si < 256 → BitAt msg.bytes si = 0 ∨ BitAt msg.bytes si = 1) ∧
    BitAt msg.bytes 0 = (msg.bytes.getD 0 0).val / 128 ∧
    BitAt msg.bytes 255 = (msg.bytes.getD 31 0).val % 2 ∧
    (∀ (sigslice : List Signature) (mi : Nat) (sig : Signature) (st : AggState),
      sigslice[mi]? = some sig →
        aggMsg sigslice mi msg st = .next ((recordAll st (leaksOf msg sig)).withSi 256)) ∧
    (∀ (rnd : RandSource) (kb : KnownBlocks) (st : SearchState),
      buildSig rnd kb msg st
        = forEach (fun _ => forgeStep rnd kb msg) (List.range 256) { st with si := 0 }) := by
  refine ⟨walk_eq msg, ?_, BitAt_zero _, BitAt_last _, ?_, ?_⟩
  · intro si _
    have := BitAt_le_one msg.bytes si
    omega
  · intro sigslice mi sig st h
    exact aggMsg_eq sigslice mi msg sig st h
  · intro rnd kb st
    exact buildSig_eq rnd kb msg st

/-- C8. Candidate construction: one pass of the two bit-walking loops of the
search over a candidate `msg` ends normally when the requests it makes to the
random source succeed, and whenever it ends normally the signature has, at
every bit index `i` in `0..255`, the block of the map at the slot of `i` when
that slot is present, and otherwise the 32 bytes delivered by the request made
for position `i` (request number `draws + absentBefore knownblocks msg i`):
byte `k` of the block is byte `k` of what that request delivered. -/
theorem C8_candidate_construction (rnd : RandSource) (kb : KnownBlocks) (msg : Message)
    (st : SearchState) :
    ((∀ i, i < 256 → kb.lookup (slotOf msg i) = none →
        ∃ bytes, rnd (st.draws + absentBefore kb msg i) = .ok bytes) →
      ∃ st1, buildSig rnd kb msg st = .next st1) ∧
    (∀ st1, buildSig rnd kb msg st = .next st1 → ∀ i, i < 256 →
      match kb.lookup (slotOf msg i) with
      | some v => st1.sig.Preimage[i]? = some v
      | none => ∃ bytes, rnd (st.draws + absentBefore kb msg i) = .ok bytes ∧
          st1.sig.Preimage[i]? = some (Block.ofFn bytes) ∧
          ∃ b, st1.sig.Preimage[i]? = some b ∧ ∀ k, k < 32 → b.bytes[k]? = some (bytes k)) := by
  constructor
  · intro hok
    obtain ⟨st1, hrun, _⟩ := forgeSteps_prefix rnd kb msg st 256 (le_refl _) hok
    exact ⟨st1, by rw [buildSig_eq]; exact hrun⟩
  · intro st1 hrun i hi
    rcases buildSig_cases rnd kb msg st with ⟨st2, h2, _, _, _, _, hbuilt⟩ | ⟨sig1, e, _, h2, _⟩
    · rw [hrun] at h2
      cases h2
      obtain ⟨b, hb, hB⟩ := hbuilt i hi
      unfold BuiltAt at hB
      cases hl : kb.lookup (slotOf msg i) with
      | some v =>
        rw [hl] at hB
        simp only
        rw [hb, hB]
      | none =>
        rw [hl] at hB
        obtain ⟨bytes, h3, h4⟩ := hB
        exact ⟨bytes, h3, by rw [hb, h4], Block.ofFn bytes, by rw [hb, h4],
          fun k hk => Block.ofFn_bytes bytes k hk⟩
    · rw [hrun] at h2
      cases h2


/-- C8, at a concrete input: the map aggregated from the all-zero message
signed by `sigA` holds row 0 only.  The candidate `msgMixed`, built from it over
the signature `sigB` with the random source `rndSeq`, has at the positions 0 to
7, whose slots are absent, the bytes of the requests 0 to 7 in this order, and
at the positions 8 to 255 the block `blockA` of the map; it differs from the
signature the construction started from. -/
theorem C8_candidate_construction_witness :
    ∃ agg, aggregate [msgZeros] [sigA] = .next agg ∧
      ∃ st1, buildSig rndSeq agg.knownblocks msgMixed (SearchState.start sigB) = .next st1 ∧
        (∀ i, i < 8 → ∃ b, st1.sig.Preimage[i]? = some b ∧
          ∀ k, k < 32 → b.bytes[k]? = some (seqByte i k)) ∧
        (∀ i, 8 ≤ i → i < 256 → st1.sig.Preimage[i]? = some blockA) ∧
        st1.sig ≠ sigB := by
  have hlen : [msgZeros].length ≤ [sigA].length := le_refl _
  obtain ⟨agg, hagg, hlook⟩ := aggregate_lookup [msgZeros] [sigA] hlen
  have h := C8_candidate_construction rndSeq agg.knownblocks msgMixed (SearchState.start sigB)
  obtain ⟨st1, hrun⟩ := h.1 (fun i _ _ => ⟨_, rfl⟩)
  have habs : ∀ i, i < 8 → agg.knownblocks.lookup (slotOf msgMixed i) = none := by
    intro i hi
    rw [hlook, slotOf_msgMixed_lt i hi]
    exact lookup_leaks_zeros_hi _ (by omega)
  have hpre : ∀ i, 8 ≤ i → i < 256 → st1.sig.Preimage[i]? = some blockA := by
    intro i h8 hi
    have hi2 := h.2 st1 hrun i hi
    rw [hlook, slotOf_msgMixed_ge i h8, lookup_leaks_zeros_lo i hi] at hi2
    exact hi2
  refine ⟨agg, hagg, st1, hrun, ?_, hpre, ?_⟩
  · intro i hi
    have hi2 := h.2 st1 hrun i (by omega)
    rw [habs i hi] at hi2
    obtain ⟨bytes, hr, _, b, hb, hbytes⟩ := hi2
    rw [absentBefore_of_absent _ _ i (fun k hk => habs k (by omega))] at hr
    have hd : (SearchState.start sigB).draws + i = i := Nat.zero_add i
    rw [hd] at hr
    have hbs : seqByte i = bytes := RandResult.ok.inj hr
    rw [hbs]
    exact ⟨b, hb, hbytes⟩
  · intro heq
    have h8 := hpre 8 (le_refl _) (by norm_num)
    rw [heq, sigB_getElem 8 (by norm_num)] at h8
    exact blockA_ne_blockB (Option.some.inj h8).symm


/-- C2. Forgery without guessing: when every known pair is accepted by `Verify`
under `pub`, the aggregation ends normally, and for a candidate message all of
whose 256 required slots are present in the aggregated map the search loop
builds its signature without any request to the random source, every block
being the block of the map at the required slot, and `Verify` accepts it. -/
theorem C2_forgery_without_guessing (H : Block → Block) (pub : PublicKey)
    (msgs : List Message) (sigs : List Signature) (hlen : msgs.length = sigs.length)
    (hver : ∀ p ∈ msgs.zip sigs, Verify H p.1 pub p.2 = true)
    (m : Message) (rnd : RandSource) (st : SearchState) :
    ∃ agg, aggregate msgs sigs = .next agg ∧
      ((∀ i, i < 256 → (agg.knownblocks.lookup (slotOf m i)).isSome) →
        ∃ st1, buildSig rnd agg.knownblocks m st = .next st1 ∧
          st1.draws = st.draws ∧
          (∀ i, i < 256 → st1.sig.Preimage[i]? = agg.knownblocks.lookup (slotOf m i)) ∧
          Verify H m pub st1.sig = true) := by
  refine ⟨_, aggregate_eq msgs sigs (le_of_eq hlen), fun hcov => ?_⟩
  obtain ⟨st1, hrun, _, hdr, _, _, hblocks⟩ := buildSig_covered rnd _ m st hcov
  refine ⟨st1, hrun, hdr, hblocks, ?_⟩
  rw [verify_iff]
  intro i hi
  have hb := hblocks i hi
  rw [lookup_aggregated] at hb
  cases hl : KnownBlocks.lookup (allLeaks msgs sigs) (slotOf m i) with
  | none =>
    have := hcov i hi
    rw [lookup_aggregated, hl] at this
    cases this
  | some b =>
    rw [hl] at hb
    rw [getD_of_getElem? _ i b hb, leak_valid H pub msgs sigs hver _ b hl,
      atSlot_slotOf pub m i hi]

/-- C2, at a concrete input: from the two complementary pairs, the all-zero
message signed by `sigA` and the all-one message signed by `sigB`, both valid
under `pubAB` with the identity in place of the hash, the candidate `msgMixed`,
which is neither of the known messages, is built without the random source,
which here fails on every request: its blocks 0 to 7 come from the second pair,
the others from the first, and `Verify` accepts it. -/
theorem C2_forgery_without_guessing_witness :
    msgMixed ≠ msgZeros ∧ msgMixed ≠ msgOnes ∧
    Verify id msgZeros pubAB sigA = true ∧ Verify id msgOnes pubAB sigB = true ∧
    ∃ agg, aggregate [msgZeros, msgOnes] [sigA, sigB] = .next agg ∧
      ∃ st1, buildSig rndFail agg.knownblocks msgMixed (SearchState.start Signature.zero)
          = .next st1 ∧
        st1.draws = 0 ∧
        (∀ i, i < 8 → st1.sig.Preimage[i]? = some blockB) ∧
        (∀ i, 8 ≤ i → i < 256 → st1.sig.Preimage[i]? = some blockA) ∧
        Verify id msgMixed pubAB st1.sig = true := by
  have hver : ∀ p ∈ [msgZeros, msgOnes].zip [sigA, sigB], Verify id p.1 pubAB p.2 = true := by
    intro p hp
    simp only [List.zip_cons_cons, List.zip_nil_right, List.mem_cons, List.mem_singleton,
      List.not_mem_nil, or_false] at hp
    rcases hp with rfl | rfl
    · exact verify_sigA
    · exact verify_sigB
  have hlen : [msgZeros, msgOnes].length = [sigA, sigB].length := rfl
  obtain ⟨agg, hagg, h⟩ := C2_forgery_without_guessing id pubAB [msgZeros, msgOnes]
    [sigA, sigB] hlen hver msgMixed rndFail (SearchState.start Signature.zero)
  obtain ⟨agg2, hagg2, hlook⟩ := aggregate_lookup [msgZeros, msgOnes] [sigA, sigB]
    (le_of_eq hlen)
  rw [hagg] at hagg2
  have hag : agg = agg2 := Ctl.next.inj hagg2
  rw [← hag] at hlook
  have hlo : ∀ i, i < 8 → agg.knownblocks.lookup (slotOf msgMixed i) = some blockB := by
    intro i hi
    rw [hlook, slotOf_msgMixed_lt i hi]
    exact lookup_leaks_complement_hi i (by omega)
  have hhi : ∀ i, 8 ≤ i → i < 256 →
      agg.knownblocks.lookup (slotOf msgMixed i) = some blockA := by
    intro i h8 hi
    rw [hlook, slotOf_msgMixed_ge i h8]
    exact lookup_leaks_complement_lo i hi
  have hcov : ∀ i, i < 256 → (agg.knownblocks.lookup (slotOf msgMixed i)).isSome := by
    intro i hi
    by_cases h8 : i < 8
    · rw [hlo i h8]; rfl
    · rw [hhi i (by omega) hi]; rfl
  obtain ⟨st1, hrun, hdr, hblocks, hv⟩ := h hcov
  refine ⟨msgMixed_ne_msgZeros, msgMixed_ne_msgOnes, verify_sigA, verify_sigB, agg, hagg,
    st1, hrun, hdr, ?_, ?_, hv⟩
  · intro i hi
    rw [hblocks i (by omega), hlo i hi]
  · intro i h8 hi
    rw [hblocks i hi, hhi i h8 hi]

/-! ## Claims on what `Forge` returns and prints -/

/-- C3 (code at a failing input). With `envStuck` the four known pairs are
valid, no candidate is ever accepted, and after the 10^9 iterations `Forge`
returns the last candidate with a nil error although `Verify` rejects it. -/
theorem C3_exhausted_returns_nil :
    (∀ p ∈ envStuck.msgslice.zip envStuck.sigslice,
      envStuck.Verify p.1 envStuck.pub p.2 = true) ∧
    ∃ r, (Forge envStuck).result = some r ∧ r.err = none ∧
      envStuck.Verify (envStuck.GetMessageFromString r.msg) envStuck.pub r.sig = false := by
  constructor
  · intro p hp
    have hm : p.1 ∈ envStuck.msgslice := (List.of_mem_zip hp).1
    have hs : p.2 ∈ envStuck.sigslice := (List.of_mem_zip hp).2
    rw [envStuck_msgslice] at hm
    have hp1 : p.1 = msgZeros := by
      simp only [List.mem_cons, List.mem_singleton, List.not_mem_nil, or_false, or_self] at hm
      exact hm
    have hp2 : p.2 = sigA := by
      have : envStuck.sigslice = [sigA, sigA, sigA, sigA] := rfl
      rw [this] at hs
      simp only [List.mem_cons, List.mem_singleton, List.not_mem_nil, or_false, or_self] at hs
      exact hs
    rw [hp1, hp2]
    exact envStuck_verify
  · obtain ⟨st, hres, hdig, hrej⟩ := forge_exhausted envStuck
      (fun s => envStuck.GetMessageFromString s.msgString = msgOnes ∧
        Verify id msgOnes pubAB s.sig = false) envStuck_step
    refine ⟨_, hres, rfl, ?_⟩
    show Verify id (envStuck.GetMessageFromString st.msgString) pubAB st.sig = false
    rw [hdig]
    exact hrej

/-- C4 (code at a failing input). With a random source every request of which
fails, `GenerateRandomString` reports the error, the search loop discards it,
and `Forge` returns the candidate built from the empty nonce with a nil
error. -/
theorem C4_nonce_failure_ignored :
    (∀ c, rndFail c = .fail "entropy") ∧
    GenerateRandomString rndFail 0 8 = (("", some "entropy"), 1) ∧
    (Forge (envDup sigA rndFail)).result = some ⟨msgString_pre, sigA, none⟩ := by
  refine ⟨fun _ => rfl, rfl, ?_⟩
  have h := forge_same_digest (envDup sigA rndFail) msgZeros (fun _ => rfl) (envDup_verify _ _)
  rw [h]
  rfl

/-- C5 (counterexample). Of the four known pairs of `envDup sigB rndZero` the
first two claim different blocks for slot 0; the aggregation ends normally all
the same, and `Forge` returns exactly what it returns, with a nil error, for
the consistent pairs of `envDup sigA rndZero`. -/
theorem C5_counterexample :
    ¬ Consistent (envDup sigB rndZero).msgslice (envDup sigB rndZero).sigslice ∧
    Consistent (envDup sigA rndZero).msgslice (envDup sigA rndZero).sigslice ∧
    (∃ st, aggregate (envDup sigB rndZero).msgslice (envDup sigB rndZero).sigslice = .next st) ∧
    (Forge (envDup sigB rndZero)).result = (Forge (envDup sigA rndZero)).result ∧
    ∃ r, (Forge (envDup sigB rndZero)).result = some r ∧ r.err = none := by
  have hB := forge_same_digest (envDup sigB rndZero) msgZeros (fun _ => rfl) (envDup_verify _ _)
  have hA := forge_same_digest (envDup sigA rndZero) msgZeros (fun _ => rfl) (envDup_verify _ _)
  refine ⟨?_, ?_, ⟨_, aggregate_eq _ _ (le_refl 4)⟩, by rw [hB, hA]; rfl, ⟨_, hB, rfl⟩⟩
  · intro hc
    have h1 : (msgZeros, sigA) ∈
        (envDup sigB rndZero).msgslice.zip (envDup sigB rndZero).sigslice :=
      List.mem_cons_self _ _
    have h2 : (msgZeros, sigB) ∈
        (envDup sigB rndZero).msgslice.zip (envDup sigB rndZero).sigslice :=
      List.mem_cons_of_mem _ (List.mem_cons_self _ _)
    have := hc _ h1 _ h2 0 (by norm_num) rfl
    rw [sigA_getElem 0 (by norm_num), sigB_getElem 0 (by norm_num)] at this
    exact blockA_ne_blockB (Option.some.inj this)
  · intro p hp q hq i _ _
    have hs : ∀ x ∈ (envDup sigA rndZero).msgslice.zip (envDup sigA rndZero).sigslice,
        x.2 = sigA := by
      intro x hx
      have h2 : x.2 ∈ (envDup sigA rndZero).sigslice := (List.of_mem_zip hx).2
      have : (envDup sigA rndZero).sigslice = [sigA, sigA, sigA, sigA] := rfl
      rw [this] at h2
      simp only [List.mem_cons, List.mem_singleton, List.not_mem_nil, or_false, or_self] at h2
      exact h2
    rw [hs p hp, hs q hq]

/-- C5 (amended). The aggregation ends normally whatever the pairs are; it
prints nothing when no two pairs claim different blocks for the same slot,
prints the line `The existing sinatures are not consistent` when two pairs do,
and prints no other line. -/
theorem C5_inconsistency_printed (msgs : List Message) (sigs : List Signature)
    (hlen : msgs.length = sigs.length) :
    ∃ st, aggregate msgs sigs = .next st ∧
      (Consistent msgs sigs → st.out = []) ∧
      (¬ Consistent msgs sigs → inconsistentText ∈ st.out) ∧
      (∀ line ∈ st.out, line = inconsistentText) := by
  refine ⟨_, aggregate_eq msgs sigs (le_of_eq hlen), ?_⟩
  obtain ⟨n, hout, hiff⟩ := out_recordAll (allLeaks msgs sigs) AggState.init
  have hout2 : ((recordAll AggState.init (allLeaks msgs sigs)).withSi
      (if msgs = [] then 0 else 256)).out = List.replicate n inconsistentText := by
    show (recordAll AggState.init (allLeaks msgs sigs)).out = _
    rw [hout]
    rfl
  have hiff2 : n = 0 ↔ Consistent msgs sigs := by
    rw [hiff]
    exact allAgree_iff_consistent msgs sigs
  rw [hout2]
  refine ⟨?_, ?_, ?_⟩
  · intro hc
    rw [hiff2.mpr hc]
    rfl
  · intro hc
    have hn : n ≠ 0 := fun h => hc (hiff2.mp h)
    exact List.mem_replicate.mpr ⟨hn, rfl⟩
  · intro line hl
    exact (List.mem_replicate.mp hl).2

/-- C5 (amended), at a concrete input: two pairs on the all-zero message with
different blocks are not consistent, and the line is printed. -/
theorem C5_inconsistency_printed_witness :
    ¬ Consistent [msgZeros, msgZeros] [sigA, sigB] ∧
    ∃ st, aggregate [msgZeros, msgZeros] [sigA, sigB] = .next st ∧
      inconsistentText ∈ st.out := by
  have hnc : ¬ Consistent [msgZeros, msgZeros] [sigA, sigB] := by
    intro hc
    have := hc (msgZeros, sigA) (List.mem_cons_self _ _) (msgZeros, sigB)
      (List.mem_cons_of_mem _ (List.mem_cons_self _ _)) 0 (by norm_num) rfl
    rw [sigA_getElem 0 (by norm_num), sigB_getElem 0 (by norm_num)] at this
    exact blockA_ne_blockB (Option.some.inj this)
  have hlen : [msgZeros, msgZeros].length = [sigA, sigB].length := rfl
  obtain ⟨st, hrun, _, hprint, _⟩ := C5_inconsistency_printed [msgZeros, msgZeros] [sigA, sigB] hlen
  exact ⟨hnc, st, hrun, hprint hnc⟩

/-! ## Claims on the returned string and on `GenerateRandomString` -/

/-- C11. Disjoint message space: `Forge` always returns, and the string it
returns, on whichever path, begins with the fixed prefix
`my forge; Jingbo Liu; jingbo.liu2013@gmail.com;`; it therefore contains the
substring `forge` and is none of the known messages `1`, `2`, `3`, `4`. -/
theorem C11_disjoint_message_space (env : Env) :
    ∃ r, (Forge env).result = some r ∧
      (∃ suffix, r.msg = "my forge; Jingbo Liu; jingbo.liu2013@gmail.com;" ++ suffix) ∧
      (∃ a b, r.msg = a ++ "forge" ++ b) ∧
      r.msg ≠ "1" ∧ r.msg ≠ "2" ∧ r.msg ≠ "3" ∧ r.msg ≠ "4" := by
  obtain ⟨r, hr, suffix, hs⟩ := forge_returns env iterationCap
  have hlen : r.msg.length = 47 + suffix.length := by
    rw [hs, String.length_append, msgString_pre_length]
  have hne : ∀ s : String, s.length = 1 → r.msg ≠ s := by
    intro s h1 he
    rw [he] at hlen
    omega
  refine ⟨r, hr, ⟨suffix, hs⟩, ⟨"my ", "; Jingbo Liu; jingbo.liu2013@gmail.com;" ++ suffix, ?_⟩,
    hne _ rfl, hne _ rfl, hne _ rfl, hne _ rfl⟩
  rw [hs, msgString_pre_forge, String.append_assoc]

/-- C12. The function `GenerateRandomString(n)`: when the random source
delivers, it returns a nil error and a string of exactly `n` characters, the
`k`-th being `letters[b_k mod 63]` for the `k`-th delivered byte `b_k`, a
character of the 63-character alphabet; when the random source fails, with or
without bytes written before the failure, it returns the empty string and that
error.  Either way one request is made. -/
theorem C12_generate_random_string (rnd : RandSource) (c n : Nat) :
    letters.length = 63 ∧
    (∀ bytes, rnd c = .ok bytes →
      ∃ s, GenerateRandomString rnd c n = ((s, none), c + 1) ∧
        s.length = n ∧
        ∀ k, k < n → s.toList[k]? = letters.toList[(bytes k).val % 63]? ∧
          ∃ ch, s.toList[k]? = some ch ∧ ch ∈ letters.toList) ∧
    (∀ e, (rnd c).error? = some e →
      GenerateRandomString rnd c n = (("", some e), c + 1)) := by
  refine ⟨letters_length, ?_, ?_⟩
  · intro bytes h
    refine ⟨String.mk (((List.range n).map bytes).map letterOf), ?_, ?_, ?_⟩
    · simp [GenerateRandomString, GenerateRandomBytes, h]
    · simp [String.length]
    · intro k hk
      have hk2 : (((List.range n).map bytes).map letterOf)[k]? = some (letterOf (bytes k)) := by
        simp [List.getElem?_map, List.getElem?_range hk]
      have hk3 : (String.mk (((List.range n).map bytes).map letterOf)).toList[k]?
          = some (letterOf (bytes k)) := hk2
      exact ⟨hk3.trans (letterOf_eq (bytes k)).symm, _, hk3, letterOf_mem _⟩
  · intro e h
    cases hx : rnd c with
    | ok bytes =>
      rw [hx] at h
      simp [RandResult.error?] at h
    | fail e1 =>
      rw [hx] at h
      simp only [RandResult.error?, Option.some.injEq] at h
      simp [GenerateRandomString, GenerateRandomBytes, hx, h]
    | failAfter e1 m bytes =>
      rw [hx] at h
      simp only [RandResult.error?, Option.some.injEq] at h
      simp [GenerateRandomString, GenerateRandomBytes, hx, h]

/-- C12, at a concrete input: a request for 8 characters from a source that
delivers zero bytes gives 8 characters, the first being `0`, and from a source
that fails gives the empty string and the error. -/
theorem C12_generate_random_string_witness :
    (∃ s, GenerateRandomString rndZero 0 8 = ((s, none), 1) ∧ s.length = 8 ∧
      s.toList[0]? = some '0') ∧
    GenerateRandomString rndFail 0 8 = (("", some "entropy"), 1) := by
  obtain ⟨s, hs, hl, hk⟩ := (C12_generate_random_string rndZero 0 8).2.1 (fun _ => 0) rfl
  exact ⟨⟨s, hs, hl, (hk 0 (by norm_num)).1⟩,
    (C12_generate_random_string rndFail 0 8).2.2 "entropy" rfl⟩

/-! ## Claims on the search loop -/

/-- C13 (counterexample). With `envStuckFail` the first candidate needs slot 256,
which is absent, and the read of the random source fails: `Forge` returns the
error, and the first iteration has performed 1 bit step, not 256. -/
theorem C13_counterexample :
    ∃ agg, aggregate envStuckFail.msgslice envStuckFail.sigslice = .next agg ∧
      iterSteps (envStuckFail.searchEnv agg.knownblocks) (SearchState.start Signature.zero)
        = 1 ∧
      ∃ r, (Forge envStuckFail).result = some r ∧ r.err = some "entropy" := by
  exact forge_first_read_fails_agg envStuckFail msgOnes "entropy" envStuckFail_digest
    envStuckFail_lookup_absent envStuckFail_rnd

/-- C13 (amended). Bounded search: whatever the random source and `Verify` do,
the search returns, having called `Verify` at most once in each of at most
`cap` iterations, hence at most 10^9 times in `Forge`; an iteration performs at
most 256 bit steps, and exactly 256 when its two bit-walking loops end normally
and `Verify` is reached.  When the loop runs out of iterations every one of
them has rejected its candidate. -/
theorem C13_bounded_search (env : SearchEnv) (cap : Nat) (st : SearchState) (sig : Signature) :
    (∃ r, search env cap sig = .ret r) ∧
    verifyCalls env cap st ≤ cap ∧
    verifyCalls env iterationCap st ≤ 1000000000 ∧
    iterSteps env st ≤ 256 ∧
    (∀ st1, buildSig env.rnd env.knownblocks
        (env.GetMessageFromString
          (msgString_pre ++ (GenerateRandomString env.rnd st.draws 8).1.1))
        { st with msgString := msgString_pre ++ (GenerateRandomString env.rnd st.draws 8).1.1,
                  draws := (GenerateRandomString env.rnd st.draws 8).2 } = .next st1 →
      iterSteps env st = 256 ∧ st1.si = 256) ∧
    (∀ st1, searchLoop env cap st = .next st1 →
      st1.tested = st.tested + cap ∧ verifyCalls env cap st = cap) := by
  refine ⟨?_, verifyCalls_le env cap st, verifyCalls_le env iterationCap st,
    iterSteps_le env st, ?_, ?_⟩
  · obtain ⟨r, hr, _⟩ := search_returns env cap sig
    exact ⟨r, hr⟩
  · intro st1 h
    refine ⟨iterSteps_of_next env st st1 h, ?_⟩
    rcases buildSig_cases env.rnd env.knownblocks _ _ with ⟨st2, h2, hsi, _⟩ | ⟨_, _, _, h2, _⟩
    · rw [h] at h2
      cases h2
      exact hsi
    · rw [h] at h2
      cases h2
  · intro st1 h
    exact verifyCalls_of_next env cap st st1 h

/-- C14. Fresh candidate per iteration: a pass of the two bit-walking loops that
ends normally, so that `Verify` is reached, has assigned every one of the 256
entries of `sig.Preimage` (from the map, or from that pass's draws); and a pass
for the same candidate and map started after the same number of requests, but
with any other signature, string or counters, ends normally too with the same
signature and the same number of requests made. -/
theorem C14_fresh_candidate (rnd : RandSource) (kb : KnownBlocks) (msg : Message)
    (st1 st2 r1 : SearchState) (hd : st1.draws = st2.draws)
    (h1 : buildSig rnd kb msg st1 = .next r1) :
    (∀ i, i < 256 → ∃ b, r1.sig.Preimage[i]? = some b ∧ BuiltAt rnd kb msg st1.draws i b) ∧
    ∃ r2, buildSig rnd kb msg st2 = .next r2 ∧ r2.sig = r1.sig ∧ r2.draws = r1.draws := by
  refine ⟨?_, buildSig_fresh rnd kb msg st1 st2 r1 hd h1⟩
  rcases buildSig_cases rnd kb msg st1 with ⟨r, hr, _, _, _, _, hb1⟩ | ⟨_, _, _, hr, _⟩
  · rw [h1] at hr
    cases hr
    exact hb1
  · rw [h1] at hr
    cases hr

/-- C14, at a concrete input: with the empty map and a source of zero bytes,
the candidate for the all-zero message is the same whether `sig` held the zero
value or `sigA` before. -/
theorem C14_fresh_candidate_witness :
    ∃ r1 r2, buildSig rndZero [] msgZeros (SearchState.start Signature.zero) = .next r1 ∧
      buildSig rndZero [] msgZeros (SearchState.start sigA) = .next r2 ∧ r2.sig = r1.sig := by
  obtain ⟨r1, h1⟩ := buildSig_rndZero [] msgZeros (SearchState.start Signature.zero)
  obtain ⟨_, r2, h2, hs, _⟩ := C14_fresh_candidate rndZero [] msgZeros
    (SearchState.start Signature.zero) (SearchState.start sigA) r1 rfl h1
  exact ⟨r1, r2, h1, h2, hs⟩

/-- C15. The partial key is read-only during the search: run on the variables
of `Forge` with the map `knownblocks` among them, the search loop, for every
number of iterations and whatever the random source and `Verify` do, never
panics, and the map is the one it started with both when the loop runs out of
iterations and when `Forge` returns from inside it; the other variables end as
in the loop that only reads the map. -/
theorem C15_partial_key_read_only (env : Env) (kb : KnownBlocks) (cap : Nat)
    (st : SearchState) :
    searchLoopV env cap ⟨kb, st⟩ = withMap kb (searchLoop (env.searchEnv kb) cap st) ∧
    (∀ v1, searchLoopV env cap ⟨kb, st⟩ = .next v1 → v1.knownblocks = kb) ∧
    (∀ r kb1, searchLoopV env cap ⟨kb, st⟩ = .ret (r, kb1) → kb1 = kb) ∧
    searchLoopV env cap ⟨kb, st⟩ ≠ .panicked := by
  have h := searchLoopV_eq env kb cap st
  refine ⟨h, ?_, ?_, ?_⟩
  · intro v1 hv
    rw [h] at hv
    cases hs : searchLoop (env.searchEnv kb) cap st with
    | next s1 => rw [hs] at hv; cases hv; rfl
    | ret r => rw [hs] at hv; cases hv
    | panicked => rw [hs] at hv; cases hv
  · intro r kb1 hv
    rw [h] at hv
    cases hs : searchLoop (env.searchEnv kb) cap st with
    | next s1 => rw [hs] at hv; cases hv
    | ret r => rw [hs] at hv; cases hv; rfl
    | panicked => rw [hs] at hv; cases hv
  · intro hv
    rw [h] at hv
    rcases searchLoop_total (env.searchEnv kb) cap st with ⟨s1, hs⟩ | ⟨r, hs⟩
    · rw [hs] at hv; cases hv
    · rw [hs] at hv; cases hv

/-! ## Claims on the aggregated map -/

/-- C16. Leaked blocks are valid preimages: when every known pair is accepted
by `Verify` under `pub`, the aggregation ends normally and every entry of the
map satisfies `HashBlock(knownblocks[s]) =` the block of the public key at slot
`s` (row 0 at `s` for `s < 256`, row 1 at `s - 256` otherwise); consistency of
the pairs is not assumed. -/
theorem C16_leaked_blocks_valid (H : Block → Block) (pub : PublicKey)
    (msgs : List Message) (sigs : List Signature) (hlen : msgs.length = sigs.length)
    (hver : ∀ p ∈ msgs.zip sigs, Verify H p.1 pub p.2 = true) :
    ∃ st, aggregate msgs sigs = .next st ∧
      ∀ s b, st.knownblocks.lookup s = some b →
        H b = (if s < 256 then pub.row0.getD s Block.zero
               else pub.row1.getD (s - 256) Block.zero) := by
  refine ⟨_, aggregate_eq msgs sigs (le_of_eq hlen), ?_⟩
  intro s b h
  rw [lookup_aggregated] at h
  exact leak_valid H pub msgs sigs hver s b h

/-- C16, at a concrete input: two pairs that are both accepted (under a
stand-in hash that is not injective) and are not consistent with each other. -/
theorem C16_leaked_blocks_valid_witness :
    ¬ Consistent [msgZeros, msgZeros] [sigA, sigB] ∧
    ∃ st, aggregate [msgZeros, msgZeros] [sigA, sigB] = .next st ∧
      ∀ s b, st.knownblocks.lookup s = some b →
        hashToA b = (if s < 256 then pubAA.row0.getD s Block.zero
               else pubAA.row1.getD (s - 256) Block.zero) := by
  have hlen : [msgZeros, msgZeros].length = [sigA, sigB].length := rfl
  exact ⟨not_consistent_AB, C16_leaked_blocks_valid hashToA pubAA [msgZeros, msgZeros]
    [sigA, sigB] hlen (fun p _ => verify_pubAA p.1 p.2)⟩

/-- C17. Coverage formula: for a non-empty list of known pairs the aggregation
ends normally and the number of entries of the map is 256 plus the number of
bit positions `i` in `0..255` at which two known messages differ; it lies
between 256 and 512 and is exactly 256 when all known messages are the same,
in particular for a single pair. -/
theorem C17_coverage_formula (msgs : List Message) (sigs : List Signature)
    (hlen : msgs.length = sigs.length) (hne : msgs ≠ []) :
    ∃ st, aggregate msgs sigs = .next st ∧
      st.knownblocks.len = 256 + (List.range 256).countP (fun i =>
        decide (∃ m ∈ msgs, ∃ m2 ∈ msgs, BitAt m.bytes i ≠ BitAt m2.bytes i)) ∧
      256 ≤ st.knownblocks.len ∧ st.knownblocks.len ≤ 512 ∧
      ((∀ m ∈ msgs, ∀ m2 ∈ msgs, m = m2) → st.knownblocks.len = 256) := by
  refine ⟨_, aggregate_eq msgs sigs (le_of_eq hlen), ?_⟩
  have h := len_aggregated msgs sigs hlen hne (if msgs = [] then 0 else 256)
  have hle := List.countP_le_length (fun i =>
    decide (∃ m ∈ msgs, ∃ m2 ∈ msgs, BitAt m.bytes i ≠ BitAt m2.bytes i))
    (l := List.range 256)
  rw [List.length_range] at hle
  refine ⟨h, by omega, by omega, ?_⟩
  intro hsame
  rw [h]
  have hz : (List.range 256).countP (fun i =>
      decide (∃ m ∈ msgs, ∃ m2 ∈ msgs, BitAt m.bytes i ≠ BitAt m2.bytes i)) = 0 := by
    rw [List.countP_eq_zero]
    intro i _
    simp only [decide_eq_true_eq]
    rintro ⟨m, hm, m2, hm2, hd⟩
    exact hd (by rw [hsame m hm m2 hm2])
  rw [hz]

/-- C17, at a concrete input: a single pair gives exactly 256 entries. -/
theorem C17_coverage_formula_witness :
    ∃ st, aggregate [msgZeros] [sigA] = .next st ∧ st.knownblocks.len = 256 := by
  have hlen : [msgZeros].length = [sigA].length := rfl
  obtain ⟨st, hrun, _, _, _, hsame⟩ := C17_coverage_formula [msgZeros] [sigA] hlen
    (List.cons_ne_nil _ _)
  refine ⟨st, hrun, hsame ?_⟩
  intro m hm m2 hm2
  rw [List.mem_singleton.mp hm, List.mem_singleton.mp hm2]

/-- C18. Order independence of aggregation: for a list of known pairs and any
permutation of it, both aggregations end normally and have the same set of
slots; and when no two pairs claim different blocks for the same slot, they
hold the same block at every slot. -/
theorem C18_order_independence (ps qs : List (Message × Signature)) (hperm : ps.Perm qs) :
    ∃ st1 st2, aggregate (ps.map Prod.fst) (ps.map Prod.snd) = .next st1 ∧
      aggregate (qs.map Prod.fst) (qs.map Prod.snd) = .next st2 ∧
      (∀ s, (st1.knownblocks.lookup s).isSome ↔ (st2.knownblocks.lookup s).isSome) ∧
      (Consistent (ps.map Prod.fst) (ps.map Prod.snd) →
        ∀ s, st1.knownblocks.lookup s = st2.knownblocks.lookup s) := by
  refine ⟨_, _, aggregate_eq _ _ (by simp), aggregate_eq _ _ (by simp), ?_, ?_⟩
  · intro s
    rw [lookup_aggregated, lookup_aggregated]
    have := lookup_allLeaks_none_perm ps qs hperm s
    cases h1 : KnownBlocks.lookup (allLeaks (ps.map Prod.fst) (ps.map Prod.snd)) s with
    | none => rw [this.mp h1]
    | some b1 =>
      cases h2 : KnownBlocks.lookup (allLeaks (qs.map Prod.fst) (qs.map Prod.snd)) s with
      | none =>
        rw [this.mpr h2] at h1
        cases h1
      | some b2 => simp
  · intro hc s
    rw [lookup_aggregated, lookup_aggregated]
    exact lookup_allLeaks_perm ps qs hperm hc s

/-- C18, at a concrete input: the two pairs on complementary messages, which
are consistent, in the two orders. -/
theorem C18_order_independence_witness :
    Consistent [msgZeros, msgOnes] [sigA, sigB] ∧
    ∃ st1 st2, aggregate [msgZeros, msgOnes] [sigA, sigB] = .next st1 ∧
      aggregate [msgOnes, msgZeros] [sigB, sigA] = .next st2 ∧
      ∀ s, st1.knownblocks.lookup s = st2.knownblocks.lookup s := by
  obtain ⟨st1, st2, h1, h2, _, h4⟩ := C18_order_independence
    [(msgZeros, sigA), (msgOnes, sigB)] [(msgOnes, sigB), (msgZeros, sigA)]
    (List.Perm.swap _ _ _)
  exact ⟨consistent_complement, st1, st2, h1, h2, h4 consistent_complement⟩

/-! ## Claims on the nonce alphabet and on the indices -/

/-- C19. Modulo bias of `GenerateRandomString`: the 63 characters of the
alphabet are distinct and start with `0`, `1`, `2`, `3`; among the 256 byte
values, the character at index `k` of the alphabet is the image of exactly 5
bytes when `k < 4` and of exactly 4 bytes otherwise, under
`b -> letters[b mod 63]`; so the map is not balanced. -/
theorem C19_modulo_bias :
    letters.toList.Nodup ∧ letters.toList.length = 63 ∧
    letters.toList.take 4 = ['0', '1', '2', '3'] ∧
    (∀ k c, letters.toList[k]? = some c →
      (List.finRange 256).countP (fun b => decide (letterOf b = c))
        = if k < 4 then 5 else 4) ∧
    (List.finRange 256).countP (fun b => decide (letterOf b = '0')) = 5 ∧
    (List.finRange 256).countP (fun b => decide (letterOf b = '3')) = 5 ∧
    (List.finRange 256).countP (fun b => decide (letterOf b = '4')) = 4 ∧
    (List.finRange 256).countP (fun b => decide (letterOf b = '-')) = 4 := by
  refine ⟨letters_nodup, letters_length, by decide, count_letterOf, ?_, ?_, ?_, ?_⟩
  · exact count_letterOf 0 '0' (by decide)
  · exact count_letterOf 3 '3' (by decide)
  · exact count_letterOf 4 '4' (by decide)
  · exact count_letterOf 62 '-' (by decide)

/-- C20. Index safety: on a 32-byte message the bit walk of both loops uses
the counter `si` with the values `0, 1, ..., 255` in this order and leaves it
at 256; with as many signatures as messages the aggregation never lets
`sigslice[mi]` or `Preimage[si]` leave its array (it ends normally, with
`si = 256` when there is a message), whereas a message without a signature
does; the construction loops never let `Preimage[si]` leave the array and end
with `si = 256`; the search returns; and in `GenerateRandomString` the index
`b mod 63` is below the length 63 of the alphabet. -/
theorem C20_index_safety :
    (∀ msg : Message, ∃ w, walk msg = .next w ∧ w.si = 256 ∧
      w.tests.map Prod.fst = List.range 256) ∧
    (∀ (msgs : List Message) (sigs : List Signature), msgs.length = sigs.length →
      ∃ st, aggregate msgs sigs = .next st ∧ (msgs ≠ [] → st.si = 256)) ∧
    (∀ (msg : Message) (msgs : List Message), aggregate (msg :: msgs) [] = .panicked) ∧
    (∀ (rnd : RandSource) (kb : KnownBlocks) (msg : Message) (st : SearchState),
      buildSig rnd kb msg st ≠ .panicked ∧
      ∀ st1, buildSig rnd kb msg st = .next st1 → st1.si = 256) ∧
    (∀ (env : SearchEnv) (cap : Nat) (sig : Signature), ∃ r, search env cap sig = .ret r) ∧
    (∀ b : Byte, letterIndex b = b.val % 63 ∧ letterIndex b < letters.length ∧
      letters.length = 63) := by
  refine ⟨walk_indices, ?_, aggregate_short, buildSig_no_panic, ?_, ?_⟩
  · intro msgs sigs hlen
    refine ⟨_, aggregate_eq msgs sigs (le_of_eq hlen), ?_⟩
    intro hne
    simp [AggState.withSi, hne]
  · intro env cap sig
    obtain ⟨r, hr, _⟩ := search_returns env cap sig
    exact ⟨r, hr⟩
  · intro b
    exact ⟨letterIndex_eq b, letterIndex_lt b, letters_length⟩

end Lamport
